import Mathlib

/-!
Formal model of the `Convert_excel_pdf` OOXML workbook splitter and its
conversion/recombination pipeline, together with theorems about the
behaviour of that code.

The Python sources modelled here are:
  * `Convert_excel_pdf/excel_splitter.py`   (OPC package splitter)
  * `Convert_excel_pdf/service/lool_client.py` (remote renderer client)
  * `Convert_excel_pdf/convert_parts_combine.py` (per-chunk convert+combine)
  * `Convert_excel_pdf/batch_convert.py`    (chunked batch converter)

XML payloads are modelled at the level of their parsed structure: a package
part's bytes are represented by a `Content` value holding the information the
splitter actually reads (relationship lists, workbook descriptors, content
type overrides, app properties), with `Content.data` standing for raw bytes
that do not parse as XML.  Filesystem and zip-container side effects are
abstracted away: an archive is a finite association list from part path to
content, in write order.
-/

set_option maxRecDepth 8000

namespace RagSpec

/-! ## String and posix-path helpers

These mirror the exact computations done through `str` and `posixpath`
in the Python sources.  All computations are over `String.data` character
lists so that concrete runs reduce by `decide`/`rfl`.
-/

/-- Split a character list at every occurrence of `sep` (like `str.split`). -/
def splitCl (sep : Char) : List Char → List (List Char)
  | [] => [[]]
  | c :: rest =>
    let r := splitCl sep rest
    if c = sep then [] :: r
    else
      match r with
      | [] => [[c]]
      | h :: t => (c :: h) :: t

/-- The `/`-separated components of a path (Python `p.split("/")`). -/
def comps (s : String) : List String := (splitCl '/' s.data).map (fun l => ⟨l⟩)

/-- Join components with `/` (inverse of `comps` on slash-free components). -/
def joinComps (cs : List String) : String := ⟨List.intercalate ['/'] (cs.map String.data)⟩

/-- Python `s.startswith(pre)`. -/
def strStarts (pre s : String) : Bool := pre.data.isPrefixOf s.data

/-- Python `s.endswith(suf)`. -/
def strEnds (suf s : String) : Bool := suf.data.isSuffixOf s.data

/-- Substring containment on character lists (Python `sub in s`). -/
def hasSubstrCl (sub : List Char) : List Char → Bool
  | [] => sub.isEmpty
  | c :: rest => sub.isPrefixOf (c :: rest) || hasSubstrCl sub rest

/-- Python `sub in s`. -/
def hasSubstr (sub s : String) : Bool := hasSubstrCl sub.data s.data

/-- Python `s.lstrip("/")`. -/
def lstripSlash (s : String) : String := ⟨s.data.dropWhile (fun c => c = '/')⟩

/-- Drop trailing empty components (the effect of `rstrip("/")` on a joined path). -/
def dropTrailingEmpty (l : List String) : List String :=
  (l.reverse.dropWhile (fun c => c = "")).reverse

/-- Python `posixpath.dirname p`.  (For the all-slash head, `dirname` keeps the
slashes; that branch is unreachable from the splitter, whose base paths never
start with `/`.) -/
def posixDirname (p : String) : String :=
  let cs := comps p
  if cs.length ≤ 1 then ""
  else
    let head := cs.dropLast
    if head.all (fun c => c = "") then ⟨List.replicate head.length '/'⟩
    else joinComps (dropTrailingEmpty head)

/-- Python `posixpath.split p` second component: the part after the last `/`. -/
def lastComp (p : String) : String := (comps p).getLastD ""

/-- Python `posixpath.join a b` for a single extra component. -/
def posixJoin (a b : String) : String :=
  if strStarts "/" b then b
  else if a = "" then b
  else if strEnds "/" a then a ++ b
  else a ++ "/" ++ b

/-- The component stack built by `posixpath.normpath` on a relative path:
empty and `.` components vanish, `..` pops unless the stack holds only
leading `..`s.  The stack is accumulated in reverse. -/
def normStack : List String → List String → List String
  | stack, [] => stack
  | stack, c :: rest =>
    if c = "" ∨ c = "." then normStack stack rest
    else if c = ".." then
      match stack with
      | [] => normStack [".."] rest
      | top :: below =>
        if top = ".." then normStack (c :: top :: below) rest
        else normStack below rest
    else normStack (c :: stack) rest

/-- Python `posixpath.normpath p` for paths that do not start with `/`
(the only inputs it receives in `normalize_target_path`). -/
def normpathRel (p : String) : String :=
  let st := (normStack [] (comps p)).reverse
  if st = [] then "." else joinComps st

/-- Model of `excel_splitter.normalize_target_path`: resolve a relationship
target against its source part, returning `none` for empty, fragment-only,
URL or root-escaping targets. -/
def normalize_target_path (basePath target : String) : Option String :=
  if target = "" then none
  else
    let targetPath : String := ⟨target.data.takeWhile (fun c => c ≠ '#')⟩
    if targetPath = "" then none
    else if hasSubstr "://" targetPath then none
    else
      let resolved :=
        if strStarts "/" targetPath then lstripSlash targetPath
        else
          let baseDir := if basePath = "_rels/.rels" then "" else posixDirname basePath
          normpathRel (posixJoin baseDir targetPath)
      if strStarts "../" resolved ∨ resolved = ".." then none
      else if strStarts "./" resolved then some ⟨resolved.data.drop 2⟩
      else some resolved

/-- Model of `excel_splitter.relationship_part_path`. -/
def relationship_part_path (p : String) : String :=
  let directory := posixDirname p
  let filename := lastComp p
  if directory = "" then posixJoin "_rels" (filename ++ ".rels")
  else posixJoin (posixJoin directory "_rels") (filename ++ ".rels")

/-- `excel_splitter.SKIP_PARTS`. -/
def skipPartsList : List String :=
  ["xl/calcChain.xml", "xl/_rels/calcChain.xml.rels"]

/-- `excel_splitter.SKIP_PREFIXES`. -/
def skipStartList : List String :=
  ["xl/externalLinks", "xl/_rels/externalLinks", "xl/pivotCache",
   "xl/slicerCaches", "xl/timelineCache"]

/-- Model of `excel_splitter.should_skip_part`. -/
def should_skip_part (p : String) : Bool :=
  let path := lstripSlash p
  skipPartsList.contains path || skipStartList.any (fun pre => strStarts pre path)

/-- Python whitespace test used by `str.strip` / `str.rstrip` (common cases). -/
def pyIsSpace (c : Char) : Bool :=
  c = ' ' || c = '\t' || c = '\n' || c = '\x0d' || c = '\x0b' || c = '\x0c'

/-- Python `s.rstrip()` on a character list. -/
def pyRstrip (l : List Char) : List Char := (l.reverse.dropWhile pyIsSpace).reverse

/-- Python `s.strip()`. -/
def pyStrip (l : List Char) : List Char :=
  pyRstrip (l.dropWhile pyIsSpace)

/-- Decimal digits to a natural number; `none` if empty or non-digits. -/
def natOfDigits? (l : List Char) : Option Nat :=
  if l ≠ [] ∧ l.all Char.isDigit then
    some (l.foldl (fun a c => a * 10 + (c.toNat - 48)) 0)
  else none

/-- Model of Python `int(s)` on the strings produced for `localSheetId`:
optional surrounding whitespace, an optional sign, then decimal digits.
(Underscore digit-group separators are not modelled.) -/
def pyInt? (s : String) : Option Int :=
  let t := pyStrip s.data
  match t with
  | '-' :: rest => (natOfDigits? rest).map (fun n => -(n : Int))
  | '+' :: rest => (natOfDigits? rest).map (fun n => (n : Int))
  | _ => (natOfDigits? t).map (fun n => (n : Int))

/-! ## The defined-name sheet-reference scanner

`excel_splitter.extract_sheet_references` runs the regular expression
`(?:'([^']*(?:''[^']*)*)'|([A-Za-z0-9_\\. ]+))!` over a formula with
`re.findall` and collects the unescaped, right-stripped captures.  The
scanner below reproduces that engine's behaviour: at each position it first
tries the quoted alternative, then a greedy bare-character run, each of which
must be followed by `!`; on failure it advances one character.
-/

/-- Characters matched by the bare alternative `[A-Za-z0-9_\\. ]`. -/
def isBareChar (c : Char) : Bool :=
  c.isAlphanum || c = '_' || c = '\\' || c = '.' || c = ' '

/-- Replace each `''` by `'` left to right (Python `s.replace("''", "'")`). -/
def unescapeQuotes : List Char → List Char
  | '\'' :: '\'' :: rest => '\'' :: unescapeQuotes rest
  | c :: rest => c :: unescapeQuotes rest
  | [] => []

/-- Attempt the quoted alternative after an opening `'`:
returns the captured content and the remainder after the closing `'!`.
Double quotes are consumed as escapes; the match closes at the first
unpaired quote, which must be followed by `!`. -/
def quotedScan : List Char → Option (List Char × List Char)
  | [] => none
  | c :: rest =>
    if c = '\'' then
      match rest with
      | '\'' :: rest2 => (quotedScan rest2).map (fun pr => ('\'' :: '\'' :: pr.1, pr.2))
      | '!' :: rest2 => some ([], rest2)
      | _ => none
    else (quotedScan rest).map (fun pr => (c :: pr.1, pr.2))

/-- Post-process one captured candidate: unescape quotes and right-strip. -/
def scanName (content : List Char) : String := ⟨pyRstrip (unescapeQuotes content)⟩

/-- One left-to-right `findall` pass (fuel-bounded; `fuel = length` suffices
since every step consumes at least one character). -/
def scanRefs : Nat → List Char → List String
  | 0, _ => []
  | _, [] => []
  | fuel + 1, c :: rest =>
    if c = '\'' then
      match quotedScan rest with
      | some pr => scanName pr.1 :: scanRefs fuel pr.2
      | none => scanRefs fuel rest
    else if isBareChar c then
      match (c :: rest).dropWhile isBareChar with
      | '!' :: rem => scanName ((c :: rest).takeWhile isBareChar) :: scanRefs fuel rem
      | _ => scanRefs fuel rest
    else scanRefs fuel rest

/-- Model of `excel_splitter.extract_sheet_references` (membership-equivalent:
the Python function returns a set, this returns the names in scan order). -/
def extract_sheet_references (formula : String) : List String :=
  if hasSubstr "!" formula then
    (scanRefs formula.data.length formula.data).filter (fun n => n ≠ "")
  else []

/-! ## The OPC package data model

A `Rel` is one `<Relationship>` element of a `.rels` part (`Id` may be
absent; `Target`/`TargetMode` default to the empty string, exactly the
defaults used by `attrib.get` in the Python code).  A `Content` value is the
parsed form of a part's bytes; `Content.data` stands for bytes that are not
well-formed XML, and the structured constructors stand for well-formed XML of
the corresponding vocabulary (so a non-`.rels` XML payload read by a `.rels`
parser behaves as a relationship file with no `Relationship` elements, which
is what `ElementTree.findall` yields on it).
-/

structure Rel where
  id : Option String
  target : String
  targetMode : String
deriving DecidableEq, Repr

structure Override where
  partName : String
  contentType : String
deriving DecidableEq, Repr

structure SheetEntry where
  name : Option String
  rid : Option String
  sheetId : String
  tabSelected : Option String
deriving DecidableEq, Repr

structure DefinedName where
  dnName : String
  localSheetId : Option String
  formula : String
deriving DecidableEq, Repr

structure Workbook where
  sheets : Option (List SheetEntry)
  definedNames : Option (List DefinedName)
deriving DecidableEq, Repr

inductive Content where
  | data (n : Nat)
  | rels (l : List Rel)
  | workbook (wb : Workbook)
  | ctypes (overrides : List Override)
  | appProps (titles : Option (List String))
deriving DecidableEq, Repr

/-- An archive: part path to content, in write order (`zipfile` member list /
the splitter's ordered `entries` dict). -/
abbrev Archive := List (String × Content)

/-- `SheetInfo` from `excel_splitter.py`. -/
structure SheetInfo where
  name : String
  rid : String
  target : String
  index : Nat
deriving DecidableEq, Repr

/-- The exceptions `split_xlsx` and its helpers can raise. -/
inductive SplitErr where
  | badMaxSheets
  | missingContentTypes
  | workbookNotDeclared
  | missingWorkbook
  | missingWorkbookRels
  | noSheetsElement
  | noRidTarget (rid : String)
  | noWorksheets
  | missingPart (p : String)
  | xmlParse
deriving DecidableEq, Repr

deriving instance DecidableEq for Except

/-- Lookup of a part's content by path. -/
def lookupPart (a : Archive) (k : String) : Option Content :=
  (a.find? (fun e => e.1 = k)).map (fun e => e.2)

/-- The part paths of an archive (`zipfile.namelist()`). -/
def keysOf (a : Archive) : List String := a.map (fun e => e.1)

/-- Python dict assignment: replace in place if the key exists, else append. -/
def upsert (a : Archive) (k : String) (v : Content) : Archive :=
  if a.any (fun e => e.1 = k) then
    a.map (fun e => if e.1 = k then (k, v) else e)
  else a ++ [(k, v)]

/-- Set-style insertion into a list (Python `set.add`). -/
def insertStr (s : String) (l : List String) : List String :=
  if s ∈ l then l else s :: l

/-- The mutable state threaded through `copy_part_tree`:
the `entries` dict, the `written` set and the `seen` set. -/
structure CopyState where
  entries : Archive
  written : List String
  seen : List String
deriving DecidableEq, Repr

/-- Model of `excel_splitter.write_entry`. -/
def write_entry (st : CopyState) (path : String) (v : Content) : CopyState :=
  let key := lstripSlash path
  { st with
    entries := upsert st.entries key v,
    written := insertStr ("/" ++ key) st.written }

/-- Fallible results where `none` means the step-count fuel ran out (the
Python recursion has no such bound; by `copy_part_tree_fuel_sufficient`
the fuel used by the model never runs out). -/
abbrev OExc (α : Type) := Option (Except SplitErr α)

def bindOk (x : OExc CopyState) (f : CopyState → OExc CopyState) : OExc CopyState :=
  match x with
  | some (.ok s) => f s
  | other => other

/-- Sequential processing of a list of parts (the `for target in next_targets`
loops), propagating the first exception. -/
def copyFold (f : String → CopyState → OExc CopyState) :
    List String → OExc CopyState → OExc CopyState
  | [], x => x
  | t :: ts, x => copyFold f ts (bindOk x (f t))

/-- The relationship-rewriting loop of `copy_part_tree` (lines 154-175):
returns the kept relationships and the internal targets to recurse into.
External relationships are kept verbatim without recursion; a relationship
whose target does not resolve or resolves to the empty string (falsy under
Python's `if normalized:`) is kept without recursion; a nonempty resolved
target that is skip-listed or absent from the source drops the
relationship. -/
def filterRels (part : String) (srcKeys : List String) : List Rel → List Rel × List String
  | [] => ([], [])
  | r :: rest =>
    let pr := filterRels part srcKeys rest
    if r.targetMode = "External" then (r :: pr.1, pr.2)
    else
      match normalize_target_path part r.target with
      | none => (r :: pr.1, pr.2)
      | some n =>
        if n = "" then (r :: pr.1, pr.2)
        else if should_skip_part n then pr
        else if srcKeys.contains n then (r :: pr.1, n :: pr.2)
        else pr

/-- The companion-relationship stage of `copy_part_tree` (lines 144-182),
run after the part itself has been copied into `st1`: read and rewrite the
companion `.rels` part and recurse (through `rec`) into the collected
targets.  `rec` is the recursive call at the remaining fuel. -/
def copyRest (src : Archive) (rec : String → CopyState → OExc CopyState)
    (part : String) (st1 : CopyState) : OExc CopyState :=
  let rp := relationship_part_path part
  if rp ∉ keysOf src ∨ rp ∈ st1.seen then some (.ok st1)
  else
    match lookupPart src rp with
    | none => some (.ok st1)
    | some (.data _) => some (.error .xmlParse)
    | some (.rels l) =>
      let pr := filterRels part (keysOf src) l
      let st2 :=
        if pr.1 = [] then st1
        else
          let w := write_entry st1 rp (.rels pr.1)
          { w with seen := insertStr rp w.seen }
      copyFold rec pr.2 (some (.ok st2))
    | some _ => some (.ok st1)

/-- Model of `excel_splitter.copy_part_tree`, with an explicit recursion-step
fuel so the definition is structural.  `none` = fuel exhausted. -/
def copy_part_tree (src : Archive) : Nat → String → CopyState → OExc CopyState
  | 0, _, _ => none
  | fuel + 1, partPath, st =>
    let part := lstripSlash partPath
    if should_skip_part part ∨ part ∈ st.seen then some (.ok st)
    else
      match lookupPart src part with
      | none => some (.error (.missingPart part))
      | some content =>
        copyRest src (fun t s => copy_part_tree src fuel t s) part
          (write_entry { st with seen := insertStr part st.seen } part content)

/-! ## Workbook pruning -/

/-- Keep-test for a defined name (`sheet_refs and not sheet_refs.issubset`). -/
def refsOk (keepNames : List String) (dn : DefinedName) : Bool :=
  let refs := extract_sheet_references dn.formula
  decide (refs = []) || refs.all (fun r => keepNames.contains r)

/-- Position of the sheet with original index `oi` inside the kept chunk:
the `index_map` dict comprehension of `prune_workbook_xml` (a later duplicate
original index overwrites an earlier one, hence last match wins). -/
def indexPosAux (oi : Nat) : Nat → List SheetInfo → Option Nat
  | _, [] => none
  | p, info :: rest =>
    match indexPosAux oi (p + 1) rest with
    | some q => some q
    | none => if info.index = oi then some p else none

def indexPos (keepInfos : List SheetInfo) (oi : Nat) : Option Nat :=
  indexPosAux oi 0 keepInfos

/-- The defined-name case of `prune_workbook_xml` for one `<definedName>`:
`none` means the element is removed. -/
def pruneDefinedName (keepInfos : List SheetInfo) (dn : DefinedName) : Option DefinedName :=
  let keepNames := keepInfos.map (fun i => i.name)
  match dn.localSheetId with
  | some s =>
    match pyInt? s with
    | none => none
    | some k =>
      match (if k < 0 then none else indexPos keepInfos k.toNat) with
      | none => none
      | some newIdx =>
        if refsOk keepNames dn then some { dn with localSheetId := some (toString newIdx) }
        else none
  | none => if refsOk keepNames dn then some dn else none

/-- Model of `excel_splitter.prune_workbook_xml` (the `bookViews` active-tab
reset touches a record not represented in `Workbook` and is omitted). -/
def prune_workbook_xml (wb : Workbook) (keepInfos : List SheetInfo) :
    Except SplitErr Workbook :=
  match wb.sheets with
  | none => .error .noSheetsElement
  | some sheetEls =>
    let keepRids := keepInfos.map (fun i => i.rid)
    let kept := sheetEls.filter (fun e =>
      match e.rid with
      | some r => keepRids.contains r
      | none => false)
    let renum := kept.enum.map (fun p =>
      { p.2 with
        sheetId := toString (p.1 + 1),
        tabSelected := if p.1 = 0 then some "1" else none })
    let newDns :=
      match wb.definedNames with
      | none => none
      | some dns =>
        let l := dns.filterMap (pruneDefinedName keepInfos)
        if l = [] then none else some l
    .ok ⟨some renum, newDns⟩

/-- Model of `excel_splitter.prune_workbook_rels`: kept relationships and the
extra non-worksheet targets to copy. -/
def prune_workbook_rels (wbPath : String) (keepRids : List String) :
    List Rel → List Rel × List String
  | [] => ([], [])
  | r :: rest =>
    let pr := prune_workbook_rels wbPath keepRids rest
    let rid := r.id.getD ""
    let normalized := normalize_target_path wbPath r.target
    if r.targetMode = "External" then pr
    else if (match normalized with
             | some n => should_skip_part n
             | none => false) then pr
    else if hasSubstr "externalLinks/" r.target || hasSubstr "pivotCache" r.target then pr
    else if (match normalized with
             | some n => strEnds "calcChain.xml" n
             | none => false) then pr
    else if (hasSubstr "worksheets/" r.target || hasSubstr "chartsheets/" r.target)
            && !(keepRids.contains rid) then pr
    else
      (r :: pr.1,
       match normalized with
       | some n =>
         if n = "" then pr.2
         else if strStarts "xl/worksheets" n || strStarts "xl/chartsheets" n then pr.2
         else n :: pr.2
       | none => pr.2)

/-- Model of `excel_splitter.prune_content_types`: drop overrides naming a
part that was not written (an override with an empty part name is kept). -/
def prune_content_types (ovs : List Override) (written : List String) : List Override :=
  ovs.filter (fun o =>
    let pn := lstripSlash o.partName
    decide (pn = "" ∨ ("/" ++ pn) ∈ written))

/-- Model of `excel_splitter.update_docprops_app` on one content value:
only an extended-properties payload is rewritten (to carry the chunk's sheet
titles); other well-formed XML is passed through, raw bytes fail to parse. -/
def update_docprops_app (c : Content) (names : List String) : Except SplitErr Content :=
  if names = [] then .ok c
  else
    match c with
    | .appProps _ => .ok (.appProps (some names))
    | .data _ => .error .xmlParse
    | other => .ok other

/-- The `docProps/app.xml` refresh step of `split_xlsx` (lines 516-519). -/
def updateAppEntries (a : Archive) (names : List String) : Except SplitErr Archive :=
  match lookupPart a "docProps/app.xml" with
  | none => .ok a
  | some c => (update_docprops_app c names).map (fun c' => upsert a "docProps/app.xml" c')

/-! ## Loading the source package -/

def WORKBOOK_CONTENT_TYPE : String :=
  "application/vnd.openxmlformats-officedocument.spreadsheetml.sheet.main+xml"

/-- Parse a part as `[Content_Types].xml`. -/
def asOverrides : Content → Except SplitErr (List Override)
  | .ctypes l => .ok l
  | .data _ => .error .xmlParse
  | _ => .ok []

/-- Parse a part as a workbook descriptor. -/
def asWorkbook : Content → Except SplitErr Workbook
  | .workbook wb => .ok wb
  | .data _ => .error .xmlParse
  | _ => .ok ⟨none, none⟩

/-- Parse a part as a relationship file. -/
def asRels : Content → Except SplitErr (List Rel)
  | .rels l => .ok l
  | .data _ => .error .xmlParse
  | _ => .ok []

/-- Model of `excel_splitter.load_workbook_path`: first override with the
workbook content type and a non-empty part name. -/
def load_workbook_path (ovs : List Override) : Except SplitErr String :=
  match ovs.find? (fun o =>
      decide (o.contentType = WORKBOOK_CONTENT_TYPE ∧ o.partName ≠ "")) with
  | some o => .ok (lstripSlash o.partName)
  | none => .error .workbookNotDeclared

/-- The `rid_to_target` dict of `load_sheet_infos` (last write wins; an entry
is only recorded when the id is truthy and the target normalizes to a
nonempty — truthy — path, per `if rid and normalized:`). -/
def ridTarget (wbPath : String) (rels : List Rel) (rid : String) : Option String :=
  rels.reverse.findSome? (fun r =>
    if r.id = some rid then
      match normalize_target_path wbPath r.target with
      | some t => if t = "" then none else some t
      | none => none
    else none)

/-- Iteration of `load_sheet_infos` over the `<sheet>` elements: an entry
with a falsy relationship id is skipped (its original position still counts),
a truthy id with no resolvable target raises. -/
def sheetInfosGo (wbPath : String) (rels : List Rel) :
    List SheetEntry → Nat → Except SplitErr (List SheetInfo)
  | [], _ => .ok []
  | e :: rest, idx =>
    let rid := e.rid.getD ""
    if rid = "" then sheetInfosGo wbPath rels rest (idx + 1)
    else
      match ridTarget wbPath rels rid with
      | none => .error (.noRidTarget rid)
      | some t =>
        if t = "" then .error (.noRidTarget rid)
        else
          (sheetInfosGo wbPath rels rest (idx + 1)).map
            (fun l => ⟨e.name.getD "Sheet", rid, t, idx⟩ :: l)

/-- Model of `excel_splitter.load_sheet_infos`. -/
def load_sheet_infos (wb : Workbook) (wbPath : String) (rels : List Rel) :
    Except SplitErr (List SheetInfo) :=
  match wb.sheets with
  | none => .error .noSheetsElement
  | some entries =>
    match sheetInfosGo wbPath rels entries 0 with
    | .error e => .error e
    | .ok [] => .error .noWorksheets
    | .ok l => .ok l

/-- Model of `excel_splitter.load_root_relationships`: all package-level
relationships are kept; resolvable targets other than `xl/workbook.xml`
are collected for copying. -/
def load_root_relationships : Option Content →
    Except SplitErr (Option (List Rel) × List String)
  | none => .ok (none, [])
  | some (.data _) => .error .xmlParse
  | some (.rels l) =>
    .ok (some l,
      l.filterMap (fun r =>
        match normalize_target_path "_rels/.rels" r.target with
        | some n => if n = "" then none else if n = "xl/workbook.xml" then none else some n
        | none => none))
  | some _ => .ok (some [], [])

/-- Model of `excel_splitter.chunked`, fuel-structured (`fuel = length`
always suffices, see `chunkedAux_fuel_irrel`). -/
def chunkedAux (k : Nat) : Nat → List α → List (List α)
  | _, [] => []
  | 0, l => [l]
  | fuel + 1, x :: xs => (x :: xs.take (k - 1)) :: chunkedAux k fuel (xs.drop (k - 1))

/-- `chunked(iterable, size)`: successive slices `l[i : i + k]`. -/
def chunked (k : Nat) (l : List α) : List (List α) := chunkedAux k l.length l

/-! ## `split_xlsx` -/

/-- Everything `split_xlsx` loads before the chunk loop, in load order. -/
structure PreludeData where
  ctOverrides : List Override
  workbook_path : String
  wb : Workbook
  wbRels : List Rel
  sheets : List SheetInfo
  rootRels : Option (List Rel)
  rootTargets : List String
deriving DecidableEq, Repr

/-- The load phase of `split_xlsx` (lines 465-486). -/
def splitPrelude (src : Archive) : Except SplitErr PreludeData :=
  match lookupPart src "[Content_Types].xml" with
  | none => .error .missingContentTypes
  | some ctc => do
    let ovs ← asOverrides ctc
    let wbPath ← load_workbook_path ovs
    match lookupPart src wbPath with
    | none => .error .missingWorkbook
    | some wbc => do
      let wb ← asWorkbook wbc
      let wrp := relationship_part_path wbPath
      match lookupPart src wrp with
      | none => .error .missingWorkbookRels
      | some wrc => do
        let rels ← asRels wrc
        let sheets ← load_sheet_infos wb wbPath rels
        let rr ← load_root_relationships (lookupPart src "_rels/.rels")
        .ok ⟨ovs, wbPath, wb, rels, sheets, rr.1, rr.2⟩

/-- The fuel handed to each `copy_part_tree` call of the chunk builder;
`copy_part_tree_fuel_sufficient` shows it can never run out. -/
def chunkFuel (src : Archive) : Nat := (keysOf src).length + 1

/-- One iteration of the chunk loop of `split_xlsx` (lines 488-535): build
the `entries` map for one chunk of sheets. -/
def chunkArchive (src : Archive) (pd : PreludeData) (chunk : List SheetInfo) :
    OExc Archive :=
  let st0 : CopyState := ⟨[], [], []⟩
  let st1 :=
    match pd.rootRels with
    | some l => write_entry st0 "_rels/.rels" (.rels l)
    | none => st0
  match copyFold (fun t s => copy_part_tree src (chunkFuel src) t s)
      pd.rootTargets (some (.ok st1)) with
  | none => none
  | some (.error e) => some (.error e)
  | some (.ok stA) =>
    match prune_workbook_xml pd.wb chunk with
    | .error e => some (.error e)
    | .ok prunedWb =>
      let stB := write_entry stA pd.workbook_path (.workbook prunedWb)
      let keepRids := chunk.map (fun s => s.rid)
      let pr := prune_workbook_rels pd.workbook_path keepRids pd.wbRels
      let stC := write_entry stB (relationship_part_path pd.workbook_path) (.rels pr.1)
      match copyFold (fun t s => copy_part_tree src (chunkFuel src) t s)
          pr.2 (some (.ok stC)) with
      | none => none
      | some (.error e) => some (.error e)
      | some (.ok stD) =>
        match copyFold (fun t s => copy_part_tree src (chunkFuel src) t s)
            (chunk.map (fun s => s.target)) (some (.ok stD)) with
        | none => none
        | some (.error e) => some (.error e)
        | some (.ok stE) =>
          match updateAppEntries stE.entries (chunk.map (fun s => s.name)) with
          | .error e => some (.error e)
          | .ok ents =>
            let stF : CopyState := { stE with entries := ents }
            let prunedCt := prune_content_types pd.ctOverrides stF.written
            let stG := write_entry stF "[Content_Types].xml" (.ctypes prunedCt)
            some (.ok stG.entries)

/-- The chunk loop: one archive per chunk, first exception aborts. -/
def buildChunks (src : Archive) (pd : PreludeData) :
    List (List SheetInfo) → OExc (List Archive)
  | [] => some (.ok [])
  | c :: cs =>
    match chunkArchive src pd c with
    | none => none
    | some (.error e) => some (.error e)
    | some (.ok a) =>
      match buildChunks src pd cs with
      | none => none
      | some (.error e) => some (.error e)
      | some (.ok as) => some (.ok (a :: as))

/-- Model of `excel_splitter.split_xlsx` (the filesystem-only steps —
input existence check, output directory creation, zip serialization —
are outside the model; the returned archives are, in order, the contents
of the part files it writes). -/
def split_xlsx (src : Archive) (maxSheets : Int) : OExc (List Archive) :=
  if maxSheets < 1 then some (.error .badMaxSheets)
  else
    match splitPrelude src with
    | .error e => some (.error e)
    | .ok pd => buildChunks src pd (chunked maxSheets.toNat pd.sheets)

/-! ## The remote-renderer client (`service/lool_client.py`)

`LoolClient.convert_all_sheets` performs one HTTP POST per attempt.  The
network is modelled as an oracle list giving the outcome of each attempt the
code would make.  A returned body always has a well-defined page count (the
`PdfReader` page-count verification only logs on mismatch).
-/

/-- A rendered PDF: abstract identity plus its page count. -/
structure Pdf where
  content : Nat
  pages : Nat
deriving DecidableEq, Repr

/-- Outcome of a single POST: a transport error, a response whose
`raise_for_status` raises (non-2xx), or a successful response body.  The
first two raise `requests.RequestException` and are handled identically. -/
inductive AttemptOutcome where
  | transportError
  | httpError (status : Nat)
  | success (pdf : Pdf)
deriving DecidableEq, Repr

/-- Errors surfaced by the client. -/
inductive CallErr where
  | noWorksheets
  | requestFailed (o : AttemptOutcome)
  | raiseNone
deriving DecidableEq, Repr

/-- Observable events of the retry loop, in order: a POST, or a
`time.sleep(retry_delay)`. -/
inductive CallEvent where
  | post
  | sleep (delay : Nat)
deriving DecidableEq, Repr

/-- The error carried by `raise last_exception` for a failed outcome. -/
def failErr : AttemptOutcome → CallErr := fun o => .requestFailed o

/-- Outcomes that raise `requests.RequestException` (and are hence retried). -/
def isFailure : AttemptOutcome → Bool
  | .success _ => false
  | _ => true

/-- The retry loop of `convert_all_sheets` (lines 204-239) over the outcomes
of the attempts it would make, one list entry per configured attempt:
a success returns at once; a failure sleeps `retry_delay` and retries unless
it was the last attempt, in which case the stored exception is raised with no
further sleep.  On an empty attempt list (`retry_attempts = 0`) the loop body
never runs and `raise last_exception` re-raises `None`. -/
def retryLoop (delay : Nat) : List AttemptOutcome → Except CallErr Pdf × List CallEvent
  | [] => (.error .raiseNone, [])
  | [o] =>
    match o with
    | .success p => (.ok p, [.post])
    | fo => (.error (failErr fo), [.post])
  | o :: rest =>
    match o with
    | .success p => (.ok p, [.post])
    | _ =>
      let pr := retryLoop delay rest
      (pr.1, .post :: .sleep delay :: pr.2)

/-- Model of `LoolClient.convert_all_sheets`: the sheet count is checked
before any attempt; `outcomes` has one entry per configured retry attempt. -/
def convert_all_sheets (retryDelay : Nat) (sheetCount : Nat)
    (outcomes : List AttemptOutcome) : Except CallErr Pdf × List CallEvent :=
  if sheetCount = 0 then (.error .noWorksheets, [])
  else retryLoop retryDelay outcomes

/-! ## `convert_parts_combine.convert_sheets_and_combine`

Each input chunk workbook is converted through the client; the client's
terminal failure is *not* caught, so it propagates out of the loop.  A chunk
whose PDF has no pages is skipped.  Otherwise the first page is saved to
`<stem>.pdf` and every page is appended to the combined writer.
Pages are abstract numbers; a conversion outcome for chunk file `stem` is
either a terminal failure or the list of rendered pages.
-/

/-- The conversion loop of `convert_sheets_and_combine` over
`(stem, conversion outcome)` pairs.  Returns the saved per-file PDFs
(`filename`, first page) and the combined page list; a conversion failure
propagates at once, leaving the remaining inputs unprocessed. -/
def convertCombineLoop :
    List (String × Except CallErr (List Nat)) →
    Except CallErr (List (String × Nat) × List Nat)
  | [] => .ok ([], [])
  | (_, .error e) :: _ => .error e
  | (stem, .ok pages) :: rest =>
    (convertCombineLoop rest).map (fun pr =>
      match pages with
      | [] => pr
      | p0 :: _ => ((stem ++ ".pdf", p0) :: pr.1, pages ++ pr.2))

/-- Model of `convert_sheets_and_combine`: an empty input list raises
`ValueError` before any conversion. -/
def convert_sheets_and_combine (inputs : List (String × Except CallErr (List Nat))) :
    Except CallErr (List (String × Nat) × List Nat) :=
  match inputs with
  | [] => .error .noWorksheets
  | _ :: _ => convertCombineLoop inputs

/-! ## `batch_convert.py`: sanitization, naming and the chunked converter -/

/-- Model of `batch_convert.sanitize_filename`.  (Python `str.isalnum` is
Unicode-aware; the model's `Char.isAlphanum` covers the ASCII range, which is
all any theorem below depends on.) -/
def sanitize_filename (name : String) : String :=
  ⟨name.data.map (fun c =>
    if c.isAlphanum || c = '.' || c = '_' || c = '-' then c else '_')⟩

/-- Python `f"{n:03d}"` for the global order number. -/
def pad3 (n : Nat) : String :=
  if n < 10 then "00" ++ toString n
  else if n < 100 then "0" ++ toString n
  else toString n

/-- The per-sheet PDF filename `f"{idx:03d}_{safe_name}.pdf"`. -/
def sheetPdfName (idx : Nat) (name : String) : String :=
  pad3 idx ++ "_" ++ sanitize_filename name ++ ".pdf"

/-- Page extraction for one successfully converted chunk in
`_split_excel_chunked` (lines 229-244): `enumerate(chunk_sheets)` pairs sheet
`i` with page `i` of the chunk PDF as long as `page_idx < actual_pages`
(positional lockstep), writing each page under the zero-padded global index
`chunkStart + i + 1` and the sanitized sheet name; sheets beyond the page
count get no file.  `i` is the running `page_idx`. -/
def chunkPageFiles (chunkStart : Nat) : Nat → List String → List Nat → List (String × Nat)
  | _, [], _ => []
  | _, _ :: _, [] => []
  | i, nm :: ns, pg :: ps =>
    (sheetPdfName (chunkStart + i + 1) nm, pg) :: chunkPageFiles chunkStart (i + 1) ns ps

/-- The chunk loop of `_split_excel_chunked` (lines 186-252): `conv j` is the
outcome of converting the `j`-th temporary chunk workbook; a failed chunk is
logged and skipped (`continue`), contributing no files. -/
def splitChunkLoop (conv : Nat → Except CallErr (List Nat)) (k : Nat) :
    Nat → Nat → List (List String) → List (String × Nat)
  | _, _, [] => []
  | start, j, c :: cs =>
    (match conv j with
     | .ok pages => chunkPageFiles start 0 c pages
     | .error _ => []) ++ splitChunkLoop conv k (start + k) (j + 1) cs

/-- Model of the page-extraction phase of `batch_convert._split_excel_single`
(lines 139-159): a single whole-workbook conversion pairs page `i` with sheet
`i` globally. -/
def split_excel_single (sheetNames : List String) (pages : List Nat) :
    List (String × Nat) :=
  chunkPageFiles 0 0 sheetNames pages

/-- Model of `batch_convert._split_excel_chunked`: chunk the sheet names with
the configured chunk size and run the loop. -/
def split_excel_chunked (conv : Nat → Except CallErr (List Nat))
    (sheetNames : List String) (k : Nat) : List (String × Nat) :=
  splitChunkLoop conv k 0 0 (chunked k sheetNames)

/-- The failure behaviour of `batch_convert.batch_convert_excel` around the
chunked converter: raise iff no individual PDF was produced, else merge the
first (only) page of every individual PDF in order. -/
def batch_convert_excel_chunked (conv : Nat → Except CallErr (List Nat))
    (sheetNames : List String) (k : Nat) :
    Except CallErr (List (String × Nat) × List Nat) :=
  let files := split_excel_chunked conv sheetNames k
  match files with
  | [] => .error .noWorksheets
  | _ :: _ => .ok (files, files.map (fun f => f.2))

/-! # Theorems

## `chunked`: the sheet partition -/

theorem chunkedAux_congr (k : Nat) :
    ∀ (f1 f2 : Nat) (l : List α), l.length ≤ f1 → l.length ≤ f2 →
      chunkedAux k f1 l = chunkedAux k f2 l := by
  intro f1
  induction f1 with
  | zero =>
    intro f2 l h1 _
    have : l = [] := List.length_eq_zero.mp (Nat.le_zero.mp h1)
    subst this
    cases f2 <;> rfl
  | succ f1 ih =>
    intro f2 l h1 h2
    cases l with
    | nil => cases f2 <;> rfl
    | cons x xs =>
      cases f2 with
      | zero => exact absurd h2 (by simp)
      | succ g =>
        simp only [chunkedAux]
        congr 1
        apply ih
        · calc (xs.drop (k - 1)).length ≤ xs.length := by
                rw [List.length_drop]; omega
             _ ≤ f1 := by simpa using Nat.lt_succ_iff.mp (Nat.lt_of_lt_of_le (by simp) h1)
        · calc (xs.drop (k - 1)).length ≤ xs.length := by
                rw [List.length_drop]; omega
             _ ≤ g := by simpa using Nat.lt_succ_iff.mp (Nat.lt_of_lt_of_le (by simp) h2)

theorem chunked_nil (k : Nat) : chunked k ([] : List α) = [] := rfl

theorem chunked_cons (k : Nat) (x : α) (xs : List α) :
    chunked k (x :: xs) = (x :: xs.take (k - 1)) :: chunked k (xs.drop (k - 1)) := by
  show chunkedAux k (x :: xs).length (x :: xs) = _
  simp only [List.length_cons, chunkedAux]
  congr 1
  apply chunkedAux_congr
  · rw [List.length_drop]; omega
  · rfl

/-- Strong-induction helper: every property proved from the `chunked`
recursion equations holds of `chunked`. -/
theorem chunked_rec_on (k : Nat) (P : List α → Prop)
    (hnil : P [])
    (hcons : ∀ x xs, P (xs.drop (k - 1)) → P (x :: xs)) :
    ∀ l : List α, P l := by
  intro l
  have H : ∀ n (l : List α), l.length ≤ n → P l := by
    intro n
    induction n with
    | zero =>
      intro l h
      have : l = [] := List.length_eq_zero.mp (Nat.le_zero.mp h)
      subst this; exact hnil
    | succ n ih =>
      intro l h
      cases l with
      | nil => exact hnil
      | cons x xs =>
        apply hcons
        apply ih
        calc (xs.drop (k - 1)).length ≤ xs.length := by rw [List.length_drop]; omega
          _ ≤ n := by simpa using Nat.lt_succ_iff.mp (Nat.lt_of_lt_of_le (by simp) h)
  exact H l.length l (Nat.le_refl _)

theorem chunked_join (k : Nat) : ∀ l : List α, (chunked k l).flatten = l := by
  apply chunked_rec_on k (fun l => (chunked k l).flatten = l)
  · rfl
  · intro x xs ih
    rw [chunked_cons]
    simp only [List.flatten_cons, ih]
    simp [List.take_append_drop]

theorem chunked_length (k : Nat) (hk : 1 ≤ k) :
    ∀ l : List α, (chunked k l).length = (l.length + k - 1) / k := by
  apply chunked_rec_on k (fun l => (chunked k l).length = (l.length + k - 1) / k)
  · simp only [chunked_nil, List.length_nil]
    rw [Nat.zero_add]
    exact (Nat.div_eq_of_lt (by omega)).symm
  · intro x xs ih
    rw [chunked_cons]
    simp only [List.length_cons, ih, List.length_drop]
    rcases Nat.le_total xs.length (k - 1) with h | h
    · have h1 : xs.length - (k - 1) = 0 := by omega
      have h2 : xs.length + 1 + k - 1 = xs.length + k := by omega
      rw [h1, h2]
      have h3 : (0 + k - 1) / k = 0 := Nat.div_eq_of_lt (by omega)
      have h4 : (xs.length + k) / k = xs.length / k + 1 := Nat.add_div_right _ (by omega)
      have h5 : xs.length / k = 0 := Nat.div_eq_of_lt (by omega)
      omega
    · have h1 : xs.length - (k - 1) + k - 1 = xs.length := by omega
      have h2 : xs.length + 1 + k - 1 = xs.length + k := by omega
      rw [h1, h2]
      have h4 : (xs.length + k) / k = xs.length / k + 1 := Nat.add_div_right _ (by omega)
      omega

theorem chunked_mem_size (k : Nat) (hk : 1 ≤ k) :
    ∀ l : List α, ∀ c ∈ chunked k l, c ≠ [] ∧ c.length ≤ k := by
  apply chunked_rec_on k (fun l => ∀ c ∈ chunked k l, c ≠ [] ∧ c.length ≤ k)
  · intro c hc; simp [chunked_nil] at hc
  · intro x xs ih c hc
    rw [chunked_cons] at hc
    rcases List.mem_cons.mp hc with h | h
    · subst h
      constructor
      · simp
      · simp only [List.length_cons]
        have := List.length_take_le (k - 1) xs
        omega
    · exact ih c h

theorem chunked_full_chunks (k : Nat) (hk : 1 ≤ k) :
    ∀ l : List α, ∀ i, i + 1 < (chunked k l).length →
      ((chunked k l).getD i []).length = k := by
  apply chunked_rec_on k (fun l => ∀ i, i + 1 < (chunked k l).length →
    ((chunked k l).getD i []).length = k)
  · intro i hi; simp [chunked_nil] at hi
  · intro x xs ih i hi
    rw [chunked_cons] at hi ⊢
    cases i with
    | zero =>
      simp only [List.length_cons] at hi
      have hne : chunked k (xs.drop (k - 1)) ≠ [] := by
        intro h; rw [h] at hi; simp at hi
      have hdrop : xs.drop (k - 1) ≠ [] := by
        intro h; rw [h, chunked_nil] at hne; exact hne rfl
      have hlen : k - 1 ≤ xs.length := by
        by_contra h
        exact hdrop (List.drop_eq_nil_of_le (by omega))
      simp only [List.getD_cons_zero, List.length_cons, List.length_take]
      omega
    | succ j =>
      simp only [List.length_cons] at hi
      simp only [List.getD_cons_succ]
      exact ih j (by omega)

theorem buildChunks_length (src : Archive) (pd : PreludeData) :
    ∀ (cs : List (List SheetInfo)) (as : List Archive),
      buildChunks src pd cs = some (.ok as) → as.length = cs.length := by
  intro cs
  induction cs with
  | nil => intro as h; simp only [buildChunks] at h; cases h; rfl
  | cons c cs ih =>
    intro as h
    simp only [buildChunks] at h
    cases hc : chunkArchive src pd c with
    | none => rw [hc] at h; cases h
    | some r =>
      rw [hc] at h
      cases r with
      | error e => cases h
      | ok a =>
        cases hb : buildChunks src pd cs with
        | none => rw [hb] at h; cases h
        | some r2 =>
          rw [hb] at h
          cases r2 with
          | error e => cases h
          | ok as2 =>
            cases h
            simp [ih as2 hb]

/-- C1: for a source whose sheet list loads as `pd.sheets` and any configured
maximum `k ≥ 1`, a successful `split_xlsx` produces exactly
`⌈N/k⌉ = (N + k - 1) / k` archives, one per chunk of the partition
`chunked k pd.sheets`, whose chunks are nonempty, of size at most `k`, full
except possibly the last, and concatenate back to the original ordered sheet
list (hence each sheet occurs exactly once and order is preserved); and for
every `k < 1` the call raises the configuration error before producing any
output. -/
theorem claim_C1_partition :
    (∀ (k : Int) (src : Archive) (pd : PreludeData) (archs : List Archive),
      1 ≤ k →
      splitPrelude src = .ok pd →
      split_xlsx src k = some (.ok archs) →
      archs.length = (pd.sheets.length + k.toNat - 1) / k.toNat ∧
      (chunked k.toNat pd.sheets).flatten = pd.sheets ∧
      (∀ c ∈ chunked k.toNat pd.sheets, c ≠ [] ∧ c.length ≤ k.toNat) ∧
      (∀ i, i + 1 < (chunked k.toNat pd.sheets).length →
        ((chunked k.toNat pd.sheets).getD i []).length = k.toNat)) ∧
    (∀ (k : Int) (src : Archive), k < 1 →
      split_xlsx src k = some (.error .badMaxSheets)) := by
  constructor
  · intro k src pd archs hk hpre hsplit
    have hk1 : 1 ≤ k.toNat := by omega
    have hnotlt : ¬ k < 1 := by omega
    rw [split_xlsx, if_neg hnotlt, hpre] at hsplit
    refine ⟨?_, chunked_join _ _, chunked_mem_size _ hk1 _, chunked_full_chunks _ hk1 _⟩
    rw [buildChunks_length src pd _ archs hsplit, chunked_length _ hk1]
  · intro k src hk
    rw [split_xlsx, if_pos hk]

end RagSpec

namespace RagSpec

/-! ## C6: the retry loop of `LoolClient.convert_all_sheets` -/

theorem retryLoop_first_success (d : Nat) (p : Pdf) :
    ∀ (fails rest : List AttemptOutcome),
      (∀ f ∈ fails, isFailure f = true) →
      retryLoop d (fails ++ .success p :: rest) =
        (.ok p, (List.replicate fails.length [CallEvent.post, CallEvent.sleep d]).flatten
                  ++ [CallEvent.post]) := by
  intro fails
  induction fails with
  | nil =>
    intro rest _
    cases rest <;> rfl
  | cons f fs ih =>
    intro rest hall
    have hf : isFailure f = true := hall f (List.mem_cons_self f fs)
    have hfs : ∀ g ∈ fs, isFailure g = true := fun g hg => hall g (List.mem_cons_of_mem f hg)
    have hne : fs ++ AttemptOutcome.success p :: rest ≠ [] := by
      intro h
      exact absurd (List.append_eq_nil.mp h).2 (by simp)
    cases hcase : fs ++ AttemptOutcome.success p :: rest with
    | nil => exact absurd hcase hne
    | cons b bs =>
      show retryLoop d (f :: fs ++ AttemptOutcome.success p :: rest) = _
      rw [List.cons_append, hcase]
      cases f with
      | success q => exact absurd hf (by simp [isFailure])
      | transportError =>
        show (_, CallEvent.post :: CallEvent.sleep d :: (retryLoop d (b :: bs)).2) = _
        rw [← hcase, ih rest hfs]
        simp [List.replicate_succ]
      | httpError s =>
        show (_, CallEvent.post :: CallEvent.sleep d :: (retryLoop d (b :: bs)).2) = _
        rw [← hcase, ih rest hfs]
        simp [List.replicate_succ]

theorem retryLoop_all_fail (d : Nat) :
    ∀ (os : List AttemptOutcome),
      os ≠ [] →
      (∀ o ∈ os, isFailure o = true) →
      retryLoop d os =
        (.error (failErr (os.getLastD .transportError)),
         (List.replicate (os.length - 1) [CallEvent.post, CallEvent.sleep d]).flatten
           ++ [CallEvent.post]) := by
  intro os
  induction os with
  | nil => intro h; exact absurd rfl h
  | cons o rest ih =>
    intro _ hall
    have ho : isFailure o = true := hall o (List.mem_cons_self o rest)
    have hrest : ∀ g ∈ rest, isFailure g = true :=
      fun g hg => hall g (List.mem_cons_of_mem o hg)
    cases rest with
    | nil =>
      cases o with
      | success q => exact absurd ho (by simp [isFailure])
      | transportError => rfl
      | httpError s => rfl
    | cons b bs =>
      have hr := ih (by simp) hrest
      cases o with
      | success q => exact absurd ho (by simp [isFailure])
      | transportError =>
        show ((retryLoop d (b :: bs)).1,
              CallEvent.post :: CallEvent.sleep d :: (retryLoop d (b :: bs)).2) = _
        rw [hr]
        simp [List.replicate_succ, List.getLastD_cons]
      | httpError s =>
        show ((retryLoop d (b :: bs)).1,
              CallEvent.post :: CallEvent.sleep d :: (retryLoop d (b :: bs)).2) = _
        rw [hr]
        simp [List.replicate_succ, List.getLastD_cons]

/-- C6: behaviour of `LoolClient.convert_all_sheets` over the outcomes of the
attempts it makes (one list entry per configured attempt, so the list length
is the configured attempt count).  First conjunct: if the first `n` attempts
fail with a transport error or a non-success HTTP status and the next attempt
succeeds, the call returns that response's bytes immediately, and the event
trace is exactly `n` repetitions of (POST, sleep retry-delay) followed by the
final successful POST — each failed attempt is followed by the fixed
configured delay and a retry.  Second conjunct: if every configured attempt
fails, the last failure is raised, and the trace ends with the final POST
with no delay after it. -/
theorem claim_C6_retry :
    (∀ (d sc : Nat) (p : Pdf) (fails rest : List AttemptOutcome),
      0 < sc →
      (∀ f ∈ fails, isFailure f = true) →
      convert_all_sheets d sc (fails ++ .success p :: rest) =
        (.ok p, (List.replicate fails.length [CallEvent.post, CallEvent.sleep d]).flatten
                  ++ [CallEvent.post])) ∧
    (∀ (d sc : Nat) (os : List AttemptOutcome),
      0 < sc → os ≠ [] →
      (∀ o ∈ os, isFailure o = true) →
      convert_all_sheets d sc os =
        (.error (failErr (os.getLastD .transportError)),
         (List.replicate (os.length - 1) [CallEvent.post, CallEvent.sleep d]).flatten
           ++ [CallEvent.post])) := by
  constructor
  · intro d sc p fails rest hsc hall
    rw [convert_all_sheets, if_neg (by omega)]
    exact retryLoop_first_success d p fails rest hall
  · intro d sc os hsc hne hall
    rw [convert_all_sheets, if_neg (by omega)]
    exact retryLoop_all_fail d os hne hall

/-- Witness for `claim_C6_retry` at concrete inputs: two failing attempts
followed by a success (delay 7, three configured attempts), and a run where
both configured attempts fail. -/
theorem claim_C6_retry_witness :
    convert_all_sheets 7 2 [.transportError, .httpError 500, .success ⟨3, 2⟩] =
      (.ok ⟨3, 2⟩, [CallEvent.post, CallEvent.sleep 7, CallEvent.post, CallEvent.sleep 7,
                    CallEvent.post]) ∧
    convert_all_sheets 7 2 [.httpError 502, .transportError] =
      (.error (failErr .transportError),
       [CallEvent.post, CallEvent.sleep 7, CallEvent.post]) := by
  constructor
  · have h := claim_C6_retry.1 7 2 ⟨3, 2⟩ [.transportError, .httpError 500] []
      (by decide) (by decide)
    exact h.trans (by decide)
  · have h := claim_C6_retry.2 7 2 [.httpError 502, .transportError]
      (by decide) (by decide) (by decide)
    exact h.trans (by decide)

end RagSpec

namespace RagSpec

/-! ## C5 and C8: chunked reassembly, failure isolation -/

theorem chunkPageFiles_nil_iff (start i : Nat) (c : List String) (p : List Nat) :
    chunkPageFiles start i c p = [] ↔ c = [] ∨ p = [] := by
  cases c with
  | nil => simp [chunkPageFiles]
  | cons nm ns =>
    cases p with
    | nil => simp [chunkPageFiles]
    | cons pg ps => simp [chunkPageFiles]

theorem chunkPageFiles_shift :
    ∀ (c : List String) (p : List Nat) (s t i : Nat),
      chunkPageFiles s (t + i) c p = chunkPageFiles (s + t) i c p := by
  intro c
  induction c with
  | nil => intro p s t i; rfl
  | cons nm ns ih =>
    intro p s t i
    cases p with
    | nil => rfl
    | cons pg ps =>
      simp only [chunkPageFiles]
      have h1 : s + (t + i) + 1 = s + t + i + 1 := by omega
      rw [h1]
      congr 1
      exact ih ps s t (i + 1)

theorem chunkPageFiles_append :
    ∀ (c : List String) (p : List Nat), p.length = c.length →
      ∀ (i start : Nat) (rest : List String) (restP : List Nat),
        chunkPageFiles start i (c ++ rest) (p ++ restP) =
          chunkPageFiles start i c p ++ chunkPageFiles start (i + c.length) rest restP := by
  intro c
  induction c with
  | nil =>
    intro p hp i start rest restP
    have : p = [] := List.length_eq_zero.mp hp
    subst this
    simp [chunkPageFiles]
  | cons nm ns ih =>
    intro p hp i start rest restP
    cases p with
    | nil => simp at hp
    | cons pg ps =>
      simp only [List.length_cons] at hp
      simp only [List.cons_append, chunkPageFiles, List.length_cons, List.append_eq]
      rw [ih ps (by omega) (i + 1) start rest restP]
      have h2 : i + 1 + ns.length = i + (ns.length + 1) := by omega
      rw [h2]

theorem chunkPageFiles_snd :
    ∀ (c : List String) (p : List Nat), p.length = c.length →
      ∀ (i start : Nat), (chunkPageFiles start i c p).map (fun f => f.2) = p := by
  intro c
  induction c with
  | nil =>
    intro p hp i start
    have : p = [] := List.length_eq_zero.mp hp
    subst this; rfl
  | cons nm ns ih =>
    intro p hp i start
    cases p with
    | nil => simp at hp
    | cons pg ps =>
      simp only [List.length_cons] at hp
      simp only [chunkPageFiles, List.map_cons]
      rw [ih ps (by omega)]

theorem splitChunkLoop_shift (conv : Nat → Except CallErr (List Nat)) (k : Nat) :
    ∀ (cs : List (List String)) (start j : Nat),
      splitChunkLoop conv k start (j + 1) cs =
        splitChunkLoop (fun i => conv (i + 1)) k start j cs := by
  intro cs
  induction cs with
  | nil => intro start j; rfl
  | cons c cs ih =>
    intro start j
    simp only [splitChunkLoop]
    rw [ih]

/-- The chunk loop processes every chunk: its output is the concatenation,
over all chunk indices, of that chunk's files — a failed chunk contributes
the empty list and the loop continues with the remaining chunks. -/
theorem splitChunkLoop_flatten (k : Nat) :
    ∀ (cs : List (List String)) (conv : Nat → Except CallErr (List Nat)) (start j : Nat),
      splitChunkLoop conv k start j cs =
        ((List.range cs.length).map (fun i =>
          match conv (j + i) with
          | .ok pages => chunkPageFiles (start + k * i) 0 (cs.getD i []) pages
          | .error _ => [])).flatten := by
  intro cs
  induction cs with
  | nil => intro conv start j; rfl
  | cons c cs ih =>
    intro conv start j
    simp only [splitChunkLoop]
    rw [splitChunkLoop_shift, ih]
    rw [List.length_cons, List.range_succ_eq_map, List.map_cons, List.flatten_cons,
      List.map_map]
    congr 1
    congr 1
    apply List.map_congr_left
    intro i _
    simp only [Function.comp_apply]
    have h1 : j + i + 1 = j + Nat.succ i := by omega
    have h2 : start + k + k * i = start + k * Nat.succ i := by rw [Nat.mul_succ]; omega
    rw [h1, h2]
    rfl

theorem splitChunkLoop_nil_iff (k : Nat) (hk : 1 ≤ k)
    (names : List String) (conv : Nat → Except CallErr (List Nat)) :
    split_excel_chunked conv names k = [] ↔
      (∀ j pages, j < (chunked k names).length → conv j = .ok pages → pages = []) := by
  rw [split_excel_chunked, splitChunkLoop_flatten]
  rw [List.flatten_eq_nil_iff]
  constructor
  · intro h j pages hj hc
    have hmem : (match conv (0 + j) with
        | .ok pages => chunkPageFiles (0 + k * j) 0 ((chunked k names).getD j []) pages
        | .error _ => ([] : List (String × Nat))) ∈
        (List.range (chunked k names).length).map (fun i =>
          match conv (0 + i) with
          | .ok pages => chunkPageFiles (0 + k * i) 0 ((chunked k names).getD i []) pages
          | .error _ => []) :=
      List.mem_map_of_mem _ (List.mem_range.mpr hj)
    have := h _ hmem
    rw [Nat.zero_add, hc] at this
    have hchunk : (chunked k names).getD j [] ≠ [] := by
      have hmemc : (chunked k names).getD j [] ∈ chunked k names := by
        rw [List.getD_eq_getElem _ _ hj]
        exact List.getElem_mem hj
      exact ((chunked_mem_size k hk names _ hmemc).1)
    rcases (chunkPageFiles_nil_iff _ _ _ _).mp this with h1 | h1
    · exact absurd h1 hchunk
    · exact h1
  · intro h x hx
    rcases List.mem_map.mp hx with ⟨i, hi, rfl⟩
    have hi' := List.mem_range.mp hi
    cases hc : conv (0 + i) with
    | error e => simp
    | ok pages =>
      have : pages = [] := h i pages hi' (by rw [← hc]; congr 1; omega)
      subst this
      simp [chunkPageFiles_nil_iff]

end RagSpec

namespace RagSpec

theorem chunkPageFiles_length :
    ∀ (c : List String) (p : List Nat) (start i : Nat),
      (chunkPageFiles start i c p).length = min c.length p.length := by
  intro c
  induction c with
  | nil => intro p start i; simp [chunkPageFiles]
  | cons nm ns ih =>
    intro p start i
    cases p with
    | nil => simp [chunkPageFiles]
    | cons pg ps =>
      simp only [chunkPageFiles, List.length_cons, ih]
      omega

theorem chunkPageFiles_getD :
    ∀ (c : List String) (p : List Nat), p.length = c.length →
      ∀ (start t i : Nat), i < c.length →
        (chunkPageFiles start t c p).getD i ("", 0) =
          (sheetPdfName (start + t + i + 1) (c.getD i ""), p.getD i 0) := by
  intro c
  induction c with
  | nil => intro p hp start t i hi; simp at hi
  | cons nm ns ih =>
    intro p hp start t i hi
    cases p with
    | nil => simp at hp
    | cons pg ps =>
      simp only [List.length_cons] at hp
      cases i with
      | zero => simp [chunkPageFiles]
      | succ j =>
        simp only [chunkPageFiles, List.getD_cons_succ]
        rw [ih ps (by omega) start (t + 1) j (by simp at hi; omega)]
        have harith : start + (t + 1) + j + 1 = start + t + (j + 1) + 1 := by omega
        rw [harith]

theorem flatten_length_eq {β γ : Type} :
    ∀ (ps : List (List β)) (cs : List (List γ)),
      ps.length = cs.length →
      (∀ j, j < cs.length → (ps.getD j []).length = (cs.getD j []).length) →
      ps.flatten.length = cs.flatten.length := by
  intro ps
  induction ps with
  | nil =>
    intro cs hl _
    have : cs = [] := List.length_eq_zero.mp hl.symm
    subst this; rfl
  | cons p ps ih =>
    intro cs hl hall
    cases cs with
    | nil => simp at hl
    | cons c cs =>
      simp only [List.length_cons] at hl
      simp only [List.flatten_cons, List.length_append]
      have h0 := hall 0 (by simp)
      simp only [List.getD_cons_zero] at h0
      rw [h0, ih cs (by omega) (fun j hj => by
        have := hall (j + 1) (by simp; omega)
        simpa using this)]

/-- With every chunk rendering exactly one page per sheet, the chunked loop
produces the same files as the single-shot positional pairing. -/
theorem splitChunkLoop_full (k : Nat) (hk : 1 ≤ k) :
    ∀ (names : List String) (conv : Nat → Except CallErr (List Nat))
      (ps : List (List Nat)) (start : Nat),
      ps.length = (chunked k names).length →
      (∀ j, j < (chunked k names).length →
        conv j = .ok (ps.getD j []) ∧
        (ps.getD j []).length = ((chunked k names).getD j []).length) →
      splitChunkLoop conv k start 0 (chunked k names) =
        chunkPageFiles start 0 names ps.flatten := by
  apply chunked_rec_on k (fun names => ∀ (conv : Nat → Except CallErr (List Nat))
      (ps : List (List Nat)) (start : Nat),
      ps.length = (chunked k names).length →
      (∀ j, j < (chunked k names).length →
        conv j = .ok (ps.getD j []) ∧
        (ps.getD j []).length = ((chunked k names).getD j []).length) →
      splitChunkLoop conv k start 0 (chunked k names) =
        chunkPageFiles start 0 names ps.flatten)
  · intro conv ps start hlen _
    rw [chunked_nil] at hlen ⊢
    have : ps = [] := List.length_eq_zero.mp hlen
    subst this
    rfl
  · intro x xs ih conv ps start hlen hall
    rw [chunked_cons] at hlen hall ⊢
    cases ps with
    | nil => simp at hlen
    | cons p0 ps' =>
      simp only [List.length_cons] at hlen
      have h0 := hall 0 (by simp)
      simp only [List.getD_cons_zero] at h0
      have hc0 : p0.length = (x :: xs.take (k - 1)).length := h0.2
      have hconv0 : conv 0 = .ok p0 := h0.1
      show (match conv 0 with
            | .ok pages => chunkPageFiles start 0 (x :: xs.take (k - 1)) pages
            | .error _ => []) ++
          splitChunkLoop conv k (start + k) 1 (chunked k (xs.drop (k - 1))) = _
      rw [hconv0, splitChunkLoop_shift]
      have hnames : x :: xs = (x :: xs.take (k - 1)) ++ xs.drop (k - 1) := by
        simp [List.take_append_drop]
      rw [hnames, List.flatten_cons]
      rw [chunkPageFiles_append _ _ hc0]
      congr 1
      have ihx := ih (fun i => conv (i + 1)) ps' (start + k) (by omega)
        (fun j hj => by
          have := hall (j + 1) (by simp only [List.length_cons]; omega)
          simpa using this)
      cases hd : xs.drop (k - 1) with
      | nil =>
        have hps' : ps' = [] := by
          rw [hd] at hlen
          simp only [chunked_nil, List.length_nil] at hlen
          exact List.length_eq_zero.mp (by omega)
        subst hps'
        simp only [chunked_nil]
        rfl
      | cons y ys =>
        rw [← hd]
        rw [ihx]
        have hfull : (x :: xs.take (k - 1)).length = k := by
          have : k - 1 ≤ xs.length := by
            by_contra hcon
            have : xs.drop (k - 1) = [] := List.drop_eq_nil_of_le (by omega)
            rw [this] at hd
            cases hd
          simp only [List.length_cons, List.length_take]
          omega
        rw [hfull]
        have := chunkPageFiles_shift (xs.drop (k - 1)) ps'.flatten start k 0
        rw [← this]
        congr 1
        omega

theorem convertCombineLoop_ok :
    ∀ (l : List (String × List Nat)),
      convertCombineLoop (l.map (fun pr => (pr.1, Except.ok pr.2))) =
        .ok (l.filterMap (fun pr =>
              match pr.2 with
              | [] => none
              | p0 :: _ => some (pr.1 ++ ".pdf", p0)),
            (l.map (fun pr => pr.2)).flatten) := by
  intro l
  induction l with
  | nil => rfl
  | cons pr rest ih =>
    obtain ⟨stem, pages⟩ := pr
    simp only [List.map_cons, convertCombineLoop, ih, Except.map, List.filterMap_cons,
      List.flatten_cons]
    cases pages with
    | nil => rfl
    | cons p0 ptl => rfl

/-- C5 (counterexample): in `convert_sheets_and_combine`, one chunk's
terminal conversion failure is not caught: with inputs
`[("book_part_01", failure), ("book_part_02", 1 page)]` the whole request
raises the failure — the failed chunk is not skipped, the remaining chunk is
never processed, and the request does not succeed, although processing the
remaining chunk alone would produce a page (second conjunct). -/
theorem claim_C5_counterexample :
    convert_sheets_and_combine
        [("book_part_01", .error (.requestFailed .transportError)),
         ("book_part_02", .ok [7])] =
      .error (.requestFailed .transportError) ∧
    convert_sheets_and_combine [("book_part_02", .ok [7])] =
      .ok ([("book_part_02.pdf", 7)], [7]) := by
  constructor <;> rfl

/-- C5 (amended): failure isolation holds in the *batch* chunked converter,
not in `convert_sheets_and_combine`.  (1) `_split_excel_chunked` processes
every chunk: its output is the concatenation over all chunk indices of that
chunk's files, a failed chunk contributing nothing while the loop continues.
(2) Around it, `batch_convert_excel` raises iff no chunk produced any
rendered page.  (3) Otherwise the request succeeds with the produced files.
(4) In `convert_sheets_and_combine`, by contrast, a chunk's terminal failure
propagates immediately and aborts the whole combine. -/
theorem claim_C5_amended :
    (∀ (k : Nat) (cs : List (List String)) (conv : Nat → Except CallErr (List Nat))
       (start j : Nat),
      splitChunkLoop conv k start j cs =
        ((List.range cs.length).map (fun i =>
          match conv (j + i) with
          | .ok pages => chunkPageFiles (start + k * i) 0 (cs.getD i []) pages
          | .error _ => [])).flatten) ∧
    (∀ (k : Nat) (names : List String) (conv : Nat → Except CallErr (List Nat)),
      1 ≤ k →
      (batch_convert_excel_chunked conv names k = .error .noWorksheets ↔
        ∀ j pages, j < (chunked k names).length → conv j = .ok pages → pages = [])) ∧
    (∀ (k : Nat) (names : List String) (conv : Nat → Except CallErr (List Nat)),
      split_excel_chunked conv names k ≠ [] →
      batch_convert_excel_chunked conv names k =
        .ok (split_excel_chunked conv names k,
             (split_excel_chunked conv names k).map (fun f => f.2))) ∧
    (∀ (stem : String) (e : CallErr) (rest : List (String × Except CallErr (List Nat))),
      convert_sheets_and_combine ((stem, .error e) :: rest) = .error e) := by
  refine ⟨?_, ?_, ?_, ?_⟩
  · intro k cs conv start j
    exact splitChunkLoop_flatten k cs conv start j
  · intro k names conv hk
    have hnil := splitChunkLoop_nil_iff k hk names conv
    constructor
    · intro h
      apply hnil.mp
      by_contra hne
      rw [batch_convert_excel_chunked] at h
      cases hf : split_excel_chunked conv names k with
      | nil => exact hne hf
      | cons a b =>
        rw [hf] at h
        simp at h
    · intro h
      rw [batch_convert_excel_chunked]
      have : split_excel_chunked conv names k = [] := hnil.mpr h
      rw [this]
  · intro k names conv hne
    rw [batch_convert_excel_chunked]
    cases hf : split_excel_chunked conv names k with
    | nil => exact absurd hf hne
    | cons a b => rfl
  · intro stem e rest
    rfl

/-- Witness for `claim_C5_amended`: two chunks of two sheet names with the
first chunk failing; the loop still produces the second chunk's files and the
batch request succeeds with them. -/
theorem claim_C5_amended_witness :
    splitChunkLoop (fun j => if j = 0 then .error (.requestFailed .transportError)
        else .ok [5, 6]) 2 0 0 (chunked 2 ["A", "B", "C", "D"]) =
      [(sheetPdfName 3 "C", 5), (sheetPdfName 4 "D", 6)] ∧
    batch_convert_excel_chunked (fun j => if j = 0 then .error (.requestFailed .transportError)
        else .ok [5, 6]) ["A", "B", "C", "D"] 2 =
      .ok ([(sheetPdfName 3 "C", 5), (sheetPdfName 4 "D", 6)], [5, 6]) ∧
    convert_sheets_and_combine [("p1", .error (.requestFailed .transportError))] =
      .error (.requestFailed .transportError) := by
  refine ⟨?_, ?_, ?_⟩
  · have h := claim_C5_amended.1 2 (chunked 2 ["A", "B", "C", "D"])
      (fun j => if j = 0 then .error (.requestFailed .transportError) else .ok [5, 6]) 0 0
    exact h.trans (by decide)
  · have h := claim_C5_amended.2.2.1 2 ["A", "B", "C", "D"]
      (fun j => if j = 0 then .error (.requestFailed .transportError) else .ok [5, 6])
      (by decide)
    exact h.trans (by decide)
  · exact claim_C5_amended.2.2.2 "p1" (.requestFailed .transportError) []

/-- C8 (counterexample): `convert_sheets_and_combine` does not write one PDF
per original sheet named with a zero-padded order prefix and a sanitized
sheet name: for a single chunk file with stem `Book_part_01` whose rendered
PDF has two pages (two sheets), it saves exactly one file, named
`Book_part_01.pdf` after the chunk file's stem and holding only the first
page — although both pages are appended to the combined output. -/
theorem claim_C8_counterexample :
    convert_sheets_and_combine [("Book_part_01", .ok [3, 4])] =
      .ok ([("Book_part_01.pdf", 3)], [3, 4]) := by
  rfl

/-- C8 (amended): in the batch converter the claim holds: when every chunk
renders exactly one page per sheet, `_split_excel_chunked` equals the
single-shot positional pairing `split_excel_single` — page `i` of a chunk is
paired with chunk sheet `i`, each sheet `i` (globally) gets exactly one file
named `f"{i+1:03d}_{sanitize_filename(name)}.pdf"` holding its page, and the
file sequence carries the pages in original sheet order (so merging first
pages in order reproduces the workbook's page order).  In
`convert_sheets_and_combine`, all pages of every successfully converted chunk
are appended in order to the combined PDF (last conjunct), but the per-chunk
file is named after the chunk file's stem, not per sheet. -/
theorem claim_C8_amended :
    (∀ (k : Nat) (names : List String) (conv : Nat → Except CallErr (List Nat))
       (ps : List (List Nat)),
      1 ≤ k →
      ps.length = (chunked k names).length →
      (∀ j, j < (chunked k names).length →
        conv j = .ok (ps.getD j []) ∧
        (ps.getD j []).length = ((chunked k names).getD j []).length) →
      split_excel_chunked conv names k = split_excel_single names ps.flatten ∧
      (split_excel_chunked conv names k).map (fun f => f.2) = ps.flatten ∧
      (split_excel_chunked conv names k).length = names.length ∧
      (∀ i, i < names.length →
        (split_excel_chunked conv names k).getD i ("", 0) =
          (sheetPdfName (i + 1) (names.getD i ""), ps.flatten.getD i 0))) ∧
    (∀ (l : List (String × List Nat)),
      convert_sheets_and_combine (l.map (fun pr => (pr.1, .ok pr.2))) =
        if l.isEmpty then .error .noWorksheets
        else .ok (l.filterMap (fun pr =>
              match pr.2 with
              | [] => none
              | p0 :: _ => some (pr.1 ++ ".pdf", p0)),
            (l.map (fun pr => pr.2)).flatten)) := by
  constructor
  · intro k names conv ps hk hlen hall
    have hflatlen : ps.flatten.length = names.length := by
      have := flatten_length_eq ps (chunked k names) hlen
        (fun j hj => (hall j hj).2)
      rw [chunked_join] at this
      exact this
    have hmain : split_excel_chunked conv names k = split_excel_single names ps.flatten := by
      rw [split_excel_chunked, split_excel_single]
      exact splitChunkLoop_full k hk names conv ps 0 hlen hall
    refine ⟨hmain, ?_, ?_, ?_⟩
    · rw [hmain, split_excel_single]
      exact chunkPageFiles_snd names ps.flatten hflatlen 0 0
    · rw [hmain, split_excel_single, chunkPageFiles_length]
      omega
    · intro i hi
      rw [hmain, split_excel_single]
      have := chunkPageFiles_getD names ps.flatten hflatlen 0 0 i hi
      simpa using this
  · intro l
    cases l with
    | nil => rfl
    | cons pr rest =>
      simp only [List.map_cons, List.isEmpty_cons]
      have h := convertCombineLoop_ok (pr :: rest)
      simp only [List.map_cons] at h
      rw [convert_sheets_and_combine]
      exact h.trans (by simp)

/-- Witness for `claim_C8_amended`: three sheets in chunks of two, each chunk
rendering one page per sheet. -/
theorem claim_C8_amended_witness :
    split_excel_chunked (fun j => if j = 0 then .ok [10, 11] else .ok [12])
        ["Aa", "B b", "C/c"] 2 =
      split_excel_single ["Aa", "B b", "C/c"] [10, 11, 12] ∧
    split_excel_chunked (fun j => if j = 0 then .ok [10, 11] else .ok [12])
        ["Aa", "B b", "C/c"] 2 =
      [("001_Aa.pdf", 10), ("002_B_b.pdf", 11), ("003_C_c.pdf", 12)] := by
  have h := claim_C8_amended.1 2 ["Aa", "B b", "C/c"]
      (fun j => if j = 0 then .ok [10, 11] else .ok [12]) [[10, 11], [12]]
      (by decide) (by decide) (by decide)
  exact ⟨h.1, h.1.trans (by decide)⟩

end RagSpec

namespace RagSpec

/-! ## C9: the relationship rewrite of `copy_part_tree` -/

theorem filterRels_kept_iff (part : String) (srcKeys : List String) :
    ∀ l : List Rel,
      (filterRels part srcKeys l).1 = l.filter (fun r =>
        r.targetMode = "External" ||
        match normalize_target_path part r.target with
        | none => true
        | some n => n = "" || (!(should_skip_part n) && srcKeys.contains n)) := by
  intro l
  induction l with
  | nil => rfl
  | cons r rest ih =>
    simp only [filterRels, List.filter_cons]
    by_cases hext : r.targetMode = "External"
    · simp [hext, ih]
    · simp only [if_neg hext]
      cases hn : normalize_target_path part r.target with
      | none => simp [hext, hn, ih]
      | some n =>
        by_cases hemp : n = ""
        · simp [hext, hn, hemp, ih]
        · by_cases hskip : should_skip_part n
          · simp [hext, hn, hemp, hskip, ih]
          · by_cases hmem : n ∈ srcKeys
            · simp [hext, hn, hemp, hskip, hmem, ih]
            · simp [hext, hn, hemp, hskip, hmem, ih]

theorem filterRels_fst_sub (part : String) (srcKeys : List String) (l : List Rel) :
    ∀ r ∈ (filterRels part srcKeys l).1, r ∈ l := by
  intro r hr
  rw [filterRels_kept_iff] at hr
  exact List.mem_of_mem_filter hr

theorem filterRels_targets (part : String) (srcKeys : List String) :
    ∀ l : List Rel, ∀ t ∈ (filterRels part srcKeys l).2,
      t ∈ srcKeys ∧ should_skip_part t = false ∧
      ∃ r ∈ l, r.targetMode ≠ "External" ∧ normalize_target_path part r.target = some t := by
  intro l
  induction l with
  | nil => intro t ht; simp [filterRels] at ht
  | cons r rest ih =>
    intro t ht
    simp only [filterRels] at ht
    by_cases hext : r.targetMode = "External"
    · rw [if_pos hext] at ht
      obtain ⟨h1, h2, rr, hr, hh⟩ := ih t ht
      exact ⟨h1, h2, rr, List.mem_cons_of_mem r hr, hh⟩
    · rw [if_neg hext] at ht
      cases hn : normalize_target_path part r.target with
      | none =>
        simp only [hn] at ht
        obtain ⟨h1, h2, rr, hr, hh⟩ := ih t ht
        exact ⟨h1, h2, rr, List.mem_cons_of_mem r hr, hh⟩
      | some n =>
        simp only [hn] at ht
        by_cases hemp : n = ""
        · rw [if_pos hemp] at ht
          obtain ⟨h1, h2, rr, hr, hh⟩ := ih t ht
          exact ⟨h1, h2, rr, List.mem_cons_of_mem r hr, hh⟩
        · rw [if_neg hemp] at ht
          by_cases hskip : should_skip_part n
          · rw [if_pos hskip] at ht
            obtain ⟨h1, h2, rr, hr, hh⟩ := ih t ht
            exact ⟨h1, h2, rr, List.mem_cons_of_mem r hr, hh⟩
          · rw [if_neg hskip] at ht
            by_cases hmem : (srcKeys.contains n : Bool) = true
            · rw [if_pos hmem] at ht
              rcases List.mem_cons.mp ht with rfl | ht2
              · exact ⟨by simpa using hmem, by simpa using hskip,
                  r, List.mem_cons_self r rest, hext, hn⟩
              · obtain ⟨h1, h2, rr, hr, hh⟩ := ih t ht2
                exact ⟨h1, h2, rr, List.mem_cons_of_mem r hr, hh⟩
            · rw [if_neg hmem] at ht
              obtain ⟨h1, h2, rr, hr, hh⟩ := ih t ht
              exact ⟨h1, h2, rr, List.mem_cons_of_mem r hr, hh⟩

theorem filterRels_closure (part : String) (srcKeys : List String) :
    ∀ l : List Rel, ∀ r ∈ (filterRels part srcKeys l).1,
      r.targetMode ≠ "External" →
      ∀ n, normalize_target_path part r.target = some n → n ≠ "" →
        n ∈ (filterRels part srcKeys l).2 := by
  intro l
  induction l with
  | nil => intro r hr; simp [filterRels] at hr
  | cons q rest ih =>
    intro r hr hext n hn hne
    simp only [filterRels] at hr ⊢
    by_cases hqext : q.targetMode = "External"
    · rw [if_pos hqext] at hr ⊢
      rcases List.mem_cons.mp hr with rfl | hr2
      · exact absurd hqext hext
      · exact ih r hr2 hext n hn hne
    · rw [if_neg hqext] at hr ⊢
      cases hqn : normalize_target_path part q.target with
      | none =>
        simp only [hqn] at hr ⊢
        rcases List.mem_cons.mp hr with rfl | hr2
        · rw [hn] at hqn; cases hqn
        · exact ih r hr2 hext n hn hne
      | some m =>
        simp only [hqn] at hr ⊢
        by_cases hqemp : m = ""
        · rw [if_pos hqemp] at hr ⊢
          rcases List.mem_cons.mp hr with rfl | hr2
          · rw [hn] at hqn
            exact absurd ((Option.some.inj hqn).trans hqemp) hne
          · exact ih r hr2 hext n hn hne
        · rw [if_neg hqemp] at hr ⊢
          by_cases hskip : should_skip_part m
          · rw [if_pos hskip] at hr ⊢
            exact ih r hr hext n hn hne
          · rw [if_neg hskip] at hr ⊢
            by_cases hmem : (srcKeys.contains m : Bool) = true
            · rw [if_pos hmem] at hr ⊢
              rcases List.mem_cons.mp hr with rfl | hr2
              · rw [hn] at hqn
                cases hqn
                exact List.mem_cons_self _ _
              · exact List.mem_cons_of_mem _ (ih r hr2 hext n hn hne)
            · rw [if_neg hmem] at hr ⊢
              exact ih r hr hext n hn hne

end RagSpec

namespace RagSpec

/-- C9 (counterexample): `copy_part_tree` does *not* drop external-targeted
relationships from the rewritten companion relationship file — it appends
them verbatim (lines 159-161).  Copying part `a.xml`, whose companion holds
one `TargetMode="External"` relationship and one relationship whose internal
target is absent from the source, produces a rewritten companion that
*retains* the external relationship (and drops the absent-target one without
raising). -/
theorem claim_C9_counterexample :
    copy_part_tree
        [("a.xml", .data 1),
         ("_rels/a.xml.rels",
          .rels [⟨some "r1", "http://x/y", "External"⟩, ⟨some "r2", "missing.xml", ""⟩])]
        3 "a.xml" ⟨[], [], []⟩ =
      some (.ok ⟨[("a.xml", .data 1),
                  ("_rels/a.xml.rels", .rels [⟨some "r1", "http://x/y", "External"⟩])],
                 ["/_rels/a.xml.rels", "/a.xml"],
                 ["_rels/a.xml.rels", "a.xml"]⟩) := by
  decide

/-- C9 (amended): in the relationship rewrite of `copy_part_tree`
(1) a relationship is kept iff it is external-targeted, or its target does
not resolve or resolves to the empty string (falsy under Python's
`if normalized:`), or its nonempty resolved target is neither skip-listed
nor absent from the source — so external-targeted relationships are
*retained* (without recursion), while excluded-category or absent internal
targets drop the relationship rather than raising an error; (2) the
collected recursion targets are always present, non-skip-listed parts, so a
dropped relationship never causes a missing-part error; (3) every kept
relationship whose target resolves to a nonempty path has that target
collected for copying. -/
theorem claim_C9_amended :
    (∀ (part : String) (srcKeys : List String) (l : List Rel),
      (filterRels part srcKeys l).1 = l.filter (fun r =>
        r.targetMode = "External" ||
        match normalize_target_path part r.target with
        | none => true
        | some n => n = "" || (!(should_skip_part n) && srcKeys.contains n))) ∧
    (∀ (part : String) (srcKeys : List String) (l : List Rel),
      ∀ t ∈ (filterRels part srcKeys l).2, t ∈ srcKeys ∧ should_skip_part t = false) ∧
    (∀ (part : String) (srcKeys : List String) (l : List Rel),
      ∀ r ∈ (filterRels part srcKeys l).1, r.targetMode ≠ "External" →
        ∀ n, normalize_target_path part r.target = some n → n ≠ "" →
          n ∈ (filterRels part srcKeys l).2) := by
  refine ⟨filterRels_kept_iff, ?_, filterRels_closure⟩
  intro part srcKeys l t ht
  obtain ⟨h1, h2, _⟩ := filterRels_targets part srcKeys l t ht
  exact ⟨h1, h2⟩

/-- Witness for `claim_C9_amended` at a concrete relationship list: one
external, one resolvable-present, one skip-listed, one absent and one
empty-normalizing target. -/
theorem claim_C9_amended_witness :
    (filterRels "xl/workbook.xml" ["xl/styles.xml", "xl/calcChain.xml"]
        [⟨some "e1", "http://x", "External"⟩,
         ⟨some "r1", "styles.xml", ""⟩,
         ⟨some "r2", "calcChain.xml", ""⟩,
         ⟨some "r3", "gone.xml", ""⟩,
         ⟨some "r4", "/", ""⟩]).1 =
      [⟨some "e1", "http://x", "External"⟩, ⟨some "r1", "styles.xml", ""⟩,
       ⟨some "r4", "/", ""⟩] ∧
    ("xl/styles.xml" ∈ ["xl/styles.xml", "xl/calcChain.xml"] ∧
      should_skip_part "xl/styles.xml" = false) ∧
    "xl/styles.xml" ∈ (filterRels "xl/workbook.xml" ["xl/styles.xml", "xl/calcChain.xml"]
        [⟨some "e1", "http://x", "External"⟩,
         ⟨some "r1", "styles.xml", ""⟩,
         ⟨some "r2", "calcChain.xml", ""⟩,
         ⟨some "r3", "gone.xml", ""⟩,
         ⟨some "r4", "/", ""⟩]).2 := by
  refine ⟨?_, ?_, ?_⟩
  · exact (claim_C9_amended.1 "xl/workbook.xml" ["xl/styles.xml", "xl/calcChain.xml"]
      [⟨some "e1", "http://x", "External"⟩, ⟨some "r1", "styles.xml", ""⟩,
       ⟨some "r2", "calcChain.xml", ""⟩, ⟨some "r3", "gone.xml", ""⟩,
       ⟨some "r4", "/", ""⟩]).trans (by decide)
  · exact claim_C9_amended.2.1 "xl/workbook.xml" ["xl/styles.xml", "xl/calcChain.xml"]
      [⟨some "e1", "http://x", "External"⟩, ⟨some "r1", "styles.xml", ""⟩,
       ⟨some "r2", "calcChain.xml", ""⟩, ⟨some "r3", "gone.xml", ""⟩,
       ⟨some "r4", "/", ""⟩]
      "xl/styles.xml" (by decide)
  · exact claim_C9_amended.2.2 "xl/workbook.xml" ["xl/styles.xml", "xl/calcChain.xml"]
      [⟨some "e1", "http://x", "External"⟩, ⟨some "r1", "styles.xml", ""⟩,
       ⟨some "r2", "calcChain.xml", ""⟩, ⟨some "r3", "gone.xml", ""⟩,
       ⟨some "r4", "/", ""⟩]
      ⟨some "r1", "styles.xml", ""⟩ (by decide) (by decide)
      "xl/styles.xml" (by decide) (by decide)

end RagSpec

namespace RagSpec

/-! ## C3: defined-name scoping -/

theorem refsOk_iff (keepNames : List String) (dn : DefinedName) :
    refsOk keepNames dn = true ↔
      ∀ r ∈ extract_sheet_references dn.formula, r ∈ keepNames := by
  rw [refsOk]
  cases hr : extract_sheet_references dn.formula with
  | nil => simp
  | cons a l =>
    simp only [Bool.or_eq_true, decide_eq_true_eq, List.all_eq_true]
    constructor
    · intro h x hx
      rcases h with h | h
      · cases h
      · simpa using h x hx
    · intro h
      right
      intro x hx
      simpa using h x hx

theorem indexPosAux_isSome_iff (oi : Nat) :
    ∀ (ki : List SheetInfo) (base : Nat),
      (indexPosAux oi base ki).isSome = true ↔ oi ∈ ki.map (fun s => s.index) := by
  intro ki
  induction ki with
  | nil => intro base; simp [indexPosAux]
  | cons info rest ih =>
    intro base
    simp only [indexPosAux, List.map_cons, List.mem_cons]
    cases hrec : indexPosAux oi (base + 1) rest with
    | some q =>
      simp only [Option.isSome_some, true_iff]
      right
      rw [← ih (base + 1)]
      simp [hrec]
    | none =>
      by_cases hidx : info.index = oi
      · simp [hidx]
      · simp only [if_neg hidx, Option.isSome_none]
        constructor
        · intro h; cases h
        · intro h
          rcases h with h | h
          · exact absurd h.symm hidx
          · rw [← ih (base + 1)] at h
            rw [hrec] at h
            cases h

theorem indexPosAux_spec (oi : Nat) :
    ∀ (ki : List SheetInfo) (base pos : Nat),
      indexPosAux oi base ki = some pos →
      base ≤ pos ∧ pos - base < ki.length ∧
        (ki.getD (pos - base) ⟨"", "", "", 0⟩).index = oi := by
  intro ki
  induction ki with
  | nil => intro base pos h; cases h
  | cons info rest ih =>
    intro base pos h
    simp only [indexPosAux] at h
    cases hrec : indexPosAux oi (base + 1) rest with
    | some q =>
      rw [hrec] at h
      cases h
      obtain ⟨h1, h2, h3⟩ := ih (base + 1) pos hrec
      refine ⟨by omega, by simp only [List.length_cons]; omega, ?_⟩
      have hpb : pos - base = (pos - (base + 1)) + 1 := by omega
      rw [hpb, List.getD_cons_succ]
      exact h3
    | none =>
      rw [hrec] at h
      by_cases hidx : info.index = oi
      · rw [if_pos hidx] at h
        cases h
        simp [hidx]
      · rw [if_neg hidx] at h
        cases h

theorem indexPos_spec (ki : List SheetInfo) (oi pos : Nat)
    (h : indexPos ki oi = some pos) :
    pos < ki.length ∧ (ki.getD pos ⟨"", "", "", 0⟩).index = oi := by
  obtain ⟨h1, h2, h3⟩ := indexPosAux_spec oi ki 0 pos h
  rw [Nat.sub_zero] at h2 h3
  exact ⟨h2, h3⟩

theorem pruneDN_isSome_iff (keepInfos : List SheetInfo) (dn : DefinedName)
    (s : String) (i : Nat) (hlsi : dn.localSheetId = some s)
    (hparse : pyInt? s = some (i : Int)) :
    (pruneDefinedName keepInfos dn).isSome = true ↔
      (i ∈ keepInfos.map (fun x => x.index) ∧
       ∀ r ∈ extract_sheet_references dn.formula,
         r ∈ keepInfos.map (fun x => x.name)) := by
  rw [pruneDefinedName, hlsi]
  simp only [hparse]
  have hnn : ¬ ((i : Int) < 0) := by omega
  rw [if_neg hnn]
  have htn : ((i : Int)).toNat = i := by omega
  rw [htn]
  cases hip : indexPos keepInfos i with
  | none =>
    refine iff_of_false (by simp) ?_
    intro hcon
    have := (indexPosAux_isSome_iff i keepInfos 0).mpr hcon.1
    rw [indexPos] at hip
    rw [hip] at this
    cases this
  | some pos =>
    have hmem : i ∈ keepInfos.map (fun x => x.index) := by
      rw [← indexPosAux_isSome_iff i keepInfos 0]
      rw [indexPos] at hip
      simp [hip]
    cases hro : refsOk (keepInfos.map (fun x => x.name)) dn with
    | true =>
      refine iff_of_true ?_ ⟨hmem, (refsOk_iff _ _).mp hro⟩
      simp [hro]
    | false =>
      refine iff_of_false ?_ ?_
      · simp [hro]
      · intro hcon
        have := (refsOk_iff (keepInfos.map (fun x => x.name)) dn).mpr hcon.2
        rw [hro] at this
        cases this

theorem pruneDN_value (keepInfos : List SheetInfo) (dn dn' : DefinedName)
    (s : String) (i : Nat) (hlsi : dn.localSheetId = some s)
    (hparse : pyInt? s = some (i : Int))
    (hres : pruneDefinedName keepInfos dn = some dn') :
    ∃ pos, indexPos keepInfos i = some pos ∧
      dn' = { dn with localSheetId := some (toString pos) } ∧
      pos < keepInfos.length ∧ (keepInfos.getD pos ⟨"", "", "", 0⟩).index = i := by
  rw [pruneDefinedName, hlsi] at hres
  simp only [hparse] at hres
  have hnn : ¬ ((i : Int) < 0) := by omega
  rw [if_neg hnn] at hres
  have htn : ((i : Int)).toNat = i := by omega
  rw [htn] at hres
  cases hip : indexPos keepInfos i with
  | none => rw [hip] at hres; cases hres
  | some pos =>
    rw [hip] at hres
    cases hro : refsOk (keepInfos.map (fun x => x.name)) dn with
    | true =>
      simp only [hro, if_true] at hres
      obtain ⟨h1, h2⟩ := indexPos_spec keepInfos i pos hip
      cases hres
      exact ⟨pos, rfl, rfl, h1, h2⟩
    | false =>
      simp only [hro] at hres
      cases hres

theorem prune_wb_definedNames (wb : Workbook) (keepInfos : List SheetInfo)
    (wb' : Workbook) (h : prune_workbook_xml wb keepInfos = .ok wb') :
    wb'.definedNames =
      (match wb.definedNames with
       | none => none
       | some dns =>
         let l := dns.filterMap (pruneDefinedName keepInfos)
         if l = [] then none else some l) := by
  rw [prune_workbook_xml] at h
  cases hs : wb.sheets with
  | none => rw [hs] at h; cases h
  | some sheetEls =>
    rw [hs] at h
    cases h
    rfl

/-- C3 (counterexample): with a workbook-relationship entry whose target
resolves to the workbook part itself, the chunk loop's recursive copy
overwrites the pruned workbook descriptor with the verbatim source
descriptor.  In the produced first chunk — whose sheet set is exactly the
sheet of original index 0 — the defined name locally scoped to original
sheet index 1 still appears, with its `localSheetId` not remapped, although
sheet 1 does not belong to the chunk. -/
theorem claim_C3_counterexample :
    (splitPrelude
        [("[Content_Types].xml", .ctypes [⟨"/xl/workbook.xml", WORKBOOK_CONTENT_TYPE⟩]),
         ("xl/workbook.xml", .workbook
            ⟨some [⟨some "A", some "rId1", "1", none⟩, ⟨some "B", some "rId2", "2", none⟩],
             some [⟨"nm", some "1", ""⟩]⟩),
         ("xl/_rels/workbook.xml.rels", .rels
            [⟨some "rId1", "worksheets/s1.xml", ""⟩, ⟨some "rId2", "worksheets/s2.xml", ""⟩,
             ⟨some "rIdX", "workbook.xml", ""⟩]),
         ("xl/worksheets/s1.xml", .data 1),
         ("xl/worksheets/s2.xml", .data 2)]).map
      (fun pd => chunked 1 pd.sheets) =
      .ok [[⟨"A", "rId1", "xl/worksheets/s1.xml", 0⟩],
           [⟨"B", "rId2", "xl/worksheets/s2.xml", 1⟩]] ∧
    (match split_xlsx
        [("[Content_Types].xml", .ctypes [⟨"/xl/workbook.xml", WORKBOOK_CONTENT_TYPE⟩]),
         ("xl/workbook.xml", .workbook
            ⟨some [⟨some "A", some "rId1", "1", none⟩, ⟨some "B", some "rId2", "2", none⟩],
             some [⟨"nm", some "1", ""⟩]⟩),
         ("xl/_rels/workbook.xml.rels", .rels
            [⟨some "rId1", "worksheets/s1.xml", ""⟩, ⟨some "rId2", "worksheets/s2.xml", ""⟩,
             ⟨some "rIdX", "workbook.xml", ""⟩]),
         ("xl/worksheets/s1.xml", .data 1),
         ("xl/worksheets/s2.xml", .data 2)] 1 with
     | some (.ok archs) => (archs.getD 0 []).map (fun e =>
         if e.1 = "xl/workbook.xml" then some e.2 else none)
     | _ => []) =
      [some (.workbook
        ⟨some [⟨some "A", some "rId1", "1", none⟩, ⟨some "B", some "rId2", "2", none⟩],
         some [⟨"nm", some "1", ""⟩]⟩), none, none, none, none] := by
  constructor
  · decide
  · decide

/-- C3 (amended): the defined-name behaviour the claim describes holds of
the workbook-descriptor rewrite `prune_workbook_xml` (it can fail to reach
the produced archive only when a retained relationship targets the workbook
part itself, in which case the verbatim descriptor overwrites it — see the
counterexample).  (1) The rewritten descriptor's defined names are exactly
the `pruneDefinedName`-survivors of the source's, in order, the element
dropped when none survive; (2) a surviving rewritten name is a member of the
rewritten descriptor; (3) a name whose `localSheetId` parses as the
local-scope index `i` survives iff `i` is the original index of one of the
chunk's sheets and every sheet name textually extracted from its formula is
among the chunk's retained sheet names; (4) a survivor's `localSheetId` is
rewritten to the position within the chunk of the (last) kept sheet whose
original index is `i`. -/
theorem claim_C3_amended :
    (∀ (wb : Workbook) (keepInfos : List SheetInfo) (wb' : Workbook),
      prune_workbook_xml wb keepInfos = .ok wb' →
      wb'.definedNames =
        (match wb.definedNames with
         | none => none
         | some dns =>
           let l := dns.filterMap (pruneDefinedName keepInfos)
           if l = [] then none else some l)) ∧
    (∀ (wb : Workbook) (keepInfos : List SheetInfo) (wb' : Workbook) dns dn dn',
      prune_workbook_xml wb keepInfos = .ok wb' →
      wb.definedNames = some dns → dn ∈ dns →
      pruneDefinedName keepInfos dn = some dn' →
      dn' ∈ wb'.definedNames.getD []) ∧
    (∀ (keepInfos : List SheetInfo) (dn : DefinedName) (s : String) (i : Nat),
      dn.localSheetId = some s → pyInt? s = some (i : Int) →
      ((pruneDefinedName keepInfos dn).isSome = true ↔
        (i ∈ keepInfos.map (fun x => x.index) ∧
         ∀ r ∈ extract_sheet_references dn.formula,
           r ∈ keepInfos.map (fun x => x.name)))) ∧
    (∀ (keepInfos : List SheetInfo) (dn dn' : DefinedName) (s : String) (i : Nat),
      dn.localSheetId = some s → pyInt? s = some (i : Int) →
      pruneDefinedName keepInfos dn = some dn' →
      ∃ pos, indexPos keepInfos i = some pos ∧
        dn' = { dn with localSheetId := some (toString pos) } ∧
        pos < keepInfos.length ∧ (keepInfos.getD pos ⟨"", "", "", 0⟩).index = i) := by
  refine ⟨prune_wb_definedNames, ?_, ?_, ?_⟩
  · intro wb keepInfos wb' dns dn dn' hp hdns hmem hpr
    have hd := prune_wb_definedNames wb keepInfos wb' hp
    rw [hdns] at hd
    simp only at hd
    have hmem' : dn' ∈ dns.filterMap (pruneDefinedName keepInfos) :=
      List.mem_filterMap.mpr ⟨dn, hmem, hpr⟩
    by_cases hnil : dns.filterMap (pruneDefinedName keepInfos) = []
    · rw [hnil] at hmem'; cases hmem'
    · rw [if_neg hnil] at hd
      rw [hd]
      simpa using hmem'
  · intro keepInfos dn s i h1 h2
    exact pruneDN_isSome_iff keepInfos dn s i h1 h2
  · intro keepInfos dn dn' s i h1 h2 h3
    exact pruneDN_value keepInfos dn dn' s i h1 h2 h3

/-- Witness for `claim_C3_amended`: a two-sheet workbook split to the chunk
holding the sheet of original index 1; a name scoped to index 1 whose
formula references the kept sheet survives with its scope remapped to 0. -/
theorem claim_C3_amended_witness :
    ((pruneDefinedName [⟨"B", "rId2", "xl/worksheets/s2.xml", 1⟩]
        ⟨"nm", some "1", "B!A1"⟩).isSome = true ↔
      (1 ∈ [(1 : Nat)] ∧
       ∀ r ∈ extract_sheet_references "B!A1", r ∈ ["B"])) ∧
    (∃ pos, indexPos [⟨"B", "rId2", "xl/worksheets/s2.xml", 1⟩] 1 = some pos ∧
      (⟨"nm", some "0", "B!A1"⟩ : DefinedName) =
        { (⟨"nm", some "1", "B!A1"⟩ : DefinedName) with
          localSheetId := some (toString pos) } ∧
      pos < 1 ∧
      (([⟨"B", "rId2", "xl/worksheets/s2.xml", 1⟩] :
          List SheetInfo).getD pos ⟨"", "", "", 0⟩).index = 1) := by
  constructor
  · have h := claim_C3_amended.2.2.1 [⟨"B", "rId2", "xl/worksheets/s2.xml", 1⟩]
      ⟨"nm", some "1", "B!A1"⟩ "1" 1 (by decide) (by decide)
    simpa using h
  · have h := claim_C3_amended.2.2.2 [⟨"B", "rId2", "xl/worksheets/s2.xml", 1⟩]
      ⟨"nm", some "1", "B!A1"⟩ ⟨"nm", some "0", "B!A1"⟩ "1" 1
      (by decide) (by decide) (by decide)
    obtain ⟨pos, hp1, hp2, hp3, hp4⟩ := h
    exact ⟨pos, hp1, by rw [hp2], hp3, by simpa using hp4⟩

end RagSpec

namespace RagSpec

/-! ## C7: loading the sheet descriptor list -/

/-- A truthy relationship id with no usable target: absent from the
`rid_to_target` dict, or mapping to a falsy (empty) target. -/
def unresolvedRid (wbPath : String) (rels : List Rel) (rid : String) : Prop :=
  ridTarget wbPath rels rid = none ∨ ridTarget wbPath rels rid = some ""

instance (wbPath : String) (rels : List Rel) (rid : String) :
    Decidable (unresolvedRid wbPath rels rid) := by
  unfold unresolvedRid
  infer_instance

theorem sheetInfosGo_cons_skip (wbPath : String) (rels : List Rel)
    (en : SheetEntry) (rest : List SheetEntry) (idx : Nat)
    (hrid : en.rid.getD "" = "") :
    sheetInfosGo wbPath rels (en :: rest) idx = sheetInfosGo wbPath rels rest (idx + 1) := by
  simp [sheetInfosGo, hrid]

theorem sheetInfosGo_cons_none (wbPath : String) (rels : List Rel)
    (en : SheetEntry) (rest : List SheetEntry) (idx : Nat)
    (hrid : en.rid.getD "" ≠ "")
    (hrt : ridTarget wbPath rels (en.rid.getD "") = none) :
    sheetInfosGo wbPath rels (en :: rest) idx =
      .error (.noRidTarget (en.rid.getD "")) := by
  simp [sheetInfosGo, hrid, hrt]

theorem sheetInfosGo_cons_empty (wbPath : String) (rels : List Rel)
    (en : SheetEntry) (rest : List SheetEntry) (idx : Nat)
    (hrid : en.rid.getD "" ≠ "")
    (hrt : ridTarget wbPath rels (en.rid.getD "") = some "") :
    sheetInfosGo wbPath rels (en :: rest) idx =
      .error (.noRidTarget (en.rid.getD "")) := by
  simp [sheetInfosGo, hrid, hrt]

theorem sheetInfosGo_cons_ok (wbPath : String) (rels : List Rel)
    (en : SheetEntry) (rest : List SheetEntry) (idx : Nat) (t : String)
    (hrid : en.rid.getD "" ≠ "")
    (hrt : ridTarget wbPath rels (en.rid.getD "") = some t)
    (ht : t ≠ "") :
    sheetInfosGo wbPath rels (en :: rest) idx =
      (sheetInfosGo wbPath rels rest (idx + 1)).map
        (fun l => ⟨en.name.getD "Sheet", en.rid.getD "", t, idx⟩ :: l) := by
  simp [sheetInfosGo, hrid, hrt, ht]

theorem sheetInfosGo_error_iff (wbPath : String) (rels : List Rel) :
    ∀ (entries : List SheetEntry) (idx : Nat),
      (∃ e, sheetInfosGo wbPath rels entries idx = .error e) ↔
        (∃ en ∈ entries, en.rid.getD "" ≠ "" ∧
          unresolvedRid wbPath rels (en.rid.getD "")) := by
  intro entries
  induction entries with
  | nil =>
    intro idx
    constructor
    · rintro ⟨e, he⟩; cases he
    · rintro ⟨en, hen, _⟩; cases hen
  | cons en rest ih =>
    intro idx
    by_cases hrid : en.rid.getD "" = ""
    · rw [sheetInfosGo_cons_skip wbPath rels en rest idx hrid, ih (idx + 1)]
      constructor
      · rintro ⟨x, hx, h1, h2⟩
        exact ⟨x, List.mem_cons_of_mem en hx, h1, h2⟩
      · rintro ⟨x, hx, h1, h2⟩
        rcases List.mem_cons.mp hx with rfl | hx2
        · exact absurd hrid h1
        · exact ⟨x, hx2, h1, h2⟩
    · cases hrt : ridTarget wbPath rels (en.rid.getD "") with
      | none =>
        rw [sheetInfosGo_cons_none wbPath rels en rest idx hrid hrt]
        constructor
        · intro _
          exact ⟨en, List.mem_cons_self en rest, hrid, Or.inl hrt⟩
        · intro _
          exact ⟨.noRidTarget (en.rid.getD ""), rfl⟩
      | some t =>
        by_cases ht : t = ""
        · subst ht
          rw [sheetInfosGo_cons_empty wbPath rels en rest idx hrid hrt]
          constructor
          · intro _
            exact ⟨en, List.mem_cons_self en rest, hrid, Or.inr hrt⟩
          · intro _
            exact ⟨.noRidTarget (en.rid.getD ""), rfl⟩
        · rw [sheetInfosGo_cons_ok wbPath rels en rest idx t hrid hrt ht]
          constructor
          · rintro ⟨e, he⟩
            cases hgo : sheetInfosGo wbPath rels rest (idx + 1) with
            | error e2 =>
              obtain ⟨x, hx, h1, h2⟩ := (ih (idx + 1)).mp ⟨e2, hgo⟩
              exact ⟨x, List.mem_cons_of_mem en hx, h1, h2⟩
            | ok l =>
              rw [hgo] at he
              cases he
          · rintro ⟨x, hx, h1, h2⟩
            rcases List.mem_cons.mp hx with rfl | hx2
            · rcases h2 with h2 | h2
              · rw [hrt] at h2; cases h2
              · rw [hrt] at h2; cases h2; exact absurd rfl ht
            · obtain ⟨e, he⟩ := (ih (idx + 1)).mpr ⟨x, hx2, h1, h2⟩
              rw [he]
              exact ⟨e, rfl⟩

theorem sheetInfosGo_ok_nil_iff (wbPath : String) (rels : List Rel) :
    ∀ (entries : List SheetEntry) (idx : Nat),
      sheetInfosGo wbPath rels entries idx = .ok [] ↔
        ∀ en ∈ entries, en.rid.getD "" = "" := by
  intro entries
  induction entries with
  | nil =>
    intro idx
    constructor
    · intro _ en hen; cases hen
    · intro _; rfl
  | cons en rest ih =>
    intro idx
    by_cases hrid : en.rid.getD "" = ""
    · rw [sheetInfosGo_cons_skip wbPath rels en rest idx hrid, ih (idx + 1)]
      constructor
      · intro h x hx
        rcases List.mem_cons.mp hx with rfl | hx2
        · exact hrid
        · exact h x hx2
      · intro h x hx
        exact h x (List.mem_cons_of_mem en hx)
    · cases hrt : ridTarget wbPath rels (en.rid.getD "") with
      | none =>
        rw [sheetInfosGo_cons_none wbPath rels en rest idx hrid hrt]
        constructor
        · intro h; cases h
        · intro h; exact absurd (h en (List.mem_cons_self en rest)) hrid
      | some t =>
        by_cases ht : t = ""
        · subst ht
          rw [sheetInfosGo_cons_empty wbPath rels en rest idx hrid hrt]
          constructor
          · intro h; cases h
          · intro h; exact absurd (h en (List.mem_cons_self en rest)) hrid
        · rw [sheetInfosGo_cons_ok wbPath rels en rest idx t hrid hrt ht]
          constructor
          · intro h
            cases hgo : sheetInfosGo wbPath rels rest (idx + 1) with
            | error e => rw [hgo] at h; cases h
            | ok l => rw [hgo] at h; cases h
          · intro h; exact absurd (h en (List.mem_cons_self en rest)) hrid

/-- C7 (counterexample): a sheet entry with no relationship id is *not* a
fatal error: `load_sheet_infos` silently skips it (`if not rid: continue`)
and succeeds with the remaining descriptors (the skipped entry still counts
towards the original position index). -/
theorem claim_C7_counterexample :
    load_sheet_infos
        ⟨some [⟨some "A", none, "1", none⟩, ⟨some "B", some "rId1", "2", none⟩], none⟩
        "xl/workbook.xml"
        [⟨some "rId1", "worksheets/s1.xml", ""⟩] =
      .ok [⟨"B", "rId1", "xl/worksheets/s1.xml", 1⟩] := by
  decide

/-- C7 (amended): loading the sheet descriptor list fails with a fatal error
iff the workbook descriptor has no `<sheets>` element, or some sheet entry
has a truthy relationship id that resolves to no (or an empty) target, or
*every* sheet entry lacks a truthy relationship id (then no worksheets
remain); an individual id-less sheet entry is skipped, not fatal.  Second
conjunct: when the load phase fails, `split_xlsx` produces no chunk
archives. -/
theorem claim_C7_amended :
    (∀ (wb : Workbook) (wbPath : String) (rels : List Rel),
      (∃ e, load_sheet_infos wb wbPath rels = .error e) ↔
        (wb.sheets = none ∨
         (∃ en ∈ wb.sheets.getD [], en.rid.getD "" ≠ "" ∧
            unresolvedRid wbPath rels (en.rid.getD "")) ∨
         (∀ en ∈ wb.sheets.getD [], en.rid.getD "" = ""))) ∧
    (∀ (src : Archive) (k : Int) (e : SplitErr) (archs : List Archive),
      splitPrelude src = .error e → split_xlsx src k ≠ some (.ok archs)) := by
  constructor
  · intro wb wbPath rels
    cases hs : wb.sheets with
    | none =>
      simp only [load_sheet_infos, hs]
      constructor
      · intro _
        left
        trivial
      · intro _; exact ⟨.noSheetsElement, rfl⟩
    | some entries =>
      simp only [load_sheet_infos, hs, Option.getD_some]
      constructor
      · rintro ⟨e, he⟩
        cases hgo : sheetInfosGo wbPath rels entries 0 with
        | error e2 =>
          right; left
          exact (sheetInfosGo_error_iff wbPath rels entries 0).mp ⟨e2, hgo⟩
        | ok l =>
          rw [hgo] at he
          cases l with
          | nil =>
            right; right
            exact (sheetInfosGo_ok_nil_iff wbPath rels entries 0).mp hgo
          | cons a b => cases he
      · rintro (h | h | h)
        · cases h
        · obtain ⟨e, he⟩ := (sheetInfosGo_error_iff wbPath rels entries 0).mpr h
          rw [he]
          exact ⟨e, rfl⟩
        · have := (sheetInfosGo_ok_nil_iff wbPath rels entries 0).mpr h
          rw [this]
          exact ⟨.noWorksheets, rfl⟩
  · intro src k e archs hpre
    rw [split_xlsx]
    by_cases hk : k < 1
    · rw [if_pos hk]
      intro h
      cases h
    · rw [if_neg hk, hpre]
      intro h
      cases h

/-- Witness for `claim_C7_amended`: a workbook with no `<sheets>` element
fails, and a source archive whose load phase fails produces no chunks. -/
theorem claim_C7_amended_witness :
    (∃ e, load_sheet_infos ⟨none, none⟩ "xl/workbook.xml" [] = .error e) ∧
    split_xlsx [] 1 ≠ some (.ok []) := by
  constructor
  · exact (claim_C7_amended.1 ⟨none, none⟩ "xl/workbook.xml" []).mpr (Or.inl rfl)
  · exact claim_C7_amended.2 [] 1 .missingContentTypes [] (by decide)

end RagSpec

namespace RagSpec

/-! ## C10: termination of `copy_part_tree` -/

theorem copyFold_none_absorb (f : String → CopyState → OExc CopyState) :
    ∀ ts, copyFold f ts none = none := by
  intro ts
  induction ts with
  | nil => rfl
  | cons t ts ih => rw [copyFold]; exact ih

theorem copyFold_error_absorb (f : String → CopyState → OExc CopyState) (e : SplitErr) :
    ∀ ts, copyFold f ts (some (.error e)) = some (.error e) := by
  intro ts
  induction ts with
  | nil => rfl
  | cons t ts ih => rw [copyFold]; exact ih

theorem copy_zero (src : Archive) (p : String) (st : CopyState) :
    copy_part_tree src 0 p st = none := rfl

theorem copy_succ_guard (src : Archive) (fuel : Nat) (p : String) (st : CopyState)
    (h : should_skip_part (lstripSlash p) = true ∨ lstripSlash p ∈ st.seen) :
    copy_part_tree src (fuel + 1) p st = some (.ok st) := by
  have h' : (should_skip_part (lstripSlash p) = true) ∨ lstripSlash p ∈ st.seen := h
  simp only [copy_part_tree]
  rw [if_pos h']

theorem copy_succ_missing (src : Archive) (fuel : Nat) (p : String) (st : CopyState)
    (hg : ¬(should_skip_part (lstripSlash p) = true ∨ lstripSlash p ∈ st.seen))
    (hl : lookupPart src (lstripSlash p) = none) :
    copy_part_tree src (fuel + 1) p st =
      some (.error (.missingPart (lstripSlash p))) := by
  simp only [copy_part_tree]
  rw [if_neg hg, hl]

theorem copy_succ_found (src : Archive) (fuel : Nat) (p : String) (st : CopyState)
    (content : Content)
    (hg : ¬(should_skip_part (lstripSlash p) = true ∨ lstripSlash p ∈ st.seen))
    (hl : lookupPart src (lstripSlash p) = some content) :
    copy_part_tree src (fuel + 1) p st =
      copyRest src (fun t s => copy_part_tree src fuel t s) (lstripSlash p)
        (write_entry { st with seen := insertStr (lstripSlash p) st.seen }
          (lstripSlash p) content) := by
  simp only [copy_part_tree]
  rw [if_neg hg, hl]

theorem mem_insertStr (x s : String) (l : List String) :
    x ∈ insertStr s l ↔ x ∈ l ∨ x = s := by
  rw [insertStr]
  by_cases h : s ∈ l
  · rw [if_pos h]
    constructor
    · intro hx; exact Or.inl hx
    · rintro (hx | rfl)
      · exact hx
      · exact h
  · rw [if_neg h]
    rw [List.mem_cons]
    tauto

theorem subset_insertStr (s : String) (l : List String) : l ⊆ insertStr s l := by
  intro x hx
  rw [mem_insertStr]
  exact Or.inl hx

theorem self_mem_insertStr (s : String) (l : List String) : s ∈ insertStr s l := by
  rw [mem_insertStr]
  exact Or.inr rfl

theorem keys_any_iff (a : Archive) (k : String) :
    a.any (fun e => e.1 = k) = true ↔ k ∈ keysOf a := by
  rw [keysOf, List.any_eq_true]
  constructor
  · rintro ⟨e, he, hek⟩
    exact List.mem_map.mpr ⟨e, he, by simpa using hek⟩
  · intro h
    rcases List.mem_map.mp h with ⟨e, he, hek⟩
    exact ⟨e, he, by simpa using hek⟩

theorem keysOf_upsert (a : Archive) (k : String) (v : Content) :
    keysOf (upsert a k v) = if a.any (fun e => e.1 = k) then keysOf a else keysOf a ++ [k] := by
  rw [upsert]
  by_cases h : a.any (fun e => e.1 = k) = true
  · rw [if_pos h, if_pos h, keysOf, keysOf, List.map_map]
    apply List.map_congr_left
    intro e _
    simp only [Function.comp_apply]
    by_cases hek : e.1 = k
    · simp [hek]
    · simp [hek]
  · rw [if_neg h, if_neg h, keysOf, keysOf, List.map_append]
    rfl

theorem mem_keys_upsert (a : Archive) (k : String) (v : Content) (x : String) :
    x ∈ keysOf (upsert a k v) ↔ x ∈ keysOf a ∨ x = k := by
  rw [keysOf_upsert]
  by_cases h : a.any (fun e => e.1 = k) = true
  · rw [if_pos h]
    constructor
    · intro hx; exact Or.inl hx
    · rintro (hx | hx)
      · exact hx
      · rw [hx]; exact (keys_any_iff a k).mp h
  · rw [if_neg h]
    simp [List.mem_append]

theorem write_entry_seen (st : CopyState) (p : String) (v : Content) :
    (write_entry st p v).seen = st.seen := rfl

theorem mem_keys_write_entry (st : CopyState) (p : String) (v : Content) (x : String) :
    x ∈ keysOf (write_entry st p v).entries ↔
      x ∈ keysOf st.entries ∨ x = lstripSlash p := by
  rw [write_entry]
  exact mem_keys_upsert st.entries (lstripSlash p) v x

/-- Seen-set and key-set monotonicity of `copy_part_tree`. -/
theorem copy_part_tree_mono (src : Archive) :
    ∀ (fuel : Nat) (p : String) (st st' : CopyState),
      copy_part_tree src fuel p st = some (.ok st') →
      st.seen ⊆ st'.seen ∧ (∀ k ∈ keysOf st.entries, k ∈ keysOf st'.entries) := by
  intro fuel
  induction fuel with
  | zero => intro p st st' h; cases h
  | succ fuel ih =>
    intro p st st' h
    by_cases hg : should_skip_part (lstripSlash p) = true ∨ lstripSlash p ∈ st.seen
    · rw [copy_succ_guard src fuel p st hg] at h
      cases h
      exact ⟨fun x hx => hx, fun k hk => hk⟩
    · cases hl : lookupPart src (lstripSlash p) with
      | none =>
        rw [copy_succ_missing src fuel p st hg hl] at h
        cases h
      | some content =>
        rw [copy_succ_found src fuel p st content hg hl] at h
        set st1 := write_entry { st with seen := insertStr (lstripSlash p) st.seen }
          (lstripSlash p) content with hst1
        have hst1seen : st.seen ⊆ st1.seen := by
          rw [hst1, write_entry_seen]
          exact subset_insertStr _ _
        have hst1keys : ∀ k ∈ keysOf st.entries, k ∈ keysOf st1.entries := by
          intro k hk
          rw [hst1, mem_keys_write_entry]
          exact Or.inl hk
        rw [copyRest] at h
        by_cases hrp : relationship_part_path (lstripSlash p) ∉ keysOf src ∨
            relationship_part_path (lstripSlash p) ∈ st1.seen
        · rw [if_pos hrp] at h
          obtain rfl : st1 = st' := Except.ok.inj (Option.some.inj h)
          exact ⟨hst1seen, hst1keys⟩
        · rw [if_neg hrp] at h
          cases hlr : lookupPart src (relationship_part_path (lstripSlash p)) with
          | none =>
            rw [hlr] at h
            obtain rfl : st1 = st' := Except.ok.inj (Option.some.inj h)
            exact ⟨hst1seen, hst1keys⟩
          | some rc =>
            rw [hlr] at h
            cases rc with
            | data n => cases h
            | rels l =>
              set st2 := if (filterRels (lstripSlash p) (keysOf src) l).1 = [] then st1
                else
                  let w := write_entry st1 (relationship_part_path (lstripSlash p))
                    (.rels (filterRels (lstripSlash p) (keysOf src) l).1)
                  { w with seen := insertStr (relationship_part_path (lstripSlash p)) w.seen }
                with hst2
              have hst2seen : st1.seen ⊆ st2.seen := by
                rw [hst2]
                by_cases hpr : (filterRels (lstripSlash p) (keysOf src) l).1 = []
                · rw [if_pos hpr]
                  exact fun x hx => hx
                · rw [if_neg hpr]
                  intro x hx
                  exact subset_insertStr _ _ (by rw [write_entry_seen]; exact hx)
              have hst2keys : ∀ k ∈ keysOf st1.entries, k ∈ keysOf st2.entries := by
                rw [hst2]
                by_cases hpr : (filterRels (lstripSlash p) (keysOf src) l).1 = []
                · rw [if_pos hpr]
                  exact fun k hk => hk
                · rw [if_neg hpr]
                  intro k hk
                  show k ∈ keysOf (write_entry st1 _ _).entries
                  rw [mem_keys_write_entry]
                  exact Or.inl hk
              have hfold : ∀ (ts : List String) (s s' : CopyState),
                  copyFold (fun t s => copy_part_tree src fuel t s) ts (some (.ok s)) =
                    some (.ok s') →
                  s.seen ⊆ s'.seen ∧ (∀ k ∈ keysOf s.entries, k ∈ keysOf s'.entries) := by
                intro ts
                induction ts with
                | nil =>
                  intro s s' hh
                  cases hh
                  exact ⟨fun x hx => hx, fun k hk => hk⟩
                | cons t ts ihts =>
                  intro s s' hh
                  rw [copyFold] at hh
                  simp only [bindOk] at hh
                  cases hft : copy_part_tree src fuel t s with
                  | none =>
                    rw [hft, copyFold_none_absorb] at hh
                    cases hh
                  | some r =>
                    cases r with
                    | error e =>
                      rw [hft, copyFold_error_absorb] at hh
                      cases hh
                    | ok smid =>
                      rw [hft] at hh
                      obtain ⟨hs1, hk1⟩ := ih t s smid hft
                      obtain ⟨hs2, hk2⟩ := ihts smid s' hh
                      exact ⟨fun x hx => hs2 (hs1 hx), fun k hk => hk2 k (hk1 k hk)⟩
              obtain ⟨hs3, hk3⟩ := hfold _ _ _ h
              refine ⟨fun x hx => hs3 (hst2seen (hst1seen hx)), ?_⟩
              intro k hk
              exact hk3 k (hst2keys k (hst1keys k hk))
            | workbook wb =>
              obtain rfl : st1 = st' := Except.ok.inj (Option.some.inj h)
              exact ⟨hst1seen, hst1keys⟩
            | ctypes o =>
              obtain rfl : st1 = st' := Except.ok.inj (Option.some.inj h)
              exact ⟨hst1seen, hst1keys⟩
            | appProps t =>
              obtain rfl : st1 = st' := Except.ok.inj (Option.some.inj h)
              exact ⟨hst1seen, hst1keys⟩

end RagSpec

namespace RagSpec

/-- The number of source parts not yet visited: the quantity that shrinks at
every productive `copy_part_tree` call. -/
def seenMeasure (src : Archive) (st : CopyState) : Nat :=
  ((keysOf src).filter (fun x => decide (x ∉ st.seen))).length

theorem filter_impl_length_le {α : Type} (p q : α → Bool)
    (himp : ∀ x, q x = true → p x = true) :
    ∀ l : List α, (l.filter q).length ≤ (l.filter p).length := by
  intro l
  induction l with
  | nil => exact Nat.le_refl _
  | cons a rest ih =>
    simp only [List.filter_cons]
    cases hq : q a with
    | true =>
      simp only [himp a hq, eq_self_iff_true, if_true, List.length_cons]
      omega
    | false =>
      cases hp : p a with
      | true => simp only [hp, hq, eq_self_iff_true, if_true, if_neg Bool.false_ne_true, List.length_cons]; omega
      | false => simp only [hp, hq, if_neg Bool.false_ne_true]; exact ih

theorem filter_impl_length_lt {α : Type} (p q : α → Bool)
    (himp : ∀ x, q x = true → p x = true) :
    ∀ (l : List α) (a : α), a ∈ l → p a = true → q a = false →
      (l.filter q).length < (l.filter p).length := by
  intro l
  induction l with
  | nil => intro a ha; cases ha
  | cons b rest ih =>
    intro a ha hpa hqa
    simp only [List.filter_cons]
    rcases List.mem_cons.mp ha with rfl | ha'
    · simp only [hpa, hqa, eq_self_iff_true, if_true, if_neg Bool.false_ne_true, List.length_cons]
      exact Nat.lt_succ_of_le (filter_impl_length_le p q himp rest)
    · have hlt := ih a ha' hpa hqa
      cases hq : q b with
      | true =>
        simp only [himp b hq, eq_self_iff_true, if_true, List.length_cons]
        omega
      | false =>
        cases hp : p b with
        | true =>
          simp only [hp, hq, eq_self_iff_true, if_true, if_neg Bool.false_ne_true, List.length_cons]
          omega
        | false => simp only [hp, hq, if_neg Bool.false_ne_true]; exact hlt

theorem seenMeasure_le (src : Archive) (st st' : CopyState)
    (h : st.seen ⊆ st'.seen) : seenMeasure src st' ≤ seenMeasure src st := by
  apply filter_impl_length_le
  intro x hx
  simp only [decide_eq_true_eq] at hx ⊢
  intro hmem
  exact hx (h hmem)

theorem seenMeasure_lt (src : Archive) (st st' : CopyState)
    (hsub : st.seen ⊆ st'.seen) (part : String)
    (hmem : part ∈ keysOf src) (hnot : part ∉ st.seen) (hin : part ∈ st'.seen) :
    seenMeasure src st' < seenMeasure src st := by
  apply filter_impl_length_lt
  · intro x hx
    simp only [decide_eq_true_eq] at hx ⊢
    intro hm
    exact hx (hsub hm)
  · exact hmem
  · simpa using hnot
  · simpa using hin

theorem lookupPart_some_mem (src : Archive) (k : String) (c : Content)
    (h : lookupPart src k = some c) : k ∈ keysOf src := by
  rw [lookupPart] at h
  cases hf : src.find? (fun e => e.1 = k) with
  | none => rw [hf] at h; cases h
  | some e =>
    have hmem := List.mem_of_find?_eq_some hf
    have hk := List.find?_some hf
    simp only [decide_eq_true_eq] at hk
    rw [keysOf]
    exact List.mem_map.mpr ⟨e, hmem, hk⟩

/-- With fuel exceeding the number of unvisited source parts,
`copy_part_tree` cannot exhaust its fuel. -/
theorem copy_part_tree_not_none (src : Archive) :
    ∀ (fuel : Nat) (st : CopyState) (p : String),
      seenMeasure src st < fuel → copy_part_tree src fuel p st ≠ none := by
  intro fuel
  induction fuel with
  | zero => intro st p h; omega
  | succ fuel ih =>
    intro st p hm
    by_cases hg : should_skip_part (lstripSlash p) = true ∨ lstripSlash p ∈ st.seen
    · rw [copy_succ_guard src fuel p st hg]
      intro h; cases h
    · cases hl : lookupPart src (lstripSlash p) with
      | none =>
        rw [copy_succ_missing src fuel p st hg hl]
        intro h; cases h
      | some content =>
        rw [copy_succ_found src fuel p st content hg hl]
        set st1 := write_entry { st with seen := insertStr (lstripSlash p) st.seen }
          (lstripSlash p) content with hst1
        have hnotseen : lstripSlash p ∉ st.seen := fun hc => hg (Or.inr hc)
        have hpk : lstripSlash p ∈ keysOf src := lookupPart_some_mem src _ content hl
        have hseen1 : st.seen ⊆ st1.seen := by
          rw [hst1, write_entry_seen]
          exact subset_insertStr _ _
        have hin1 : lstripSlash p ∈ st1.seen := by
          rw [hst1, write_entry_seen]
          exact self_mem_insertStr _ _
        rw [copyRest]
        by_cases hrp : relationship_part_path (lstripSlash p) ∉ keysOf src ∨
            relationship_part_path (lstripSlash p) ∈ st1.seen
        · rw [if_pos hrp]; intro h; cases h
        · rw [if_neg hrp]
          cases hlr : lookupPart src (relationship_part_path (lstripSlash p)) with
          | none => intro h; cases h
          | some rc =>
            cases rc with
            | data n => intro h; cases h
            | rels l =>
              set st2 := if (filterRels (lstripSlash p) (keysOf src) l).1 = [] then st1
                else
                  let w := write_entry st1 (relationship_part_path (lstripSlash p))
                    (.rels (filterRels (lstripSlash p) (keysOf src) l).1)
                  { w with seen := insertStr (relationship_part_path (lstripSlash p)) w.seen }
                with hst2
              have hseen2 : st1.seen ⊆ st2.seen := by
                rw [hst2]
                by_cases hpr : (filterRels (lstripSlash p) (keysOf src) l).1 = []
                · rw [if_pos hpr]; exact fun x hx => hx
                · rw [if_neg hpr]
                  intro x hx
                  exact subset_insertStr _ _ (by rw [write_entry_seen]; exact hx)
              have hm2 : seenMeasure src st2 < fuel := by
                have hlt : seenMeasure src st2 < seenMeasure src st :=
                  seenMeasure_lt src st st2 (fun x hx => hseen2 (hseen1 hx))
                    (lstripSlash p) hpk hnotseen (hseen2 hin1)
                omega
              have hfoldnn : ∀ (ts : List String) (s : CopyState),
                  seenMeasure src s < fuel →
                  copyFold (fun t s => copy_part_tree src fuel t s) ts (some (.ok s)) ≠
                    none := by
                intro ts
                induction ts with
                | nil => intro s _ h; cases h
                | cons t ts ihts =>
                  intro s hs
                  rw [copyFold]
                  simp only [bindOk]
                  cases hft : copy_part_tree src fuel t s with
                  | none => exact absurd hft (ih s t hs)
                  | some r =>
                    cases r with
                    | error e =>
                      rw [copyFold_error_absorb]
                      intro h; cases h
                    | ok smid =>
                      apply ihts
                      have hsub := (copy_part_tree_mono src fuel t s smid hft).1
                      have := seenMeasure_le src s smid hsub
                      omega
              exact hfoldnn _ st2 hm2
            | workbook wb => intro h; cases h
            | ctypes o => intro h; cases h
            | appProps t => intro h; cases h

/-- C10: termination of the recursive part copier.  First conjunct: with the
step bound set to one more than the number of not-yet-visited source parts —
in particular `(keysOf src).length + 1`, the bound `chunkFuel` used by
`split_xlsx`'s chunk builder — `copy_part_tree` always completes (never
exhausts its fuel), on every source archive including ones whose
relationship graph is cyclic: each productive call strictly shrinks the
unvisited set, which the second conjunct bounds by the finite number of
source parts.  Third conjunct: the visited-set guard is unconditional — a
part already in `seen` returns at once with the state unchanged, so each
part is entered at most once. -/
theorem claim_C10_termination :
    (∀ (src : Archive) (st : CopyState) (p : String),
      copy_part_tree src (seenMeasure src st + 1) p st ≠ none) ∧
    (∀ (src : Archive) (st : CopyState) (p : String),
      copy_part_tree src (chunkFuel src) p st ≠ none) ∧
    (∀ (src : Archive) (st : CopyState), seenMeasure src st ≤ (keysOf src).length) ∧
    (∀ (src : Archive) (fuel : Nat) (p : String) (st : CopyState),
      lstripSlash p ∈ st.seen → copy_part_tree src (fuel + 1) p st = some (.ok st)) := by
  refine ⟨?_, ?_, ?_, ?_⟩
  · intro src st p
    exact copy_part_tree_not_none src (seenMeasure src st + 1) st p (Nat.lt_succ_self _)
  · intro src st p
    apply copy_part_tree_not_none
    rw [chunkFuel]
    have : seenMeasure src st ≤ (keysOf src).length := List.length_filter_le _ _
    omega
  · intro src st
    exact List.length_filter_le _ _
  · intro src fuel p st hseen
    exact copy_succ_guard src fuel p st (Or.inr hseen)

/-- Witness for `claim_C10_termination` (for its guard conjunct, which
carries a hypothesis): a part already visited in a one-part archive. -/
theorem claim_C10_termination_witness :
    copy_part_tree [("a.xml", .data 1)] 4 "a.xml" ⟨[("a.xml", .data 1)], ["/a.xml"], ["a.xml"]⟩ =
      some (.ok ⟨[("a.xml", .data 1)], ["/a.xml"], ["a.xml"]⟩) ∧
    copy_part_tree [("a.xml", .data 1)] 2 "b.xml" ⟨[], [], []⟩ ≠ none := by
  constructor
  · exact claim_C10_termination.2.2.2 [("a.xml", .data 1)] 3 "a.xml"
      ⟨[("a.xml", .data 1)], ["/a.xml"], ["a.xml"]⟩ (by decide)
  · have h := claim_C10_termination.1 [("a.xml", .data 1)] ⟨[], [], []⟩ "b.xml"
    have he : seenMeasure [("a.xml", .data 1)] ⟨[], [], []⟩ + 1 = 2 := by decide
    rw [he] at h
    exact h

end RagSpec

namespace RagSpec

/-! ## Concrete two-sheet source package used as a witness input -/

def srcC1w : Archive :=
  [("[Content_Types].xml", .ctypes [⟨"/xl/workbook.xml", WORKBOOK_CONTENT_TYPE⟩]),
   ("xl/workbook.xml", .workbook
      ⟨some [⟨some "A", some "rId1", "1", none⟩, ⟨some "B", some "rId2", "2", none⟩],
       none⟩),
   ("xl/_rels/workbook.xml.rels", .rels
      [⟨some "rId1", "worksheets/s1.xml", ""⟩, ⟨some "rId2", "worksheets/s2.xml", ""⟩]),
   ("xl/worksheets/s1.xml", .data 1),
   ("xl/worksheets/s2.xml", .data 2)]

def pdC1w : PreludeData :=
  ⟨[⟨"/xl/workbook.xml", WORKBOOK_CONTENT_TYPE⟩],
   "xl/workbook.xml",
   ⟨some [⟨some "A", some "rId1", "1", none⟩, ⟨some "B", some "rId2", "2", none⟩], none⟩,
   [⟨some "rId1", "worksheets/s1.xml", ""⟩, ⟨some "rId2", "worksheets/s2.xml", ""⟩],
   [⟨"A", "rId1", "xl/worksheets/s1.xml", 0⟩, ⟨"B", "rId2", "xl/worksheets/s2.xml", 1⟩],
   none, []⟩

def archC1w : Archive :=
  [("xl/workbook.xml", .workbook
      ⟨some [⟨some "A", some "rId1", "1", some "1"⟩, ⟨some "B", some "rId2", "2", none⟩],
       none⟩),
   ("xl/_rels/workbook.xml.rels", .rels
      [⟨some "rId1", "worksheets/s1.xml", ""⟩, ⟨some "rId2", "worksheets/s2.xml", ""⟩]),
   ("xl/worksheets/s1.xml", .data 1),
   ("xl/worksheets/s2.xml", .data 2),
   ("[Content_Types].xml", .ctypes [⟨"/xl/workbook.xml", WORKBOOK_CONTENT_TYPE⟩])]

/-- Witness for `claim_C1_partition`: the two-sheet source split with `k = 2`
yields `⌈2/2⌉ = 1` archive and the chunks concatenate to the sheet list;
`k = 0` raises the configuration error. -/
theorem claim_C1_partition_witness :
    [archC1w].length = (pdC1w.sheets.length + (2 : Int).toNat - 1) / (2 : Int).toNat ∧
    (chunked (2 : Int).toNat pdC1w.sheets).flatten = pdC1w.sheets ∧
    split_xlsx srcC1w 0 = some (.error .badMaxSheets) :=
  ⟨(claim_C1_partition.1 2 srcC1w pdC1w [archC1w] (by decide) (by decide) (by decide)).1,
   (claim_C1_partition.1 2 srcC1w pdC1w [archC1w] (by decide) (by decide) (by decide)).2.1,
   claim_C1_partition.2 0 srcC1w (by decide)⟩

end RagSpec

namespace RagSpec

/-! ## C4: written-set / manifest synchronisation -/

theorem map_upsert_id (k : String) (v : Content) :
    ∀ a : Archive, ¬(a.any (fun e => e.1 = k)) = true →
      a.map (fun e => if e.1 = k then (k, v) else e) = a := by
  intro a
  induction a with
  | nil => intro _; rfl
  | cons e a ih =>
    intro h
    have hek : ¬ e.1 = k := by
      intro hc; exact h (by simp [List.any_cons, hc])
    have ha : ¬(a.any (fun e => e.1 = k)) = true := by
      intro hc; exact h (by simp [List.any_cons, hc])
    simp only [List.map_cons, if_neg hek, ih ha]

theorem find_none_of_no_key (x : String) (a : Archive)
    (h : ¬(a.any (fun e => e.1 = x)) = true) :
    a.find? (fun e => e.1 = x) = none := by
  apply List.find?_eq_none.mpr
  intro e he
  simp only [decide_eq_true_eq]
  intro hc
  exact h (List.any_eq_true.mpr ⟨e, he, by simpa using hc⟩)

theorem lookup_map_key (k : String) (v : Content) (x : String) :
    ∀ a : Archive, a.any (fun e => e.1 = k) = true →
      lookupPart (a.map (fun e => if e.1 = k then (k, v) else e)) x =
        if x = k then some v else lookupPart a x := by
  intro a
  induction a with
  | nil => intro h; cases h
  | cons e a ih =>
    intro h
    simp only [List.map_cons]
    by_cases hek : e.1 = k
    · simp only [if_pos hek]
      by_cases hx : x = k
      · subst hx
        simp [lookupPart, List.find?_cons_of_pos]
      · simp only [lookupPart, if_neg hx]
        rw [List.find?_cons_of_neg, List.find?_cons_of_neg]
        · by_cases ha : (a.any (fun e => e.1 = k)) = true
          · have hih := ih ha
            simp only [lookupPart, if_neg hx] at hih
            exact hih
          · rw [map_upsert_id k v a ha]
        · simp only [decide_eq_true_eq]
          exact fun hc => hx (hc ▸ hek)
        · simp only [decide_eq_true_eq]
          exact fun hc => hx hc.symm
    · simp only [if_neg hek]
      have ha : (a.any (fun e => e.1 = k)) = true := by
        have hfe : (decide (e.1 = k)) = false := by simp [hek]
        simp only [List.any_cons, hfe, Bool.false_or] at h
        exact h
      by_cases hxe : e.1 = x
      · have hx : ¬ x = k := by rw [← hxe]; exact hek
        simp [lookupPart, List.find?_cons_of_pos, hxe, if_neg hx]
      · rw [lookupPart, lookupPart, List.find?_cons_of_neg, List.find?_cons_of_neg]
        · have hih := ih ha
          simp only [lookupPart] at hih
          exact hih
        · simp only [decide_eq_true_eq]; exact hxe
        · simp only [decide_eq_true_eq]; exact hxe

theorem lookup_upsert (k : String) (v : Content) (x : String) (a : Archive) :
    lookupPart (upsert a k v) x = if x = k then some v else lookupPart a x := by
  rw [upsert]
  by_cases hany : (a.any fun e => e.1 = k) = true
  · rw [if_pos hany]
    exact lookup_map_key k v x a hany
  · rw [if_neg hany]
    simp only [lookupPart, List.find?_append]
    by_cases hx : x = k
    · subst hx
      rw [find_none_of_no_key x a hany]
      simp [List.find?_cons_of_pos]
    · cases hfa : a.find? (fun e => e.1 = x) with
      | some r => simp [hfa, if_neg hx]
      | none =>
        rw [List.find?_cons_of_neg]
        · simp [if_neg hx]
        · simp only [decide_eq_true_eq]
          exact fun hc => hx hc.symm

/-- The invariant relating the `written` set to the entry keys: a path is
recorded as written iff it is `"/" ++` an entry key. -/
def WSync (st : CopyState) : Prop :=
  ∀ w, w ∈ st.written ↔ ∃ kk, kk ∈ keysOf st.entries ∧ w = "/" ++ kk

theorem slash_append_inj (a b : String) (h : "/" ++ a = "/" ++ b) : a = b := by
  have hd : a.data = b.data := by
    have h2 := congrArg String.data h
    simp only [String.data_append] at h2
    exact (List.cons.inj h2).2
  cases a
  cases b
  exact congrArg String.mk hd

theorem wsync_write_entry (st : CopyState) (p : String) (v : Content)
    (h : WSync st) : WSync (write_entry st p v) := by
  intro w
  have hwr : (write_entry st p v).written = insertStr ("/" ++ lstripSlash p) st.written := rfl
  have hen : (write_entry st p v).entries = upsert st.entries (lstripSlash p) v := rfl
  rw [hwr, hen, mem_insertStr]
  constructor
  · rintro (hw | hw)
    · rcases (h w).mp hw with ⟨kk, hk, hwk⟩
      exact ⟨kk, (mem_keys_upsert _ _ _ _).mpr (Or.inl hk), hwk⟩
    · exact ⟨lstripSlash p, (mem_keys_upsert _ _ _ _).mpr (Or.inr rfl), hw⟩
  · rintro ⟨kk, hk, hwk⟩
    rcases (mem_keys_upsert _ _ _ _).mp hk with hk2 | hk2
    · exact Or.inl ((h w).mpr ⟨kk, hk2, hwk⟩)
    · exact Or.inr (by rw [hwk, hk2])


/-- Generic preservation of a state predicate along `copyFold`. -/
theorem copyFold_pred (Q : CopyState → Prop) (f : String → CopyState → OExc CopyState)
    (hf : ∀ t s s', f t s = some (.ok s') → Q s → Q s') :
    ∀ (ts : List String) (s s' : CopyState),
      copyFold f ts (some (.ok s)) = some (.ok s') → Q s → Q s' := by
  intro ts
  induction ts with
  | nil =>
    intro s s' h hq
    rw [copyFold] at h
    obtain rfl : s' = s := (Except.ok.inj (Option.some.inj h)).symm
    exact hq
  | cons t ts ih =>
    intro s s' h hq
    rw [copyFold] at h
    simp only [bindOk] at h
    cases hft : f t s with
    | none => rw [hft, copyFold_none_absorb] at h; cases h
    | some r =>
      cases r with
      | error e => rw [hft, copyFold_error_absorb] at h; cases h
      | ok smid => rw [hft] at h; exact ih smid s' h (hf t s smid hft hq)

theorem copy_wsync (src : Archive) :
    ∀ (fuel : Nat) (t : String) (st st' : CopyState),
      copy_part_tree src fuel t st = some (.ok st') → WSync st → WSync st' := by
  intro fuel
  induction fuel with
  | zero => intro t st st' h; rw [copy_zero] at h; cases h
  | succ fuel ih =>
    intro t st st' h hw
    by_cases hg : should_skip_part (lstripSlash t) = true ∨ lstripSlash t ∈ st.seen
    · rw [copy_succ_guard src fuel t st hg] at h
      obtain rfl : st' = st := (Except.ok.inj (Option.some.inj h)).symm
      exact hw
    · cases hl : lookupPart src (lstripSlash t) with
      | none => rw [copy_succ_missing src fuel t st hg hl] at h; cases h
      | some content =>
        rw [copy_succ_found src fuel t st content hg hl] at h
        set st1 := write_entry { st with seen := insertStr (lstripSlash t) st.seen }
          (lstripSlash t) content with hst1
        have hw1 : WSync st1 := by
          rw [hst1]
          exact wsync_write_entry _ _ _ (fun w => hw w)
        rw [copyRest] at h
        by_cases hrp : relationship_part_path (lstripSlash t) ∉ keysOf src ∨
            relationship_part_path (lstripSlash t) ∈ st1.seen
        · rw [if_pos hrp] at h
          obtain rfl : st' = st1 := (Except.ok.inj (Option.some.inj h)).symm
          exact hw1
        · rw [if_neg hrp] at h
          cases hlr : lookupPart src (relationship_part_path (lstripSlash t)) with
          | none =>
            rw [hlr] at h
            obtain rfl : st' = st1 := (Except.ok.inj (Option.some.inj h)).symm
            exact hw1
          | some rc =>
            rw [hlr] at h
            cases rc with
            | data n => cases h
            | rels l =>
              simp only at h
              set st2 := if (filterRels (lstripSlash t) (keysOf src) l).1 = [] then st1
                else
                  let w := write_entry st1 (relationship_part_path (lstripSlash t))
                    (.rels (filterRels (lstripSlash t) (keysOf src) l).1)
                  { w with seen := insertStr (relationship_part_path (lstripSlash t)) w.seen }
                with hst2
              have hw2 : WSync st2 := by
                rw [hst2]
                by_cases hpr : (filterRels (lstripSlash t) (keysOf src) l).1 = []
                · rw [if_pos hpr]; exact hw1
                · rw [if_neg hpr]
                  exact fun w => wsync_write_entry st1 _ _ hw1 w
              exact copyFold_pred WSync _ (fun a b c hh => ih a b c hh) _ st2 st' h hw2
            | workbook wb =>
              obtain rfl : st' = st1 := (Except.ok.inj (Option.some.inj h)).symm
              exact hw1
            | ctypes o =>
              obtain rfl : st' = st1 := (Except.ok.inj (Option.some.inj h)).symm
              exact hw1
            | appProps ap =>
              obtain rfl : st' = st1 := (Except.ok.inj (Option.some.inj h)).symm
              exact hw1

theorem updateApp_keys (a : Archive) (names : List String) (ents : Archive)
    (h : updateAppEntries a names = .ok ents) : keysOf ents = keysOf a := by
  rw [updateAppEntries] at h
  cases hl : lookupPart a "docProps/app.xml" with
  | none =>
    simp only [hl] at h
    cases h
    rfl
  | some c =>
    simp only [hl] at h
    cases hu : update_docprops_app c names with
    | error e =>
      rw [hu] at h
      simp only [Except.map] at h
      cases h
    | ok c2 =>
      rw [hu] at h
      simp only [Except.map] at h
      cases h
      rw [keysOf_upsert,
        if_pos ((keys_any_iff a _).mpr (lookupPart_some_mem a _ c hl))]

end RagSpec

namespace RagSpec

theorem wsync_empty : WSync ⟨[], [], []⟩ := by
  intro w
  constructor
  · intro hw; cases hw
  · rintro ⟨kk, hk, _⟩; cases hk

theorem chunkArchive_manifest (src : Archive) (pd : PreludeData) (chunk : List SheetInfo)
    (A : Archive) (h : chunkArchive src pd chunk = some (.ok A)) :
    ∀ l, lookupPart A "[Content_Types].xml" = some (.ctypes l) →
      ∀ o ∈ l, lstripSlash o.partName ≠ "" → lstripSlash o.partName ∈ keysOf A := by
  rw [chunkArchive] at h
  simp only at h
  set st1 : CopyState :=
    (match pd.rootRels with
     | some l => write_entry ⟨[], [], []⟩ "_rels/.rels" (.rels l)
     | none => ⟨[], [], []⟩) with hst1
  have hw1 : WSync st1 := by
    rw [hst1]
    cases pd.rootRels with
    | none => exact wsync_empty
    | some l => exact wsync_write_entry _ _ _ wsync_empty
  cases hA : copyFold (fun t s => copy_part_tree src (chunkFuel src) t s)
      pd.rootTargets (some (.ok st1)) with
  | none => rw [hA] at h; cases h
  | some rA =>
    rw [hA] at h
    cases rA with
    | error e => cases h
    | ok stA =>
      have hwA : WSync stA :=
        copyFold_pred WSync _ (fun t s s' hh => copy_wsync src (chunkFuel src) t s s' hh)
          _ st1 stA hA hw1
      cases hP : prune_workbook_xml pd.wb chunk with
      | error e => rw [hP] at h; cases h
      | ok prunedWb =>
        rw [hP] at h
        simp only at h
        set stB := write_entry stA pd.workbook_path (.workbook prunedWb) with hstB
        set stC := write_entry stB (relationship_part_path pd.workbook_path)
          (.rels (prune_workbook_rels pd.workbook_path (chunk.map (fun s => s.rid))
            pd.wbRels).1) with hstC
        have hwC : WSync stC := by
          rw [hstC, hstB]
          exact wsync_write_entry _ _ _ (wsync_write_entry _ _ _ hwA)
        cases hD : copyFold (fun t s => copy_part_tree src (chunkFuel src) t s)
            (prune_workbook_rels pd.workbook_path (chunk.map (fun s => s.rid))
              pd.wbRels).2 (some (.ok stC)) with
        | none => rw [hD] at h; cases h
        | some rD =>
          cases rD with
          | error e => rw [hD] at h; cases h
          | ok stD =>
            rw [hD] at h
            simp only at h
            have hwD : WSync stD :=
              copyFold_pred WSync _
                (fun t s s' hh => copy_wsync src (chunkFuel src) t s s' hh)
                _ stC stD hD hwC
            cases hE : copyFold (fun t s => copy_part_tree src (chunkFuel src) t s)
                (chunk.map (fun s => s.target)) (some (.ok stD)) with
            | none => rw [hE] at h; cases h
            | some rE =>
              cases rE with
              | error e => rw [hE] at h; cases h
              | ok stE =>
                rw [hE] at h
                simp only at h
                have hwE : WSync stE :=
                  copyFold_pred WSync _
                    (fun t s s' hh => copy_wsync src (chunkFuel src) t s s' hh)
                    _ stD stE hE hwD
                cases hU : updateAppEntries stE.entries (chunk.map (fun s => s.name)) with
                | error e => rw [hU] at h; cases h
                | ok ents =>
                  rw [hU] at h
                  simp only at h
                  obtain rfl : A =
                      (write_entry { stE with entries := ents } "[Content_Types].xml"
                        (.ctypes (prune_content_types pd.ctOverrides
                          ({ stE with entries := ents } : CopyState).written))).entries :=
                    (Except.ok.inj (Option.some.inj h)).symm
                  have hkeys : keysOf ents = keysOf stE.entries :=
                    updateApp_keys stE.entries _ ents hU
                  have hwF : WSync ({ stE with entries := ents } : CopyState) := by
                    intro w
                    have := hwE w
                    simp only [hkeys]
                    exact this
                  intro l hl o ho hne
                  have hctk : lstripSlash "[Content_Types].xml" = "[Content_Types].xml" := by
                    decide
                  have hlook : lookupPart
                      (write_entry { stE with entries := ents } "[Content_Types].xml"
                        (.ctypes (prune_content_types pd.ctOverrides
                          ({ stE with entries := ents } : CopyState).written))).entries
                      "[Content_Types].xml" =
                      some (.ctypes (prune_content_types pd.ctOverrides
                        ({ stE with entries := ents } : CopyState).written)) := by
                    rw [write_entry]
                    simp only [hctk]
                    rw [lookup_upsert]
                    simp
                  rw [hlook] at hl
                  obtain rfl : l = prune_content_types pd.ctOverrides
                      ({ stE with entries := ents } : CopyState).written :=
                    (Content.ctypes.inj (Option.some.inj hl)).symm
                  rw [prune_content_types] at ho
                  have hpred := List.of_mem_filter ho
                  simp only [decide_eq_true_eq] at hpred
                  rcases hpred with hemp | hwrit
                  · exact absurd hemp hne
                  · rcases (hwF _).mp hwrit with ⟨kk, hk, hwk⟩
                    have : lstripSlash o.partName = kk := slash_append_inj _ _ hwk
                    rw [this]
                    rw [write_entry]
                    simp only
                    exact (mem_keys_upsert _ _ _ _).mpr (Or.inl hk)

theorem buildChunks_mem (src : Archive) (pd : PreludeData) :
    ∀ (cs : List (List SheetInfo)) (as : List Archive),
      buildChunks src pd cs = some (.ok as) →
      ∀ A ∈ as, ∃ c ∈ cs, chunkArchive src pd c = some (.ok A) := by
  intro cs
  induction cs with
  | nil =>
    intro as h A hA
    rw [buildChunks] at h
    obtain rfl : as = [] := (Except.ok.inj (Option.some.inj h)).symm
    cases hA
  | cons c cs ih =>
    intro as h A hA
    rw [buildChunks] at h
    cases hc : chunkArchive src pd c with
    | none => rw [hc] at h; cases h
    | some r =>
      rw [hc] at h
      cases r with
      | error e => cases h
      | ok a =>
        cases hb : buildChunks src pd cs with
        | none => rw [hb] at h; cases h
        | some r2 =>
          rw [hb] at h
          cases r2 with
          | error e => cases h
          | ok as2 =>
            obtain rfl : as = a :: as2 := (Except.ok.inj (Option.some.inj h)).symm
            rcases List.mem_cons.mp hA with rfl | hA2
            · exact ⟨c, List.mem_cons_self c cs, hc⟩
            · obtain ⟨c2, hc2m, hc2⟩ := ih as2 hb A hA2
              exact ⟨c2, List.mem_cons_of_mem c hc2m, hc2⟩

end RagSpec

namespace RagSpec

/-- C4 is refuted: `prune_content_types` keeps any override whose part name
is empty (the `if part_name and ...` guard), so a chunk manifest can carry an
override naming no part of the archive.  On this one-sheet source whose
manifest declares an empty-named override, the produced chunk's
`[Content_Types].xml` still lists that override while no entry of the
archive has the empty path. -/
theorem claim_C4_counterexample :
    split_xlsx
        [("[Content_Types].xml",
          .ctypes [⟨"/xl/workbook.xml", WORKBOOK_CONTENT_TYPE⟩, ⟨"", "ct-x"⟩]),
         ("xl/workbook.xml", .workbook ⟨some [⟨some "A", some "rId1", "1", none⟩], none⟩),
         ("xl/_rels/workbook.xml.rels", .rels [⟨some "rId1", "worksheets/s1.xml", ""⟩]),
         ("xl/worksheets/s1.xml", .data 1)] 1 =
      some (.ok
        [[("xl/workbook.xml", .workbook
            ⟨some [⟨some "A", some "rId1", "1", some "1"⟩], none⟩),
          ("xl/_rels/workbook.xml.rels", .rels [⟨some "rId1", "worksheets/s1.xml", ""⟩]),
          ("xl/worksheets/s1.xml", .data 1),
          ("[Content_Types].xml",
           .ctypes [⟨"/xl/workbook.xml", WORKBOOK_CONTENT_TYPE⟩, ⟨"", "ct-x"⟩])]]) ∧
    (⟨"", "ct-x"⟩ : Override) ∈
      [⟨"/xl/workbook.xml", WORKBOOK_CONTENT_TYPE⟩, (⟨"", "ct-x"⟩ : Override)] ∧
    lstripSlash (⟨"", "ct-x"⟩ : Override).partName ∉
      keysOf
        [("xl/workbook.xml", .workbook
            ⟨some [⟨some "A", some "rId1", "1", some "1"⟩], none⟩),
          ("xl/_rels/workbook.xml.rels", .rels [⟨some "rId1", "worksheets/s1.xml", ""⟩]),
          ("xl/worksheets/s1.xml", .data 1),
          ("[Content_Types].xml",
           .ctypes [⟨"/xl/workbook.xml", WORKBOOK_CONTENT_TYPE⟩, ⟨"", "ct-x"⟩])] := by
  refine ⟨by decide, by decide, by decide⟩

/-- C4 (amended): in every chunk archive produced by `split_xlsx`, every
Override entry of the pruned `[Content_Types].xml` manifest whose part name
is nonempty (after stripping the leading slash) names a part that is present
as an entry of that archive; an override with an empty part name survives
pruning but names no part. -/
theorem claim_C4_amended (src : Archive) (k : Int) (archs : List Archive)
    (hrun : split_xlsx src k = some (.ok archs)) :
    ∀ A ∈ archs, ∀ l, lookupPart A "[Content_Types].xml" = some (.ctypes l) →
      ∀ o ∈ l, lstripSlash o.partName ≠ "" → lstripSlash o.partName ∈ keysOf A := by
  intro A hA l hl o ho hne
  rw [split_xlsx] at hrun
  by_cases hk : k < 1
  · rw [if_pos hk] at hrun
    cases hrun
  · rw [if_neg hk] at hrun
    cases hpre : splitPrelude src with
    | error e => rw [hpre] at hrun; cases hrun
    | ok pd =>
      rw [hpre] at hrun
      simp only at hrun
      obtain ⟨c, _, hc⟩ := buildChunks_mem src pd _ archs hrun A hA
      exact chunkArchive_manifest src pd c A hc l hl o ho hne

/-- Witness for `claim_C4_amended`: on the two-sheet source split with
`k = 2`, the produced archive's manifest override for the workbook names the
workbook part, which is present. -/
theorem claim_C4_amended_witness :
    lstripSlash (⟨"/xl/workbook.xml", WORKBOOK_CONTENT_TYPE⟩ : Override).partName ∈
      keysOf archC1w :=
  claim_C4_amended srcC1w 2 [archC1w] (by decide) archC1w (by decide)
    [⟨"/xl/workbook.xml", WORKBOOK_CONTENT_TYPE⟩] (by decide)
    ⟨"/xl/workbook.xml", WORKBOOK_CONTENT_TYPE⟩ (by decide) (by decide)

end RagSpec

namespace RagSpec

/-! ## C2: path algebra for the relationship-closure invariant -/

theorem splitCl_ne_nil (sep : Char) : ∀ l : List Char, splitCl sep l ≠ [] := by
  intro l
  cases l with
  | nil => simp [splitCl]
  | cons c rest =>
    rw [splitCl]
    by_cases hc : c = sep
    · simp [hc]
    · simp only [if_neg hc]
      cases splitCl sep rest with
      | nil => simp
      | cons h t => simp

theorem splitCl_append (sep : Char) :
    ∀ x y : List Char, splitCl sep (x ++ sep :: y) = splitCl sep x ++ splitCl sep y := by
  intro x
  induction x with
  | nil =>
    intro y
    simp only [List.nil_append, splitCl, if_pos rfl]
    rfl
  | cons c rest ih =>
    intro y
    rw [List.cons_append, splitCl]
    by_cases hc : c = sep
    · rw [if_pos hc, ih y]
      conv_rhs => rw [splitCl, if_pos hc]
      simp
    · rw [if_neg hc, ih y]
      conv_rhs => rw [splitCl, if_neg hc]
      cases hs : splitCl sep rest with
      | nil => exact absurd hs (splitCl_ne_nil sep rest)
      | cons h t => simp

theorem intercalate_cons₂ (s a : List Char) (L : List (List Char)) (hL : L ≠ []) :
    List.intercalate s (a :: L) = a ++ s ++ List.intercalate s L := by
  cases L with
  | nil => exact absurd rfl hL
  | cons b t => simp [List.intercalate, List.intersperse]

theorem intercalate_single (s a : List Char) : List.intercalate s [a] = a := by
  simp [List.intercalate]

theorem intercalate_splitCl (sep : Char) :
    ∀ l : List Char, List.intercalate [sep] (splitCl sep l) = l := by
  intro l
  induction l with
  | nil => simp [splitCl, intercalate_single]
  | cons c rest ih =>
    rw [splitCl]
    by_cases hc : c = sep
    · rw [if_pos hc, intercalate_cons₂ _ _ _ (splitCl_ne_nil sep rest), ih, hc]
      simp
    · rw [if_neg hc]
      cases hs : splitCl sep rest with
      | nil => exact absurd hs (splitCl_ne_nil sep rest)
      | cons h t =>
        rw [hs] at ih
        cases t with
        | nil =>
          rw [intercalate_single] at ih
          rw [intercalate_single, ih]
        | cons h2 t2 =>
          rw [intercalate_cons₂ _ _ _ (by simp)] at ih
          rw [intercalate_cons₂ _ _ _ (by simp)]
          simp only [List.cons_append, List.append_assoc] at ih ⊢
          rw [ih]

theorem joinComps_comps (s : String) : joinComps (comps s) = s := by
  rw [joinComps, comps, List.map_map]
  have hmap : (List.map (String.data ∘ fun l => String.mk l) (splitCl '/' s.data)) =
      splitCl '/' s.data := by
    apply List.map_id''
    intro l
    rfl
  rw [hmap, intercalate_splitCl]

theorem splitCl_no_sep (sep : Char) :
    ∀ (l : List Char) (c : List Char), c ∈ splitCl sep l → sep ∉ c := by
  intro l
  induction l with
  | nil =>
    intro c hc
    simp [splitCl] at hc
    simp [hc]
  | cons x rest ih =>
    intro c hc
    rw [splitCl] at hc
    by_cases hx : x = sep
    · rw [if_pos hx] at hc
      rcases List.mem_cons.mp hc with rfl | hc'
      · simp
      · exact ih c hc'
    · rw [if_neg hx] at hc
      cases hs : splitCl sep rest with
      | nil => exact absurd hs (splitCl_ne_nil sep rest)
      | cons h t =>
        rw [hs] at hc
        rcases List.mem_cons.mp hc with rfl | hc'
        · intro hm
          rcases List.mem_cons.mp hm with rfl | hm'
          · exact hx rfl
          · exact ih h (hs ▸ List.mem_cons_self h t) hm'
        · exact ih c (hs ▸ List.mem_cons_of_mem h hc')

theorem comps_no_div (s : String) (c : String) (hc : c ∈ comps s) : '/' ∉ c.data := by
  rw [comps] at hc
  rcases List.mem_map.mp hc with ⟨l, hl, rfl⟩
  exact splitCl_no_sep '/' s.data l hl

theorem comps_ne_nil (s : String) : comps s ≠ [] := by
  rw [comps]
  intro h
  exact splitCl_ne_nil '/' s.data (List.map_eq_nil_iff.mp h)

theorem splitCl_no_sep_single (sep : Char) :
    ∀ l : List Char, sep ∉ l → splitCl sep l = [l] := by
  intro l
  induction l with
  | nil => intro _; simp [splitCl]
  | cons c t ih =>
    intro h
    have hc : ¬ c = sep := fun hc => h (hc ▸ List.mem_cons_self c t)
    rw [splitCl, if_neg hc, ih (fun hm => h (List.mem_cons_of_mem c hm))]

theorem comps_single (s : String) (h : '/' ∉ s.data) : comps s = [s] := by
  rw [comps, splitCl_no_sep_single '/' s.data h]
  simp

theorem comps_append_div (a b : String) : comps (a ++ "/" ++ b) = comps a ++ comps b := by
  have hd : (a ++ "/" ++ b).data = a.data ++ '/' :: b.data := by
    simp [String.data_append]
  rw [comps, hd, splitCl_append, List.map_append]
  rfl

theorem strData_ext (a b : String) (h : a.data = b.data) : a = b := by
  cases a
  cases b
  exact congrArg String.mk h

theorem joinComps_cons₂ (x y : String) (t : List String) :
    joinComps (x :: y :: t) = x ++ "/" ++ joinComps (y :: t) := by
  apply strData_ext
  rw [joinComps, joinComps]
  simp only [List.map_cons]
  rw [intercalate_cons₂ _ _ _ (by simp)]
  simp [String.data_append]

theorem comps_joinComps :
    ∀ cs : List String, cs ≠ [] → (∀ c ∈ cs, '/' ∉ String.data c) →
      comps (joinComps cs) = cs := by
  intro cs
  induction cs with
  | nil => intro h; exact absurd rfl h
  | cons x t ih =>
    intro _ hnd
    cases t with
    | nil =>
      rw [joinComps]
      simp only [List.map_cons, List.map_nil, intercalate_single]
      have : String.mk x.data = x := rfl
      rw [this]
      exact comps_single x (hnd x (List.mem_cons_self x []))
    | cons y t2 =>
      rw [joinComps_cons₂, comps_append_div,
        ih (by simp) (fun c hc => hnd c (List.mem_cons_of_mem x hc)),
        comps_single x (hnd x (List.mem_cons_self x _))]
      rfl

end RagSpec

namespace RagSpec

/-- A part path in canonical form: every `/`-separated component nonempty
(no leading, trailing or doubled slash). -/
def cleanPath (p : String) : Bool := (comps p).all (fun c => c ≠ "")

/-- Whether a path has a `_rels` component (lives in relationship space). -/
def relsLike (p : String) : Bool := (comps p).contains "_rels"

/-- Inverse of `relationship_part_path`: the part a companion relationship
path belongs to, when the path has the companion shape. -/
def companionOwner (c : String) : Option String :=
  match (comps c).reverse with
  | fn :: r :: ds =>
    if r = "_rels" ∧ strEnds ".rels" fn ∧ fn ≠ ".rels" then
      some (joinComps (ds.reverse ++ [⟨fn.data.take (fn.data.length - 5)⟩]))
    else none
  | _ => none

/-- The base path against which relationships found at companion path `c`
are normalized: the owning part, or `_rels/.rels` itself for the package
root relationships. -/
def companionBase (c : String) : Option String :=
  if c = "_rels/.rels" then some "_rels/.rels" else companionOwner c

theorem cleanPath_mem (p c : String) (h : cleanPath p = true) (hc : c ∈ comps p) :
    c ≠ "" := by
  rw [cleanPath, List.all_eq_true] at h
  simpa using h c hc

theorem cleanPath_ne_empty (t : String) (h : cleanPath t = true) : t ≠ "" := by
  intro he
  rw [he] at h
  exact absurd h (by decide)

theorem str_ne_empty_data (s : String) (h : s ≠ "") : s.data ≠ [] := by
  intro hd
  apply h
  cases s
  simp only at hd
  rw [hd]

theorem cleanPath_first (s : String) (h : cleanPath s = true) :
    ∃ c r, s.data = c :: r ∧ c ≠ '/' := by
  have hne : s ≠ "" := by
    intro rfl'
    subst rfl'
    have : ("" : String) ∈ comps "" := by
      rw [comps_single "" (by simp)]
      exact List.mem_cons_self _ _
    exact cleanPath_mem "" "" h this rfl
  cases hd : s.data with
  | nil => exact absurd hd (str_ne_empty_data s hne)
  | cons c r =>
    refine ⟨c, r, rfl, ?_⟩
    intro hc
    subst hc
    have hcm : ("" : String) ∈ comps s := by
      rw [comps, hd, splitCl, if_pos rfl]
      exact List.mem_map.mpr ⟨[], List.mem_cons_self _ _, rfl⟩
    exact cleanPath_mem s "" h hcm rfl

theorem cleanPath_lstripSlash (s : String) (h : cleanPath s = true) :
    lstripSlash s = s := by
  obtain ⟨c, r, hd, hc⟩ := cleanPath_first s h
  apply strData_ext
  show s.data.dropWhile (fun c => c = '/') = s.data
  rw [hd]
  simp [List.dropWhile_cons, hc]

theorem strStarts_div_false (s : String) (c : Char) (r : List Char)
    (hd : s.data = c :: r) (hc : c ≠ '/') : strStarts "/" s = false := by
  rw [strStarts, hd]
  simp only [List.isPrefixOf]
  simp
  exact fun hx => hc hx.symm

theorem strEnds_div_false (s : String) (y : List Char) (c : Char)
    (hd : s.data = y ++ [c]) (hc : c ≠ '/') : strEnds "/" s = false := by
  rw [strEnds, hd, List.isSuffixOf]
  simp only [List.reverse_append, List.reverse_cons, List.reverse_nil, List.nil_append,
    List.cons_append, List.isPrefixOf]
  simp
  exact fun hx => hc hx.symm

theorem getLastD_mem : ∀ l : List String, l ≠ [] → ∀ d : String, l.getLastD d ∈ l := by
  intro l
  induction l with
  | nil => intro hh; exact absurd rfl hh
  | cons x t ih =>
    intro _ d
    cases t with
    | nil => simp
    | cons y t2 =>
      rw [List.getLastD_cons]
      exact List.mem_cons_of_mem x (ih (by simp) x)

theorem getLastD_irrel : ∀ (l : List String), l ≠ [] → ∀ d d' : String,
    l.getLastD d = l.getLastD d' := by
  intro l hl d d'
  cases l with
  | nil => exact absurd rfl hl
  | cons x t => rw [List.getLastD_cons, List.getLastD_cons]

theorem dropLast_append_getLastD : ∀ (l : List String), l ≠ [] → ∀ d : String,
    l.dropLast ++ [l.getLastD d] = l := by
  intro l
  induction l with
  | nil => intro hh; exact absurd rfl hh
  | cons x t ih =>
    intro _ d
    cases t with
    | nil => simp
    | cons y t2 =>
      rw [List.getLastD_cons, List.dropLast_cons₂, List.cons_append, ih (by simp) x]

end RagSpec

namespace RagSpec

theorem joinComps_data_last :
    ∀ (cs : List String), cs ≠ [] →
      ∃ y, (joinComps cs).data = y ++ (cs.getLastD "").data := by
  intro cs
  induction cs with
  | nil => intro hh; exact absurd rfl hh
  | cons x t ih =>
    intro _
    cases t with
    | nil =>
      refine ⟨[], ?_⟩
      rw [List.getLastD_cons]
      show (joinComps [x]).data = [] ++ x.data
      rw [joinComps]
      simp [intercalate_single]
    | cons y t2 =>
      obtain ⟨z, hz⟩ := ih (by simp)
      rw [joinComps_cons₂]
      refine ⟨x.data ++ ['/'] ++ z, ?_⟩
      rw [List.getLastD_cons, getLastD_irrel (y :: t2) (by simp) x ""]
      simp only [String.data_append, hz]
      simp [List.append_assoc]

theorem joinComps_head_data (x : String) (t : List String) (c : Char) (r : List Char)
    (hx : x.data = c :: r) :
    ∃ rr, (joinComps (x :: t)).data = c :: rr := by
  cases t with
  | nil =>
    refine ⟨r, ?_⟩
    show (joinComps [x]).data = c :: r
    rw [joinComps]
    simp [intercalate_single, hx]
  | cons y t2 =>
    rw [joinComps_cons₂]
    refine ⟨r ++ '/' :: (joinComps (y :: t2)).data, ?_⟩
    simp only [String.data_append, hx]
    simp

theorem joinComps_ne_empty (x : String) (t : List String) (hx : x ≠ "") :
    joinComps (x :: t) ≠ "" := by
  cases hd : x.data with
  | nil => exact absurd hd (str_ne_empty_data x hx)
  | cons c r =>
    obtain ⟨rr, hrr⟩ := joinComps_head_data x t c r hd
    intro he
    have := congrArg String.data he
    rw [hrr] at this
    cases this

theorem joinComps_strStarts_div (x : String) (t : List String) (hx : x ≠ "")
    (hnd : '/' ∉ x.data) : strStarts "/" (joinComps (x :: t)) = false := by
  cases hd : x.data with
  | nil => exact absurd hd (str_ne_empty_data x hx)
  | cons c r =>
    have hc : c ≠ '/' := by
      intro hc
      rw [hd, hc] at hnd
      exact hnd (List.mem_cons_self _ _)
    obtain ⟨rr, hrr⟩ := joinComps_head_data x t c r hd
    exact strStarts_div_false _ c rr hrr hc

theorem joinComps_strEnds_div (cs : List String) (hne : cs ≠ [])
    (hcl : ∀ c ∈ cs, c ≠ "" ∧ '/' ∉ String.data c) :
    strEnds "/" (joinComps cs) = false := by
  obtain ⟨y, hy⟩ := joinComps_data_last cs hne
  have hlm : cs.getLastD "" ∈ cs := getLastD_mem cs hne ""
  obtain ⟨hlne, hlnd⟩ := hcl _ hlm
  cases hd : (cs.getLastD "").data with
  | nil => exact absurd hd (str_ne_empty_data _ hlne)
  | cons c r =>
    have hsplit : (cs.getLastD "").data =
        (c :: r).dropLast ++ [(c :: r).getLast (by simp)] := by
      rw [hd]
      exact (List.dropLast_append_getLast (by simp)).symm
    have hgm : (c :: r).getLast (by simp) ∈ (cs.getLastD "").data := by
      rw [hd]
      exact List.getLast_mem _
    have hgne : (c :: r).getLast (by simp) ≠ '/' := fun hc => hlnd (hc ▸ hgm)
    apply strEnds_div_false _ (y ++ (c :: r).dropLast) _
      (by rw [hy, hsplit, List.append_assoc]) hgne

theorem dropTrailingEmpty_id (l : List String) (h : ∀ c ∈ l, c ≠ "") :
    dropTrailingEmpty l = l := by
  rw [dropTrailingEmpty]
  have hdw : l.reverse.dropWhile (fun c => c = "") = l.reverse := by
    cases hr : l.reverse with
    | nil => rfl
    | cons a t =>
      have ha : a ∈ l := by
        rw [← List.mem_reverse, hr]
        exact List.mem_cons_self a t
      rw [List.dropWhile_cons]
      simp [h a ha]
  rw [hdw, List.reverse_reverse]

end RagSpec

namespace RagSpec

theorem cleanPath_comps_spec (p : String) (h : cleanPath p = true) :
    ∀ c ∈ comps p, c ≠ "" ∧ '/' ∉ String.data c :=
  fun c hc => ⟨cleanPath_mem p c h hc, comps_no_div p c hc⟩

theorem strStarts_div_append (x s2 : String) (hx : x ≠ "") (hnd : '/' ∉ x.data) :
    strStarts "/" (x ++ s2) = false := by
  cases hd : x.data with
  | nil => exact absurd hd (str_ne_empty_data x hx)
  | cons c r =>
    have hc : c ≠ '/' := by
      intro hc
      rw [hd, hc] at hnd
      exact hnd (List.mem_cons_self _ _)
    apply strStarts_div_false _ c (r ++ s2.data) ?_ hc
    simp [String.data_append, hd]

theorem strEnds_div_append (a b : String) (z : List Char) (c : Char)
    (hbd : b.data = z ++ [c]) (hc : c ≠ '/') : strEnds "/" (a ++ b) = false := by
  apply strEnds_div_false _ (a.data ++ z) c ?_ hc
  simp [String.data_append, hbd]

theorem append_ne_empty_right (a b : String) (hb : b ≠ "") : a ++ b ≠ "" := by
  intro he
  have hd := congrArg String.data he
  simp only [String.data_append] at hd
  exact str_ne_empty_data b hb (List.append_eq_nil.mp hd).2

theorem comps_relpp (ob : String) (h : cleanPath ob = true) :
    comps (relationship_part_path ob) =
      (comps ob).dropLast ++ ["_rels", lastComp ob ++ ".rels"] := by
  have hcl := cleanPath_comps_spec ob h
  have hfnm : lastComp ob ∈ comps ob := getLastD_mem _ (comps_ne_nil ob) ""
  obtain ⟨hfne, hfnd⟩ := hcl _ hfnm
  have hbstart : strStarts "/" (lastComp ob ++ ".rels") = false :=
    strStarts_div_append _ _ hfne hfnd
  have hbdiv : '/' ∉ (lastComp ob ++ ".rels").data := by
    simp only [String.data_append]
    intro hm
    rcases List.mem_append.mp hm with hm1 | hm2
    · exact hfnd hm1
    · revert hm2
      decide
  simp only [relationship_part_path]
  cases hcs : comps ob with
  | nil => exact absurd hcs (comps_ne_nil ob)
  | cons x t =>
    obtain ⟨hxne, hxnd⟩ := hcl x (hcs ▸ List.mem_cons_self _ _)
    cases t with
    | nil =>
      have hdir : posixDirname ob = "" := by
        simp only [posixDirname, hcs]
        rw [if_pos (by simp)]
      rw [hdir, if_pos rfl, posixJoin]
      simp only [hbstart, Bool.false_eq_true, if_false,
        if_neg (show ¬ ("_rels" : String) = "" by decide),
        show strEnds "/" "_rels" = false from by decide]
      rw [comps_append_div, comps_single "_rels" (by decide), comps_single _ hbdiv]
      simp
    | cons y t2 =>
      have hlen : ¬ ((comps ob).length ≤ 1) := by rw [hcs]; simp
      have hallne : ∀ c ∈ (comps ob).dropLast, c ≠ "" ∧ '/' ∉ String.data c :=
        fun c hc => hcl c ((List.dropLast_prefix _).subset hc)
      have hdle : (comps ob).dropLast = x :: (y :: t2).dropLast := by rw [hcs]; rfl
      have hdlne : (comps ob).dropLast ≠ [] := by rw [hdle]; simp
      have hhne : ¬ ((comps ob).dropLast.all (fun c => c = "")) = true := by
        intro hall
        rw [List.all_eq_true] at hall
        have hx0 : x ∈ (comps ob).dropLast := by
          rw [hdle]
          exact List.mem_cons_self _ _
        exact (hallne x hx0).1 (by simpa using hall x hx0)
      have hdir : posixDirname ob = joinComps ((comps ob).dropLast) := by
        simp only [posixDirname]
        rw [if_neg hlen, if_neg hhne,
          dropTrailingEmpty_id _ (fun c hc => (hallne c hc).1)]
      have hdirne : joinComps ((comps ob).dropLast) ≠ "" := by
        rw [hdle]
        exact joinComps_ne_empty x _ hxne
      have hdirnd : ∀ c ∈ (comps ob).dropLast, '/' ∉ String.data c :=
        fun c hc => (hallne c hc).2
      have hj1 : posixJoin (joinComps ((comps ob).dropLast)) "_rels" =
          joinComps ((comps ob).dropLast) ++ "/" ++ "_rels" := by
        rw [posixJoin]
        simp only [show strStarts "/" "_rels" = false from by decide,
          Bool.false_eq_true, if_false, if_neg hdirne,
          joinComps_strEnds_div _ hdlne hallne]
      have hane : joinComps ((comps ob).dropLast) ++ "/" ++ "_rels" ≠ "" :=
        append_ne_empty_right _ _ (by decide)
      have hj2 : posixJoin (joinComps ((comps ob).dropLast) ++ "/" ++ "_rels")
          (lastComp ob ++ ".rels") =
          joinComps ((comps ob).dropLast) ++ "/" ++ "_rels" ++ "/"
            ++ (lastComp ob ++ ".rels") := by
        rw [posixJoin]
        simp only [hbstart, Bool.false_eq_true, if_false, if_neg hane,
          strEnds_div_append _ "_rels" ['_', 'r', 'e', 'l'] 's' (by decide) (by decide)]
      rw [hdir, if_neg hdirne, hj1, hj2, comps_append_div, comps_append_div,
        comps_joinComps _ hdlne hdirnd, comps_single "_rels" (by decide),
        comps_single _ hbdiv]
      simp [hcs]

end RagSpec

namespace RagSpec

theorem companionOwner_relpp (ob : String) (h : cleanPath ob = true) :
    companionOwner (relationship_part_path ob) = some ob := by
  have hfnm : lastComp ob ∈ comps ob := getLastD_mem _ (comps_ne_nil ob) ""
  have hfne : lastComp ob ≠ "" := cleanPath_mem ob _ h hfnm
  have hrev : (comps (relationship_part_path ob)).reverse =
      (lastComp ob ++ ".rels") :: "_rels" :: ((comps ob).dropLast).reverse := by
    rw [comps_relpp ob h]
    simp
  have hsuf : strEnds ".rels" (lastComp ob ++ ".rels") = true := by
    rw [strEnds]
    have hd : (lastComp ob ++ ".rels").data = (lastComp ob).data ++ ".rels".data := by
      simp [String.data_append]
    rw [hd]
    exact List.isSuffixOf_iff_suffix.mpr (List.suffix_append _ _)
  have hne5 : lastComp ob ++ ".rels" ≠ ".rels" := by
    intro he
    have hlen := congrArg (fun s => s.data.length) he
    simp only [String.data_append, List.length_append] at hlen
    have h50 : (lastComp ob).data.length = 0 := by
      have h5 : (".rels" : String).data.length = 5 := by decide
      rw [h5] at hlen
      omega
    exact hfne (strData_ext _ "" (List.length_eq_zero.mp h50))
  have hco : companionOwner (relationship_part_path ob) =
      if ("_rels" : String) = "_rels" ∧ strEnds ".rels" (lastComp ob ++ ".rels") ∧
          lastComp ob ++ ".rels" ≠ ".rels" then
        some (joinComps (((comps ob).dropLast.reverse).reverse ++
          [⟨(lastComp ob ++ ".rels").data.take ((lastComp ob ++ ".rels").data.length - 5)⟩]))
      else none := by
    unfold companionOwner
    rw [hrev]
  rw [hco, if_pos ⟨rfl, hsuf, hne5⟩]
  have htake : (lastComp ob ++ ".rels").data.take
      ((lastComp ob ++ ".rels").data.length - 5) = (lastComp ob).data := by
    have hd : (lastComp ob ++ ".rels").data = (lastComp ob).data ++ ".rels".data := by
      simp [String.data_append]
    rw [hd, List.length_append, show (".rels" : String).data.length = 5 from by decide]
    have hsub : (lastComp ob).data.length + 5 - 5 = (lastComp ob).data.length := by omega
    rw [hsub]
    exact List.take_left _ _
  rw [htake, List.reverse_reverse]
  have hmk : (⟨(lastComp ob).data⟩ : String) = lastComp ob := rfl
  rw [hmk, show lastComp ob = (comps ob).getLastD "" from rfl,
    dropLast_append_getLastD _ (comps_ne_nil ob) "", joinComps_comps]

theorem companion_relsLike (ob : String) (h : cleanPath ob = true) :
    relsLike (relationship_part_path ob) = true := by
  rw [relsLike, comps_relpp ob h]
  apply List.elem_eq_true_of_mem
  simp

theorem cleanPath_relpp (ob : String) (h : cleanPath ob = true) :
    cleanPath (relationship_part_path ob) = true := by
  rw [cleanPath, comps_relpp ob h, List.all_append, Bool.and_eq_true]
  constructor
  · rw [List.all_eq_true]
    intro c hc
    simpa using cleanPath_mem ob c h ((List.dropLast_prefix _).subset hc)
  · have hfnm : lastComp ob ∈ comps ob := getLastD_mem _ (comps_ne_nil ob) ""
    have hfne : lastComp ob ≠ "" := cleanPath_mem ob _ h hfnm
    simp only [List.all_cons, List.all_nil, Bool.and_eq_true]
    refine ⟨by decide, ?_, trivial⟩
    simpa using append_ne_empty_right (lastComp ob) ".rels" (by decide)

theorem relpp_inj (p q : String) (hp : cleanPath p = true) (hq : cleanPath q = true)
    (he : relationship_part_path p = relationship_part_path q) : p = q := by
  have h1 := companionOwner_relpp p hp
  rw [he, companionOwner_relpp q hq] at h1
  exact (Option.some.inj h1).symm

theorem relpp_ne_of_owner_none (k : String) (hk : companionOwner k = none)
    (ob : String) (hob : cleanPath ob = true) : relationship_part_path ob ≠ k := by
  intro he
  have hco := companionOwner_relpp ob hob
  rw [he, hk] at hco
  cases hco

end RagSpec

namespace RagSpec

/-! ## C2: the relationship-closure invariant -/

/-- The worksheet/chartsheet prefix exception of `prune_workbook_rels`. -/
def wsEx (t : String) : Bool :=
  strStarts "xl/worksheets" t || strStarts "xl/chartsheets" t

/-- Every visited part has been written into the entries. -/
def SeenKeys (st : CopyState) : Prop := ∀ x ∈ st.seen, x ∈ keysOf st.entries

/-- The closure invariant: every internal, normalizable relationship of any
companion relationship file stored in the entries resolves to a visited
part, a still-pending copy target, or (for the workbook companion `wbr`
only) a worksheet/chartsheet-prefixed path. -/
def RelClosure (wbr : String) (P : List String) (st : CopyState) : Prop :=
  ∀ ob l, cleanPath ob = true →
    lookupPart st.entries (relationship_part_path ob) = some (.rels l) →
    ∀ r ∈ l, ¬ r.targetMode = "External" →
    ∀ t, normalize_target_path ob r.target = some t →
      t ∈ st.seen ∨ t ∈ P ∨ (relationship_part_path ob = wbr ∧ wsEx t = true)

/-- All part paths of the source archive are in canonical form. -/
def cleanKeys (src : Archive) : Bool := (keysOf src).all cleanPath

/-- Target sanity for one relationship found at companion path `c`: if its
target normalizes against the owning base, the result is a canonical path
outside relationship space. -/
def h2okRel (c : String) (r : Rel) : Bool :=
  match companionBase c with
  | some b =>
    match normalize_target_path b r.target with
    | some t => cleanPath t && !(relsLike t)
    | none => true
  | none => true

def h2okEntry (e : String × Content) : Bool :=
  match e.2 with
  | .rels l => l.all (fun r => h2okRel e.1 r)
  | _ => true

/-- Target sanity for the whole source: no relationship of any relationship
file in the source resolves into relationship space or to a non-canonical
path. -/
def H2src (src : Archive) : Bool := src.all h2okEntry

theorem cleanKeys_spec (src : Archive) (h : cleanKeys src = true) :
    ∀ p ∈ keysOf src, cleanPath p = true := by
  rw [cleanKeys, List.all_eq_true] at h
  exact h

theorem H2src_spec (src : Archive) (h : H2src src = true) (c : String) (l : List Rel)
    (hl : lookupPart src c = some (.rels l)) : ∀ r ∈ l, h2okRel c r = true := by
  rw [H2src, List.all_eq_true] at h
  rw [lookupPart] at hl
  cases hf : src.find? (fun e => e.1 = c) with
  | none => rw [hf] at hl; cases hl
  | some e =>
    rw [hf] at hl
    have hmem := List.mem_of_find?_eq_some hf
    have hkey : e.1 = c := by simpa using List.find?_some hf
    have hval : e.2 = .rels l := Option.some.inj hl
    have := h e hmem
    rw [h2okEntry, hval] at this
    simp only [List.all_eq_true] at this
    intro r hr
    rw [← hkey]
    exact this r hr

theorem relClosure_empty (wbr : String) (P : List String) (w s : List String) :
    RelClosure wbr P ⟨[], w, s⟩ := by
  intro ob l hob hl
  rw [lookupPart] at hl
  cases hl

theorem relClosure_pending_mono (wbr : String) (P Q : List String) (st : CopyState)
    (hPQ : P ⊆ Q) (h : RelClosure wbr P st) : RelClosure wbr Q st := by
  intro ob l hob hl r hr hext t ht
  rcases h ob l hob hl r hr hext t ht with h1 | h1 | h1
  · exact Or.inl h1
  · exact Or.inr (Or.inl (hPQ h1))
  · exact Or.inr (Or.inr h1)

theorem relClosure_shrink_all (wbr : String) (ts Q : List String) (st : CopyState)
    (hts : ∀ x ∈ ts, x ∈ st.seen)
    (h : RelClosure wbr (ts ++ Q) st) : RelClosure wbr Q st := by
  intro ob l hob hl r hr hext t ht
  rcases h ob l hob hl r hr hext t ht with h1 | h1 | h1
  · exact Or.inl h1
  · rcases List.mem_append.mp h1 with h2 | h2
    · exact Or.inl (hts t h2)
    · exact Or.inr (Or.inl h2)
  · exact Or.inr (Or.inr h1)

theorem relClosure_insert_seen (wbr : String) (P : List String) (st : CopyState)
    (x : String) (h : RelClosure wbr P st) :
    RelClosure wbr P { st with seen := insertStr x st.seen } := by
  intro ob l hob hl r hr hext t ht
  rcases h ob l hob hl r hr hext t ht with h1 | h1 | h1
  · exact Or.inl (subset_insertStr x st.seen h1)
  · exact Or.inr (Or.inl h1)
  · exact Or.inr (Or.inr h1)

theorem relClosure_write (wbr : String) (P : List String) (st : CopyState)
    (p : String) (v : Content)
    (hnew : ∀ ob l, cleanPath ob = true → relationship_part_path ob = lstripSlash p →
      v = .rels l → ∀ r ∈ l, ¬ r.targetMode = "External" →
      ∀ t, normalize_target_path ob r.target = some t →
        t ∈ st.seen ∨ t ∈ P ∨ (relationship_part_path ob = wbr ∧ wsEx t = true))
    (h : RelClosure wbr P st) : RelClosure wbr P (write_entry st p v) := by
  intro ob l hob hl r hr hext t ht
  have hen : (write_entry st p v).entries = upsert st.entries (lstripSlash p) v := rfl
  have hsn : (write_entry st p v).seen = st.seen := rfl
  rw [hen, lookup_upsert] at hl
  rw [hsn]
  by_cases hk : relationship_part_path ob = lstripSlash p
  · rw [if_pos hk] at hl
    exact hnew ob l hob hk (Option.some.inj hl) r hr hext t ht
  · rw [if_neg hk] at hl
    exact h ob l hob hl r hr hext t ht

theorem relClosure_write_nonrels (wbr : String) (P : List String) (st : CopyState)
    (p : String) (v : Content) (hv : ∀ l, v ≠ Content.rels l)
    (h : RelClosure wbr P st) : RelClosure wbr P (write_entry st p v) := by
  apply relClosure_write wbr P st p v ?_ h
  intro ob l _ _ hvl
  exact absurd hvl (hv l)

theorem relClosure_write_noowner (wbr : String) (P : List String) (st : CopyState)
    (p : String) (v : Content)
    (hp : ∀ ob, cleanPath ob = true → relationship_part_path ob ≠ lstripSlash p)
    (h : RelClosure wbr P st) : RelClosure wbr P (write_entry st p v) := by
  apply relClosure_write wbr P st p v ?_ h
  intro ob l hob hk
  exact absurd hk (hp ob hob)

theorem seenKeys_write (st : CopyState) (p : String) (v : Content)
    (h : SeenKeys st) : SeenKeys (write_entry st p v) := by
  intro x hx
  have hsn : (write_entry st p v).seen = st.seen := rfl
  rw [hsn] at hx
  exact (mem_keys_write_entry st p v x).mpr (Or.inl (h x hx))

theorem seenKeys_insert_write (st : CopyState) (p : String) (v : Content)
    (h : SeenKeys st) :
    SeenKeys (write_entry { st with seen := insertStr (lstripSlash p) st.seen } p v) := by
  intro x hx
  have hsn : (write_entry { st with seen := insertStr (lstripSlash p) st.seen } p v).seen =
      insertStr (lstripSlash p) st.seen := rfl
  rw [hsn] at hx
  rcases (mem_insertStr x _ _).mp hx with hx1 | hx1
  · exact (mem_keys_write_entry _ p v x).mpr (Or.inl (h x hx1))
  · exact (mem_keys_write_entry _ p v x).mpr (Or.inr hx1)

theorem relClosure_upsert_noowner (wbr : String) (P : List String) (st : CopyState)
    (k : String) (v : Content)
    (hk : ∀ ob, cleanPath ob = true → relationship_part_path ob ≠ k)
    (h : RelClosure wbr P st) :
    RelClosure wbr P { st with entries := upsert st.entries k v } := by
  intro ob l hob hl r hr hext t ht
  simp only at hl
  rw [lookup_upsert, if_neg (hk ob hob)] at hl
  exact h ob l hob hl r hr hext t ht

theorem seenKeys_upsert (st : CopyState) (k : String) (v : Content)
    (h : SeenKeys st) : SeenKeys { st with entries := upsert st.entries k v } := by
  intro x hx
  simp only at hx ⊢
  exact (mem_keys_upsert _ _ _ _).mpr (Or.inl (h x hx))

end RagSpec

namespace RagSpec

theorem copyFold_subset (f : String → CopyState → OExc CopyState)
    (hf : ∀ t s s', f t s = some (.ok s') → s.seen ⊆ s'.seen)
    (ts : List String) (s s' : CopyState)
    (h : copyFold f ts (some (.ok s)) = some (.ok s')) : s.seen ⊆ s'.seen := by
  have := copyFold_pred (fun x => s.seen ⊆ x.seen) f
    (fun t s1 s2 hh hq => hq.trans (hf t s1 s2 hh)) ts s s' h
  exact this (fun x hx => hx)

theorem copy_seen_self (src : Archive) :
    ∀ (fuel : Nat) (t : String) (st st' : CopyState),
      copy_part_tree src fuel t st = some (.ok st') →
      should_skip_part (lstripSlash t) = false →
      lstripSlash t ∈ st'.seen := by
  intro fuel t st st' h hns
  cases fuel with
  | zero => rw [copy_zero] at h; cases h
  | succ fuel =>
    by_cases hg : should_skip_part (lstripSlash t) = true ∨ lstripSlash t ∈ st.seen
    · rw [copy_succ_guard src fuel t st hg] at h
      obtain rfl : st' = st := (Except.ok.inj (Option.some.inj h)).symm
      rcases hg with hg1 | hg1
      · rw [hns] at hg1; cases hg1
      · exact hg1
    · cases hl : lookupPart src (lstripSlash t) with
      | none => rw [copy_succ_missing src fuel t st hg hl] at h; cases h
      | some content =>
        rw [copy_succ_found src fuel t st content hg hl] at h
        set st1 := write_entry { st with seen := insertStr (lstripSlash t) st.seen }
          (lstripSlash t) content with hst1
        have h1 : lstripSlash t ∈ st1.seen := by
          rw [hst1, write_entry_seen]
          exact self_mem_insertStr _ _
        suffices hsub : st1.seen ⊆ st'.seen by exact hsub h1
        rw [copyRest] at h
        by_cases hrp : relationship_part_path (lstripSlash t) ∉ keysOf src ∨
            relationship_part_path (lstripSlash t) ∈ st1.seen
        · rw [if_pos hrp] at h
          obtain rfl : st' = st1 := (Except.ok.inj (Option.some.inj h)).symm
          exact fun x hx => hx
        · rw [if_neg hrp] at h
          cases hlr : lookupPart src (relationship_part_path (lstripSlash t)) with
          | none =>
            rw [hlr] at h
            obtain rfl : st' = st1 := (Except.ok.inj (Option.some.inj h)).symm
            exact fun x hx => hx
          | some rc =>
            rw [hlr] at h
            cases rc with
            | data n => cases h
            | rels l =>
              simp only at h
              set st2 := if (filterRels (lstripSlash t) (keysOf src) l).1 = [] then st1
                else
                  let w := write_entry st1 (relationship_part_path (lstripSlash t))
                    (.rels (filterRels (lstripSlash t) (keysOf src) l).1)
                  { w with seen := insertStr (relationship_part_path (lstripSlash t)) w.seen }
                with hst2
              have hsub2 : st1.seen ⊆ st2.seen := by
                rw [hst2]
                by_cases hpr : (filterRels (lstripSlash t) (keysOf src) l).1 = []
                · rw [if_pos hpr]; exact fun x hx => hx
                · rw [if_neg hpr]
                  intro x hx
                  exact subset_insertStr _ _ (by rw [write_entry_seen]; exact hx)
              exact hsub2.trans
                (copyFold_subset _ (fun a b c hh => (copy_part_tree_mono src fuel a b c hh).1)
                  _ st2 st' h)
            | workbook wb =>
              obtain rfl : st' = st1 := (Except.ok.inj (Option.some.inj h)).symm
              exact fun x hx => hx
            | ctypes o =>
              obtain rfl : st' = st1 := (Except.ok.inj (Option.some.inj h)).symm
              exact fun x hx => hx
            | appProps ap =>
              obtain rfl : st' = st1 := (Except.ok.inj (Option.some.inj h)).symm
              exact fun x hx => hx

end RagSpec

namespace RagSpec

/-- Core preservation lemma for C2: a successful `copy_part_tree` call on a
canonical, non-relationship-space part preserves the seen/key sync and the
relationship-closure invariant (for any pending list), given source-path
canonicity and target sanity. -/
theorem copy_closure (src : Archive) (wbr : String)
    (h2 : H2src src = true) :
    ∀ (fuel : Nat) (t : String) (st st' : CopyState),
      copy_part_tree src fuel t st = some (.ok st') →
      cleanPath (lstripSlash t) = true → relsLike (lstripSlash t) = false →
      SeenKeys st →
      SeenKeys st' ∧ ∀ P, RelClosure wbr P st → RelClosure wbr P st' := by
  intro fuel
  induction fuel with
  | zero =>
    intro t st st' h _ _ _
    rw [copy_zero] at h
    cases h
  | succ fuel ih =>
    intro t st st' h hctp hrlt hsk
    have hid : lstripSlash (lstripSlash t) = lstripSlash t := cleanPath_lstripSlash _ hctp
    by_cases hg : should_skip_part (lstripSlash t) = true ∨ lstripSlash t ∈ st.seen
    · rw [copy_succ_guard src fuel t st hg] at h
      obtain rfl : st' = st := (Except.ok.inj (Option.some.inj h)).symm
      exact ⟨hsk, fun P hP => hP⟩
    · cases hl : lookupPart src (lstripSlash t) with
      | none => rw [copy_succ_missing src fuel t st hg hl] at h; cases h
      | some content =>
        rw [copy_succ_found src fuel t st content hg hl] at h
        set st1 := write_entry { st with seen := insertStr (lstripSlash t) st.seen }
          (lstripSlash t) content with hst1
        have hsk1 : SeenKeys st1 := by
          rw [hst1]
          have hw := seenKeys_insert_write st (lstripSlash t) content hsk
          rw [hid] at hw
          exact hw
        have hpres1 : ∀ P, RelClosure wbr P st → RelClosure wbr P st1 := by
          intro P hP
          rw [hst1]
          apply relClosure_write
          · intro ob l0 hob hk
            rw [hid] at hk
            exfalso
            have hrl := companion_relsLike ob hob
            rw [hk, hrlt] at hrl
            cases hrl
          · exact relClosure_insert_seen wbr P st _ hP
        rw [copyRest] at h
        by_cases hrp : relationship_part_path (lstripSlash t) ∉ keysOf src ∨
            relationship_part_path (lstripSlash t) ∈ st1.seen
        · rw [if_pos hrp] at h
          obtain rfl : st' = st1 := (Except.ok.inj (Option.some.inj h)).symm
          exact ⟨hsk1, hpres1⟩
        · rw [if_neg hrp] at h
          cases hlr : lookupPart src (relationship_part_path (lstripSlash t)) with
          | none =>
            rw [hlr] at h
            obtain rfl : st' = st1 := (Except.ok.inj (Option.some.inj h)).symm
            exact ⟨hsk1, hpres1⟩
          | some rc =>
            rw [hlr] at h
            cases rc with
            | data n => cases h
            | workbook wb =>
              obtain rfl : st' = st1 := (Except.ok.inj (Option.some.inj h)).symm
              exact ⟨hsk1, hpres1⟩
            | ctypes o =>
              obtain rfl : st' = st1 := (Except.ok.inj (Option.some.inj h)).symm
              exact ⟨hsk1, hpres1⟩
            | appProps ap =>
              obtain rfl : st' = st1 := (Except.ok.inj (Option.some.inj h)).symm
              exact ⟨hsk1, hpres1⟩
            | rels l =>
              simp only at h
              have hrcl : cleanPath (relationship_part_path (lstripSlash t)) = true :=
                cleanPath_relpp _ hctp
              have hrid : lstripSlash (relationship_part_path (lstripSlash t)) =
                  relationship_part_path (lstripSlash t) :=
                cleanPath_lstripSlash _ hrcl
              have hco : companionOwner (relationship_part_path (lstripSlash t)) =
                  some (lstripSlash t) := companionOwner_relpp _ hctp
              have hcb : companionBase (relationship_part_path (lstripSlash t)) =
                  some (lstripSlash t) := by
                rw [companionBase]
                by_cases hr0 : relationship_part_path (lstripSlash t) = "_rels/.rels"
                · exfalso
                  rw [hr0] at hco
                  have hnone : companionOwner "_rels/.rels" = none := by decide
                  rw [hnone] at hco
                  cases hco
                · rw [if_neg hr0]
                  exact hco
              have h2l := H2src_spec src h2 _ l hlr
              have hmem2 : ∀ n ∈ (filterRels (lstripSlash t) (keysOf src) l).2,
                  cleanPath n = true ∧ relsLike n = false ∧ should_skip_part n = false := by
                intro n hn
                obtain ⟨hnk, hns, r, hrmem, hrext, hrnorm⟩ :=
                  filterRels_targets (lstripSlash t) (keysOf src) l n hn
                have hok := h2l r hrmem
                simp only [h2okRel, hcb, hrnorm, Bool.and_eq_true,
                  Bool.not_eq_true'] at hok
                exact ⟨hok.1, hok.2, hns⟩
              set st2 := if (filterRels (lstripSlash t) (keysOf src) l).1 = [] then st1
                else
                  let w := write_entry st1 (relationship_part_path (lstripSlash t))
                    (.rels (filterRels (lstripSlash t) (keysOf src) l).1)
                  { w with seen := insertStr (relationship_part_path (lstripSlash t)) w.seen }
                with hst2
              have hsk2 : SeenKeys st2 := by
                rw [hst2]
                by_cases hpr : (filterRels (lstripSlash t) (keysOf src) l).1 = []
                · rw [if_pos hpr]
                  exact hsk1
                · rw [if_neg hpr]
                  intro x hx
                  simp only at hx ⊢
                  rcases (mem_insertStr x _ _).mp hx with hx1 | hx1
                  · exact (mem_keys_write_entry _ _ _ x).mpr (Or.inl (hsk1 x hx1))
                  · refine (mem_keys_write_entry _ _ _ x).mpr (Or.inr ?_)
                    rw [hrid, hx1]
              have hpres2 : ∀ P, RelClosure wbr P st1 →
                  RelClosure wbr ((filterRels (lstripSlash t) (keysOf src) l).2 ++ P) st2 := by
                intro P hP
                rw [hst2]
                by_cases hpr : (filterRels (lstripSlash t) (keysOf src) l).1 = []
                · rw [if_pos hpr]
                  exact relClosure_pending_mono wbr P _ st1
                    (fun x hx => List.mem_append.mpr (Or.inr hx)) hP
                · rw [if_neg hpr]
                  apply relClosure_insert_seen
                  apply relClosure_write
                  · intro ob l' hob hk hvl r hr hext t' ht'
                    rw [hrid] at hk
                    have hobeq : ob = lstripSlash t :=
                      relpp_inj ob (lstripSlash t) hob hctp hk
                    subst hobeq
                    have hl'eq : l' = (filterRels (lstripSlash t) (keysOf src) l).1 :=
                      (Content.rels.inj hvl).symm
                    have hrmem0 : r ∈ l :=
                      filterRels_fst_sub (lstripSlash t) (keysOf src) l r (hl'eq ▸ hr)
                    have hok0 := h2l r hrmem0
                    simp only [h2okRel, hcb, ht', Bool.and_eq_true,
                      Bool.not_eq_true'] at hok0
                    have hne0 : t' ≠ "" := cleanPath_ne_empty t' hok0.1
                    have hn2 : t' ∈ (filterRels (lstripSlash t) (keysOf src) l).2 :=
                      filterRels_closure (lstripSlash t) (keysOf src) l r
                        (hl'eq ▸ hr) hext t' ht' hne0
                    exact Or.inr (Or.inl (List.mem_append.mpr (Or.inl hn2)))
                  · exact relClosure_pending_mono wbr P _ st1
                      (fun x hx => List.mem_append.mpr (Or.inr hx)) hP
              have hfold : ∀ (ts : List String),
                  (∀ n ∈ ts, n ∈ (filterRels (lstripSlash t) (keysOf src) l).2) →
                  ∀ (s s' : CopyState),
                    copyFold (fun a b => copy_part_tree src fuel a b) ts (some (.ok s)) =
                      some (.ok s') →
                    SeenKeys s →
                    SeenKeys s' ∧
                      ∀ P', RelClosure wbr (ts ++ P') s → RelClosure wbr P' s' := by
                intro ts
                induction ts with
                | nil =>
                  intro _ s s' hfl hs
                  rw [copyFold] at hfl
                  obtain rfl : s' = s := (Except.ok.inj (Option.some.inj hfl)).symm
                  exact ⟨hs, fun P' hP' => hP'⟩
                | cons n ns ihts =>
                  intro hmem s s' hfl hs
                  rw [copyFold] at hfl
                  simp only [bindOk] at hfl
                  cases hfn : copy_part_tree src fuel n s with
                  | none => rw [hfn, copyFold_none_absorb] at hfl; cases hfl
                  | some r0 =>
                    cases r0 with
                    | error e => rw [hfn, copyFold_error_absorb] at hfl; cases hfl
                    | ok smid =>
                      rw [hfn] at hfl
                      obtain ⟨hn1, hn2, hn3⟩ := hmem2 n (hmem n (List.mem_cons_self n ns))
                      have hlid : lstripSlash n = n := cleanPath_lstripSlash n hn1
                      have hstep := ih n s smid hfn (by rw [hlid]; exact hn1)
                        (by rw [hlid]; exact hn2) hs
                      have hnseen : n ∈ smid.seen := by
                        have hself := copy_seen_self src fuel n s smid hfn
                          (by rw [hlid]; exact hn3)
                        rw [hlid] at hself
                        exact hself
                      have hrest := ihts (fun m hm => hmem m (List.mem_cons_of_mem n hm))
                        smid s' hfl hstep.1
                      refine ⟨hrest.1, ?_⟩
                      intro P' hP'
                      apply hrest.2 P'
                      have hmid := hstep.2 ((n :: ns) ++ P') hP'
                      have hmid2 : RelClosure wbr ([n] ++ (ns ++ P')) smid := by
                        simpa using hmid
                      apply relClosure_shrink_all wbr [n] (ns ++ P') smid ?_ hmid2
                      intro x hx
                      rcases List.mem_cons.mp hx with rfl | hx2
                      · exact hnseen
                      · cases hx2
              obtain ⟨hskF, hpresF⟩ := hfold _ (fun m hm => hm) st2 st' h hsk2
              refine ⟨hskF, ?_⟩
              intro P hP
              exact hpresF P (hpres2 P (hpres1 P hP))

end RagSpec

namespace RagSpec

theorem prune_wb_rels_kept (wbPath : String) (keepRids : List String) :
    ∀ rels : List Rel, ∀ r ∈ (prune_workbook_rels wbPath keepRids rels).1,
      ¬ r.targetMode = "External" →
      ∀ t, normalize_target_path wbPath r.target = some t → t ≠ "" →
        wsEx t = true ∨ t ∈ (prune_workbook_rels wbPath keepRids rels).2 := by
  intro rels
  induction rels with
  | nil =>
    intro r hr
    simp [prune_workbook_rels] at hr
  | cons q rest ih =>
    intro r hr hext t ht htne
    simp only [prune_workbook_rels] at hr ⊢
    by_cases h1 : q.targetMode = "External"
    · rw [if_pos h1] at hr ⊢
      exact ih r hr hext t ht htne
    · rw [if_neg h1] at hr ⊢
      by_cases h2 : (match normalize_target_path wbPath q.target with
          | some n => should_skip_part n
          | none => false) = true
      · rw [if_pos h2] at hr ⊢
        exact ih r hr hext t ht htne
      · rw [if_neg h2] at hr ⊢
        by_cases h3 : (hasSubstr "externalLinks/" q.target || hasSubstr "pivotCache" q.target) = true
        · rw [if_pos h3] at hr ⊢
          exact ih r hr hext t ht htne
        · rw [if_neg h3] at hr ⊢
          by_cases h4 : (match normalize_target_path wbPath q.target with
              | some n => strEnds "calcChain.xml" n
              | none => false) = true
          · rw [if_pos h4] at hr ⊢
            exact ih r hr hext t ht htne
          · rw [if_neg h4] at hr ⊢
            by_cases h5 : ((hasSubstr "worksheets/" q.target || hasSubstr "chartsheets/" q.target)
                && !(keepRids.contains (q.id.getD ""))) = true
            · rw [if_pos h5] at hr ⊢
              exact ih r hr hext t ht htne
            · rw [if_neg h5] at hr ⊢
              rcases List.mem_cons.mp hr with rfl | hr2
              · simp only [ht]
                rw [if_neg htne]
                by_cases h6 : (strStarts "xl/worksheets" t || strStarts "xl/chartsheets" t) = true
                · exact Or.inl h6
                · rw [if_neg h6]
                  exact Or.inr (List.mem_cons_self t _)
              · rcases ih r hr2 hext t ht htne with hc | hc
                · exact Or.inl hc
                · cases hn : normalize_target_path wbPath q.target with
                  | none => simp only [hn]; exact Or.inr hc
                  | some m =>
                    simp only [hn]
                    by_cases hm0 : m = ""
                    · rw [if_pos hm0]
                      exact Or.inr hc
                    · rw [if_neg hm0]
                      by_cases h6 : (strStarts "xl/worksheets" m || strStarts "xl/chartsheets" m) = true
                      · rw [if_pos h6]; exact Or.inr hc
                      · rw [if_neg h6]; exact Or.inr (List.mem_cons_of_mem m hc)

theorem prune_wb_rels_targets (wbPath : String) (keepRids : List String) :
    ∀ rels : List Rel, ∀ t ∈ (prune_workbook_rels wbPath keepRids rels).2,
      should_skip_part t = false ∧
      ∃ r ∈ rels, normalize_target_path wbPath r.target = some t := by
  intro rels
  induction rels with
  | nil =>
    intro t ht
    simp [prune_workbook_rels] at ht
  | cons q rest ih =>
    intro t ht
    simp only [prune_workbook_rels] at ht
    by_cases h1 : q.targetMode = "External"
    · rw [if_pos h1] at ht
      obtain ⟨hs, r, hr, hn⟩ := ih t ht
      exact ⟨hs, r, List.mem_cons_of_mem q hr, hn⟩
    · rw [if_neg h1] at ht
      by_cases h2 : (match normalize_target_path wbPath q.target with
          | some n => should_skip_part n
          | none => false) = true
      · rw [if_pos h2] at ht
        obtain ⟨hs, r, hr, hn⟩ := ih t ht
        exact ⟨hs, r, List.mem_cons_of_mem q hr, hn⟩
      · rw [if_neg h2] at ht
        by_cases h3 : (hasSubstr "externalLinks/" q.target || hasSubstr "pivotCache" q.target) = true
        · rw [if_pos h3] at ht
          obtain ⟨hs, r, hr, hn⟩ := ih t ht
          exact ⟨hs, r, List.mem_cons_of_mem q hr, hn⟩
        · rw [if_neg h3] at ht
          by_cases h4 : (match normalize_target_path wbPath q.target with
              | some n => strEnds "calcChain.xml" n
              | none => false) = true
          · rw [if_pos h4] at ht
            obtain ⟨hs, r, hr, hn⟩ := ih t ht
            exact ⟨hs, r, List.mem_cons_of_mem q hr, hn⟩
          · rw [if_neg h4] at ht
            by_cases h5 : ((hasSubstr "worksheets/" q.target || hasSubstr "chartsheets/" q.target)
                && !(keepRids.contains (q.id.getD ""))) = true
            · rw [if_pos h5] at ht
              obtain ⟨hs, r, hr, hn⟩ := ih t ht
              exact ⟨hs, r, List.mem_cons_of_mem q hr, hn⟩
            · rw [if_neg h5] at ht
              cases hn : normalize_target_path wbPath q.target with
              | none =>
                simp only [hn] at ht
                obtain ⟨hs, r, hr, hn2⟩ := ih t ht
                exact ⟨hs, r, List.mem_cons_of_mem q hr, hn2⟩
              | some m =>
                simp only [hn] at ht
                by_cases hm0 : m = ""
                · rw [if_pos hm0] at ht
                  obtain ⟨hs, r, hr, hn2⟩ := ih t ht
                  exact ⟨hs, r, List.mem_cons_of_mem q hr, hn2⟩
                · rw [if_neg hm0] at ht
                  by_cases h6 : (strStarts "xl/worksheets" m || strStarts "xl/chartsheets" m) = true
                  · rw [if_pos h6] at ht
                    obtain ⟨hs, r, hr, hn2⟩ := ih t ht
                    exact ⟨hs, r, List.mem_cons_of_mem q hr, hn2⟩
                  · rw [if_neg h6] at ht
                    rcases List.mem_cons.mp ht with rfl | ht2
                    · refine ⟨?_, q, List.mem_cons_self q rest, hn⟩
                      cases hsp : should_skip_part t with
                      | false => rfl
                      | true =>
                        exfalso
                        apply h2
                        simp only [hn]
                        exact hsp
                    · obtain ⟨hs, r, hr, hn2⟩ := ih t ht2
                      exact ⟨hs, r, List.mem_cons_of_mem q hr, hn2⟩

theorem prune_wb_rels_fst_sub (wbPath : String) (keepRids : List String) :
    ∀ rels : List Rel, ∀ r ∈ (prune_workbook_rels wbPath keepRids rels).1, r ∈ rels := by
  intro rels
  induction rels with
  | nil =>
    intro r hr
    simp [prune_workbook_rels] at hr
  | cons q rest ih =>
    intro r hr
    simp only [prune_workbook_rels] at hr
    by_cases h1 : q.targetMode = "External"
    · rw [if_pos h1] at hr
      exact List.mem_cons_of_mem q (ih r hr)
    · rw [if_neg h1] at hr
      by_cases h2 : (match normalize_target_path wbPath q.target with
          | some n => should_skip_part n
          | none => false) = true
      · rw [if_pos h2] at hr
        exact List.mem_cons_of_mem q (ih r hr)
      · rw [if_neg h2] at hr
        by_cases h3 : (hasSubstr "externalLinks/" q.target || hasSubstr "pivotCache" q.target) = true
        · rw [if_pos h3] at hr
          exact List.mem_cons_of_mem q (ih r hr)
        · rw [if_neg h3] at hr
          by_cases h4 : (match normalize_target_path wbPath q.target with
              | some n => strEnds "calcChain.xml" n
              | none => false) = true
          · rw [if_pos h4] at hr
            exact List.mem_cons_of_mem q (ih r hr)
          · rw [if_neg h4] at hr
            by_cases h5 : ((hasSubstr "worksheets/" q.target || hasSubstr "chartsheets/" q.target)
                && !(keepRids.contains (q.id.getD ""))) = true
            · rw [if_pos h5] at hr
              exact List.mem_cons_of_mem q (ih r hr)
            · rw [if_neg h5] at hr
              rcases List.mem_cons.mp hr with rfl | hr2
              · exact List.mem_cons_self r rest
              · exact List.mem_cons_of_mem q (ih r hr2)

end RagSpec

namespace RagSpec

theorem ridTarget_spec (wbPath : String) (rels : List Rel) (rid t : String)
    (h : ridTarget wbPath rels rid = some t) :
    ∃ r ∈ rels, normalize_target_path wbPath r.target = some t := by
  rw [ridTarget] at h
  obtain ⟨r, hr, hf⟩ := List.exists_of_findSome?_eq_some h
  refine ⟨r, List.mem_reverse.mp hr, ?_⟩
  by_cases hi : r.id = some rid
  · rw [if_pos hi] at hf
    cases hn : normalize_target_path wbPath r.target with
    | none =>
      simp only [hn] at hf
      exact hf
    | some t2 =>
      simp only [hn] at hf
      by_cases hemp : t2 = ""
      · rw [if_pos hemp] at hf
        cases hf
      · rw [if_neg hemp] at hf
        exact hf
  · rw [if_neg hi] at hf
    cases hf

theorem sheetInfosGo_targets (wbPath : String) (rels : List Rel) :
    ∀ (entries : List SheetEntry) (idx : Nat) (l : List SheetInfo),
      sheetInfosGo wbPath rels entries idx = .ok l →
      ∀ info ∈ l, ∃ r ∈ rels, normalize_target_path wbPath r.target = some info.target := by
  intro entries
  induction entries with
  | nil =>
    intro idx l h info hi
    rw [sheetInfosGo] at h
    obtain rfl : l = [] := (Except.ok.inj h).symm
    cases hi
  | cons en rest ih =>
    intro idx l h info hi
    by_cases hrid : en.rid.getD "" = ""
    · rw [sheetInfosGo_cons_skip wbPath rels en rest idx hrid] at h
      exact ih (idx + 1) l h info hi
    · cases hrt : ridTarget wbPath rels (en.rid.getD "") with
      | none =>
        rw [sheetInfosGo_cons_none wbPath rels en rest idx hrid hrt] at h
        cases h
      | some t =>
        by_cases ht : t = ""
        · subst ht
          rw [sheetInfosGo_cons_empty wbPath rels en rest idx hrid hrt] at h
          cases h
        · rw [sheetInfosGo_cons_ok wbPath rels en rest idx t hrid hrt ht] at h
          cases hgo : sheetInfosGo wbPath rels rest (idx + 1) with
          | error e => rw [hgo] at h; cases h
          | ok l2 =>
            rw [hgo] at h
            simp only [Except.map] at h
            obtain rfl : l = ⟨en.name.getD "Sheet", en.rid.getD "", t, idx⟩ :: l2 :=
              (Except.ok.inj h).symm
            rcases List.mem_cons.mp hi with rfl | hi2
            · exact ridTarget_spec wbPath rels (en.rid.getD "") t hrt
            · exact ih (idx + 1) l2 hgo info hi2

theorem load_sheet_infos_targets (wb : Workbook) (wbPath : String) (rels : List Rel)
    (l : List SheetInfo) (h : load_sheet_infos wb wbPath rels = .ok l) :
    ∀ info ∈ l, ∃ r ∈ rels, normalize_target_path wbPath r.target = some info.target := by
  rw [load_sheet_infos] at h
  cases hs : wb.sheets with
  | none => rw [hs] at h; cases h
  | some entries =>
    rw [hs] at h
    simp only at h
    cases hgo : sheetInfosGo wbPath rels entries 0 with
    | error e => rw [hgo] at h; cases h
    | ok l2 =>
      rw [hgo] at h
      cases l2 with
      | nil => cases h
      | cons i0 l3 =>
        obtain rfl : l = i0 :: l3 := (Except.ok.inj h).symm
        exact sheetInfosGo_targets wbPath rels entries 0 _ hgo

theorem load_root_rel_targets (c : Option Content) (rr : Option (List Rel) × List String)
    (h : load_root_relationships c = .ok rr) :
    ∀ x ∈ rr.2, ∃ l0 r, c = some (.rels l0) ∧ r ∈ l0 ∧
      normalize_target_path "_rels/.rels" r.target = some x := by
  intro x hx
  cases c with
  | none =>
    rw [load_root_relationships] at h
    obtain rfl : rr = (none, []) := (Except.ok.inj h).symm
    cases hx
  | some cc =>
    cases cc with
    | data n => rw [load_root_relationships] at h; cases h
    | rels l =>
      rw [load_root_relationships] at h
      obtain rfl : rr = (some l, _) := (Except.ok.inj h).symm
      simp only at hx
      obtain ⟨r, hr, hf⟩ := List.mem_filterMap.mp hx
      refine ⟨l, r, rfl, hr, ?_⟩
      cases hn : normalize_target_path "_rels/.rels" r.target with
      | none =>
        simp only [hn] at hf
        exact hf
      | some n =>
        simp only [hn] at hf
        by_cases hemp : n = ""
        · rw [if_pos hemp] at hf; cases hf
        · rw [if_neg hemp] at hf
          by_cases hwb : n = "xl/workbook.xml"
          · rw [if_pos hwb] at hf; cases hf
          · rw [if_neg hwb] at hf
            exact hf
    | workbook wb =>
      rw [load_root_relationships] at h
      · obtain rfl : rr = (some [], []) := (Except.ok.inj h).symm
        cases hx
      · intro n2 hc
        cases hc
      · intro l2 hc
        cases hc
    | ctypes o =>
      rw [load_root_relationships] at h
      · obtain rfl : rr = (some [], []) := (Except.ok.inj h).symm
        cases hx
      · intro n2 hc
        cases hc
      · intro l2 hc
        cases hc
    | appProps a =>
      rw [load_root_relationships] at h
      · obtain rfl : rr = (some [], []) := (Except.ok.inj h).symm
        cases hx
      · intro n2 hc
        cases hc
      · intro l2 hc
        cases hc

theorem splitPrelude_spec (src : Archive) (pd : PreludeData)
    (h : splitPrelude src = .ok pd) :
    pd.workbook_path ∈ keysOf src ∧
    (pd.wbRels = [] ∨
      lookupPart src (relationship_part_path pd.workbook_path) = some (.rels pd.wbRels)) ∧
    (∀ x ∈ pd.rootTargets, ∃ l0 r, lookupPart src "_rels/.rels" = some (.rels l0) ∧
      r ∈ l0 ∧ normalize_target_path "_rels/.rels" r.target = some x) ∧
    (∀ info ∈ pd.sheets,
      ∃ r ∈ pd.wbRels, normalize_target_path pd.workbook_path r.target = some info.target) := by
  rw [splitPrelude] at h
  cases hct : lookupPart src "[Content_Types].xml" with
  | none => rw [hct] at h; cases h
  | some ctc =>
    rw [hct] at h
    simp only at h
    cases hov : asOverrides ctc with
    | error e =>
      rw [hov] at h
      simp only [Except.bind, bind, Except.instMonad] at h
      cases h
    | ok ovs =>
      rw [hov] at h
      simp only [Except.bind, bind, Except.instMonad] at h
      cases hwp : load_workbook_path ovs with
      | error e => rw [hwp] at h; cases h
      | ok wbPath =>
        rw [hwp] at h
        simp only at h
        cases hwb : lookupPart src wbPath with
        | none => rw [hwb] at h; cases h
        | some wbc =>
          rw [hwb] at h
          simp only at h
          cases hwbk : asWorkbook wbc with
          | error e =>
            rw [hwbk] at h
            simp only [Except.bind, bind, Except.instMonad] at h
            cases h
          | ok wb =>
            rw [hwbk] at h
            simp only [Except.bind, bind, Except.instMonad] at h
            cases hwr : lookupPart src (relationship_part_path wbPath) with
            | none => rw [hwr] at h; cases h
            | some wrc =>
              rw [hwr] at h
              simp only at h
              cases hrl : asRels wrc with
              | error e =>
                rw [hrl] at h
                simp only [Except.bind, bind, Except.instMonad] at h
                cases h
              | ok rels =>
                rw [hrl] at h
                simp only [Except.bind, bind, Except.instMonad] at h
                cases hsi : load_sheet_infos wb wbPath rels with
                | error e => rw [hsi] at h; cases h
                | ok sheets =>
                  rw [hsi] at h
                  cases hrr : load_root_relationships (lookupPart src "_rels/.rels") with
                  | error e => rw [hrr] at h; cases h
                  | ok rr =>
                    rw [hrr] at h
                    obtain rfl : pd = ⟨ovs, wbPath, wb, rels, sheets, rr.1, rr.2⟩ :=
                      Except.ok.inj h.symm
                    refine ⟨lookupPart_some_mem src wbPath wbc hwb, ?_, ?_, ?_⟩
                    · simp only
                      cases wrc with
                      | rels l2 =>
                        right
                        rw [asRels] at hrl
                        obtain rfl : l2 = rels := Except.ok.inj hrl
                        exact hwr
                      | data n => rw [asRels] at hrl; cases hrl
                      | workbook w2 =>
                        left
                        rw [asRels] at hrl
                        · exact (Except.ok.inj hrl).symm
                        · intro a1 hc
                          cases hc
                        · intro a1 hc
                          cases hc
                      | ctypes o =>
                        left
                        rw [asRels] at hrl
                        · exact (Except.ok.inj hrl).symm
                        · intro a1 hc
                          cases hc
                        · intro a1 hc
                          cases hc
                      | appProps a =>
                        left
                        rw [asRels] at hrl
                        · exact (Except.ok.inj hrl).symm
                        · intro a1 hc
                          cases hc
                        · intro a1 hc
                          cases hc
                    · intro x hx
                      exact load_root_rel_targets _ rr hrr x hx
                    · intro info hi
                      exact load_sheet_infos_targets wb wbPath rels sheets hsi info hi

end RagSpec

namespace RagSpec

theorem copyFold_pred_mem (Q : CopyState → Prop) (f : String → CopyState → OExc CopyState) :
    ∀ (ts : List String),
      (∀ t ∈ ts, ∀ s s', f t s = some (.ok s') → Q s → Q s') →
      ∀ s s', copyFold f ts (some (.ok s)) = some (.ok s') → Q s → Q s' := by
  intro ts
  induction ts with
  | nil =>
    intro _ s s' h hq
    rw [copyFold] at h
    obtain rfl : s' = s := (Except.ok.inj (Option.some.inj h)).symm
    exact hq
  | cons t ts ih =>
    intro hts s s' h hq
    rw [copyFold] at h
    simp only [bindOk] at h
    cases hft : f t s with
    | none => rw [hft, copyFold_none_absorb] at h; cases h
    | some r =>
      cases r with
      | error e => rw [hft, copyFold_error_absorb] at h; cases h
      | ok smid =>
        rw [hft] at h
        exact ih (fun m hm => hts m (List.mem_cons_of_mem t hm)) smid s' h
          (hts t (List.mem_cons_self t ts) s smid hft hq)

theorem copyFold_mem_seen (src : Archive) (fuel : Nat) :
    ∀ (ts : List String) (s s' : CopyState),
      copyFold (fun a b => copy_part_tree src fuel a b) ts (some (.ok s)) = some (.ok s') →
      ∀ n ∈ ts, should_skip_part (lstripSlash n) = false → lstripSlash n ∈ s'.seen := by
  intro ts
  induction ts with
  | nil => intro s s' _ n hn; cases hn
  | cons t ts ih =>
    intro s s' h n hn hns
    rw [copyFold] at h
    simp only [bindOk] at h
    cases hft : copy_part_tree src fuel t s with
    | none => rw [hft, copyFold_none_absorb] at h; cases h
    | some r =>
      cases r with
      | error e => rw [hft, copyFold_error_absorb] at h; cases h
      | ok smid =>
        rw [hft] at h
        rcases List.mem_cons.mp hn with rfl | hn2
        · have hself := copy_seen_self src fuel n s smid hft hns
          exact copyFold_subset _ (fun a b c hh => (copy_part_tree_mono src fuel a b c hh).1)
            ts smid s' h hself
        · exact ih smid s' h n hn2 hns

/-- Archive-level closure for one chunk of `split_xlsx`: in the produced
entries, every internal normalizable relationship of the companion
relationship file of any canonical part resolves to a present part, except
that the workbook's own companion may keep worksheet/chartsheet-prefixed
targets. -/
theorem chunkArchive_closure (src : Archive) (pd : PreludeData) (chunk : List SheetInfo)
    (A : Archive)
    (hcl : cleanKeys src = true) (h2 : H2src src = true)
    (hpre : splitPrelude src = .ok pd)
    (hchunk : ∀ i ∈ chunk, i ∈ pd.sheets)
    (hA : chunkArchive src pd chunk = some (.ok A)) :
    ∀ ob l, cleanPath ob = true →
      lookupPart A (relationship_part_path ob) = some (.rels l) →
      ∀ r ∈ l, ¬ r.targetMode = "External" →
      ∀ t, normalize_target_path ob r.target = some t →
        t ∈ keysOf A ∨
          (relationship_part_path ob = relationship_part_path pd.workbook_path ∧
            wsEx t = true) := by
  obtain ⟨hwbk, hwbrels, hroot, hsheets⟩ := splitPrelude_spec src pd hpre
  have hwbclean : cleanPath pd.workbook_path = true := cleanKeys_spec src hcl _ hwbk
  have hwrpclean : cleanPath (relationship_part_path pd.workbook_path) = true :=
    cleanPath_relpp _ hwbclean
  have hcbwrp : companionBase (relationship_part_path pd.workbook_path) =
      some pd.workbook_path := by
    rw [companionBase]
    by_cases hr0 : relationship_part_path pd.workbook_path = "_rels/.rels"
    · exfalso
      have hco := companionOwner_relpp _ hwbclean
      rw [hr0] at hco
      have hnone : companionOwner "_rels/.rels" = none := by decide
      rw [hnone] at hco
      cases hco
    · rw [if_neg hr0]
      exact companionOwner_relpp _ hwbclean
  have hrootok : ∀ x ∈ pd.rootTargets, cleanPath x = true ∧ relsLike x = false := by
    intro x hx
    obtain ⟨l0, r, hl0, hr, hn⟩ := hroot x hx
    have hok := H2src_spec src h2 _ l0 hl0 r hr
    have hcb0 : companionBase "_rels/.rels" = some "_rels/.rels" := by
      rw [companionBase, if_pos rfl]
    simp only [h2okRel, hcb0, hn, Bool.and_eq_true, Bool.not_eq_true'] at hok
    exact hok
  have hwbrelok : ∀ r ∈ pd.wbRels,
      ∀ t, normalize_target_path pd.workbook_path r.target = some t →
        cleanPath t = true ∧ relsLike t = false := by
    intro r hr t ht
    rcases hwbrels with hnil | hlook
    · rw [hnil] at hr
      cases hr
    · have hok := H2src_spec src h2 _ pd.wbRels hlook r hr
      simp only [h2okRel, hcbwrp, ht, Bool.and_eq_true, Bool.not_eq_true'] at hok
      exact hok
  have hprok : ∀ n ∈ (prune_workbook_rels pd.workbook_path
      (chunk.map (fun s => s.rid)) pd.wbRels).2,
      cleanPath n = true ∧ relsLike n = false ∧ should_skip_part n = false := by
    intro n hn
    obtain ⟨hns, r, hr, hnorm⟩ :=
      prune_wb_rels_targets pd.workbook_path (chunk.map (fun s => s.rid)) pd.wbRels n hn
    obtain ⟨h1, h2'⟩ := hwbrelok r hr n hnorm
    exact ⟨h1, h2', hns⟩
  have hshok : ∀ x ∈ chunk.map (fun s => s.target),
      cleanPath x = true ∧ relsLike x = false := by
    intro x hx
    obtain ⟨info, hinfo, hxeq⟩ := List.mem_map.mp hx
    obtain ⟨r, hr, hnorm⟩ := hsheets info (hchunk info hinfo)
    rw [hxeq] at hnorm
    exact hwbrelok r hr x hnorm
  set wbr := relationship_part_path pd.workbook_path with hwbr
  rw [chunkArchive] at hA
  simp only at hA
  set st1 : CopyState :=
    (match pd.rootRels with
     | some l => write_entry ⟨[], [], []⟩ "_rels/.rels" (.rels l)
     | none => ⟨[], [], []⟩) with hst1
  have hq1 : SeenKeys st1 ∧ RelClosure wbr [] st1 := by
    rw [hst1]
    cases pd.rootRels with
    | none =>
      constructor
      · intro x hx; cases hx
      · exact relClosure_empty wbr [] [] []
    | some l =>
      constructor
      · apply seenKeys_write
        intro x hx
        cases hx
      · apply relClosure_write_noowner
        · intro ob hob
          rw [show lstripSlash "_rels/.rels" = "_rels/.rels" from by decide]
          exact relpp_ne_of_owner_none _ (by decide) ob hob
        · exact relClosure_empty wbr [] [] []
  cases hfA : copyFold (fun t s => copy_part_tree src (chunkFuel src) t s)
      pd.rootTargets (some (.ok st1)) with
  | none => rw [hfA] at hA; cases hA
  | some rA =>
    cases rA with
    | error e => rw [hfA] at hA; cases hA
    | ok stA =>
      rw [hfA] at hA
      simp only at hA
      have hqA : SeenKeys stA ∧ RelClosure wbr [] stA := by
        apply copyFold_pred_mem (fun s => SeenKeys s ∧ RelClosure wbr [] s) _
          pd.rootTargets ?_ st1 stA hfA hq1
        intro x hx s s' hstep hq
        obtain ⟨hx1, hx2⟩ := hrootok x hx
        have hstep2 := copy_closure src wbr h2 (chunkFuel src) x s s' hstep
          (by rw [cleanPath_lstripSlash x hx1]; exact hx1)
          (by rw [cleanPath_lstripSlash x hx1]; exact hx2) hq.1
        exact ⟨hstep2.1, hstep2.2 [] hq.2⟩
      cases hP : prune_workbook_xml pd.wb chunk with
      | error e => rw [hP] at hA; cases hA
      | ok prunedWb =>
        rw [hP] at hA
        simp only at hA
        have hqB : SeenKeys (write_entry stA pd.workbook_path (.workbook prunedWb)) ∧
            RelClosure wbr [] (write_entry stA pd.workbook_path (.workbook prunedWb)) := by
          constructor
          · exact seenKeys_write _ _ _ hqA.1
          · apply relClosure_write_nonrels
            · intro l0 hc
              cases hc
            · exact hqA.2
        set stB := write_entry stA pd.workbook_path (.workbook prunedWb) with hstB
        set prw := prune_workbook_rels pd.workbook_path (chunk.map (fun s => s.rid))
          pd.wbRels with hprw
        set stC := write_entry stB (relationship_part_path pd.workbook_path)
          (.rels prw.1) with hstC
        have hqC : SeenKeys stC ∧ RelClosure wbr prw.2 stC := by
          constructor
          · exact seenKeys_write _ _ _ hqB.1
          · rw [hstC]
            apply relClosure_write
            · intro ob l' hob hk hvl r hr hext t' ht'
              rw [cleanPath_lstripSlash _ hwrpclean] at hk
              have hobeq : ob = pd.workbook_path := relpp_inj ob pd.workbook_path hob hwbclean hk
              subst hobeq
              have hl'eq : l' = prw.1 := (Content.rels.inj hvl).symm
              have hrmem0 : r ∈ pd.wbRels :=
                prune_wb_rels_fst_sub pd.workbook_path (chunk.map (fun s => s.rid))
                  pd.wbRels r (hl'eq ▸ hr)
              have hne0 : t' ≠ "" := cleanPath_ne_empty t' (hwbrelok r hrmem0 t' ht').1
              rcases prune_wb_rels_kept pd.workbook_path _ pd.wbRels r (hl'eq ▸ hr)
                  hext t' ht' hne0 with hws | hpend
              · exact Or.inr (Or.inr ⟨rfl, hws⟩)
              · exact Or.inr (Or.inl hpend)
            · exact relClosure_pending_mono wbr [] prw.2 stB (fun x hx => by cases hx) hqB.2
        cases hfD : copyFold (fun t s => copy_part_tree src (chunkFuel src) t s)
            prw.2 (some (.ok stC)) with
        | none => rw [hfD] at hA; cases hA
        | some rD =>
          cases rD with
          | error e => rw [hfD] at hA; cases hA
          | ok stD =>
            rw [hfD] at hA
            simp only at hA
            have hqD0 : SeenKeys stD ∧ RelClosure wbr prw.2 stD := by
              apply copyFold_pred_mem (fun s => SeenKeys s ∧ RelClosure wbr prw.2 s) _
                prw.2 ?_ stC stD hfD hqC
              intro x hx s s' hstep hq
              obtain ⟨hx1, hx2, hx3⟩ := hprok x hx
              have hstep2 := copy_closure src wbr h2 (chunkFuel src) x s s' hstep
                (by rw [cleanPath_lstripSlash x hx1]; exact hx1)
                (by rw [cleanPath_lstripSlash x hx1]; exact hx2) hq.1
              exact ⟨hstep2.1, hstep2.2 prw.2 hq.2⟩
            have hqD : SeenKeys stD ∧ RelClosure wbr [] stD := by
              refine ⟨hqD0.1, ?_⟩
              apply relClosure_shrink_all wbr prw.2 [] stD ?_
              · rw [List.append_nil]
                exact hqD0.2
              · intro x hx
                obtain ⟨hx1, _, hx3⟩ := hprok x hx
                have := copyFold_mem_seen src (chunkFuel src) prw.2 stC stD hfD x hx
                  (by rw [cleanPath_lstripSlash x hx1]; exact hx3)
                rw [cleanPath_lstripSlash x hx1] at this
                exact this
            cases hfE : copyFold (fun t s => copy_part_tree src (chunkFuel src) t s)
                (chunk.map (fun s => s.target)) (some (.ok stD)) with
            | none => rw [hfE] at hA; cases hA
            | some rE =>
              cases rE with
              | error e => rw [hfE] at hA; cases hA
              | ok stE =>
                rw [hfE] at hA
                simp only at hA
                have hqE : SeenKeys stE ∧ RelClosure wbr [] stE := by
                  apply copyFold_pred_mem (fun s => SeenKeys s ∧ RelClosure wbr [] s) _
                    (chunk.map (fun s => s.target)) ?_ stD stE hfE hqD
                  intro x hx s s' hstep hq
                  obtain ⟨hx1, hx2⟩ := hshok x hx
                  have hstep2 := copy_closure src wbr h2 (chunkFuel src) x s s' hstep
                    (by rw [cleanPath_lstripSlash x hx1]; exact hx1)
                    (by rw [cleanPath_lstripSlash x hx1]; exact hx2) hq.1
                  exact ⟨hstep2.1, hstep2.2 [] hq.2⟩
                cases hU : updateAppEntries stE.entries (chunk.map (fun s => s.name)) with
                | error e => rw [hU] at hA; cases hA
                | ok ents =>
                  rw [hU] at hA
                  simp only at hA
                  have hqF : SeenKeys ({ stE with entries := ents } : CopyState) ∧
                      RelClosure wbr [] ({ stE with entries := ents } : CopyState) := by
                    rw [updateAppEntries] at hU
                    cases hlap : lookupPart stE.entries "docProps/app.xml" with
                    | none =>
                      simp only [hlap] at hU
                      obtain rfl : ents = stE.entries := (Except.ok.inj hU).symm
                      exact hqE
                    | some c =>
                      simp only [hlap] at hU
                      cases hup : update_docprops_app c (chunk.map (fun s => s.name)) with
                      | error e =>
                        rw [hup] at hU
                        simp only [Except.map] at hU
                        cases hU
                      | ok c2 =>
                        rw [hup] at hU
                        simp only [Except.map] at hU
                        obtain rfl : ents = upsert stE.entries "docProps/app.xml" c2 :=
                          (Except.ok.inj hU).symm
                        constructor
                        · exact seenKeys_upsert stE _ _ hqE.1
                        · apply relClosure_upsert_noowner
                          · intro ob hob
                            exact relpp_ne_of_owner_none _ (by decide) ob hob
                          · exact hqE.2
                  obtain rfl : A =
                      (write_entry { stE with entries := ents } "[Content_Types].xml"
                        (.ctypes (prune_content_types pd.ctOverrides
                          ({ stE with entries := ents } : CopyState).written))).entries :=
                    (Except.ok.inj (Option.some.inj hA)).symm
                  have hqG : SeenKeys (write_entry { stE with entries := ents }
                        "[Content_Types].xml"
                        (.ctypes (prune_content_types pd.ctOverrides
                          ({ stE with entries := ents } : CopyState).written))) ∧
                      RelClosure wbr [] (write_entry { stE with entries := ents }
                        "[Content_Types].xml"
                        (.ctypes (prune_content_types pd.ctOverrides
                          ({ stE with entries := ents } : CopyState).written))) := by
                    constructor
                    · exact seenKeys_write _ _ _ hqF.1
                    · apply relClosure_write_nonrels
                      · intro l0 hc
                        cases hc
                      · exact hqF.2
                  intro ob l hob hl r hr hext t ht
                  rcases hqG.2 ob l hob hl r hr hext t ht with hc | hc | hc
                  · exact Or.inl (hqG.1 t hc)
                  · cases hc
                  · exact Or.inr hc

end RagSpec

namespace RagSpec

theorem chunked_subset (k : Nat) (l : List α) (c : List α) (hc : c ∈ chunked k l) :
    ∀ x ∈ c, x ∈ l := by
  intro x hx
  have : x ∈ (chunked k l).flatten := List.mem_flatten.mpr ⟨c, hc, hx⟩
  rw [chunked_join] at this
  exact this

/-- The one-sheet source whose workbook relationships carry a dangling
target that normalizes into the worksheet prefix space. -/
def srcC2 : Archive :=
  [("[Content_Types].xml", .ctypes [⟨"/xl/workbook.xml", WORKBOOK_CONTENT_TYPE⟩]),
   ("xl/workbook.xml", .workbook ⟨some [⟨some "A", some "rId1", "1", none⟩], none⟩),
   ("xl/_rels/workbook.xml.rels", .rels
      [⟨some "rId1", "worksheets/sheet1.xml", ""⟩, ⟨some "rId2", "worksheetsX", ""⟩]),
   ("xl/worksheets/sheet1.xml", .data 1),
   ("xl/worksheetsX", .data 2)]

/-- The single chunk archive `split_xlsx srcC2 1` produces. -/
def archC2 : Archive :=
  [("xl/workbook.xml", .workbook
      ⟨some [⟨some "A", some "rId1", "1", some "1"⟩], none⟩),
   ("xl/_rels/workbook.xml.rels", .rels
      [⟨some "rId1", "worksheets/sheet1.xml", ""⟩, ⟨some "rId2", "worksheetsX", ""⟩]),
   ("xl/worksheets/sheet1.xml", .data 1),
   ("[Content_Types].xml", .ctypes [⟨"/xl/workbook.xml", WORKBOOK_CONTENT_TYPE⟩])]

/-- C2 is refuted: `prune_workbook_rels` keeps a workbook relationship whose
normalized target merely *starts with* `xl/worksheets` without recording it
as a target to copy, so the produced chunk retains the relationship
`rId2 → worksheetsX` — internal and normalizable to `xl/worksheetsX` — in the
rewritten workbook companion file while `xl/worksheetsX` is absent from the
archive. -/
theorem claim_C2_counterexample :
    split_xlsx srcC2 1 = some (.ok [archC2]) ∧
    "xl/workbook.xml" ∈ keysOf archC2 ∧
    lookupPart archC2 (relationship_part_path "xl/workbook.xml") =
      some (.rels [⟨some "rId1", "worksheets/sheet1.xml", ""⟩,
                   ⟨some "rId2", "worksheetsX", ""⟩]) ∧
    (⟨some "rId2", "worksheetsX", ""⟩ : Rel).targetMode ≠ "External" ∧
    normalize_target_path "xl/workbook.xml"
      (⟨some "rId2", "worksheetsX", ""⟩ : Rel).target = some "xl/worksheetsX" ∧
    "xl/worksheetsX" ∉ keysOf archC2 := by
  refine ⟨by decide, by decide, by decide, by decide, by decide, by decide⟩

/-- C2 (amended): for a source package whose part paths are canonical
(`cleanKeys`) and whose relationship targets never resolve to
non-canonical or relationship-space paths (`H2src`), every archive
produced by a successful `split_xlsx` satisfies the closure property up to
one exception: for every canonical part path `ob`, every relationship of
the companion relationship file stored in the archive whose target is
internal (not `TargetMode="External"`) and normalizable resolves to a part
present in the same archive, *unless* the companion is the workbook's own
relationship file and the normalized target starts with `xl/worksheets` or
`xl/chartsheets` (such relationships are kept by `prune_workbook_rels`
without their targets being scheduled for copying — see the
counterexample). -/
theorem claim_C2_amended (src : Archive) (k : Int) (pd : PreludeData)
    (archs : List Archive)
    (hclean : cleanKeys src = true)
    (hsane : H2src src = true)
    (hpre : splitPrelude src = .ok pd)
    (hrun : split_xlsx src k = some (.ok archs)) :
    ∀ A ∈ archs, ∀ ob l, cleanPath ob = true →
      lookupPart A (relationship_part_path ob) = some (.rels l) →
      ∀ r ∈ l, ¬ r.targetMode = "External" →
      ∀ t, normalize_target_path ob r.target = some t →
        t ∈ keysOf A ∨
          (relationship_part_path ob = relationship_part_path pd.workbook_path ∧
            wsEx t = true) := by
  intro A hA ob l hob hl r hr hext t ht
  rw [split_xlsx] at hrun
  by_cases hk : k < 1
  · rw [if_pos hk] at hrun
    cases hrun
  · rw [if_neg hk] at hrun
    rw [hpre] at hrun
    simp only at hrun
    obtain ⟨c, hcmem, hc⟩ := buildChunks_mem src pd _ archs hrun A hA
    exact chunkArchive_closure src pd c A hclean hsane hpre
      (chunked_subset k.toNat pd.sheets c hcmem) hc ob l hob hl r hr hext t ht

/-- Witness for `claim_C2_amended`: in the archive split from the clean
two-sheet source, the workbook companion's `rId1` relationship target
resolves to the worksheet part, which is present. -/
theorem claim_C2_amended_witness :
    "xl/worksheets/s1.xml" ∈ keysOf archC1w ∨
      (relationship_part_path "xl/workbook.xml" =
        relationship_part_path pdC1w.workbook_path ∧
        wsEx "xl/worksheets/s1.xml" = true) :=
  claim_C2_amended srcC1w 2 pdC1w [archC1w] (by decide) (by decide) (by decide) (by decide)
    archC1w (by decide) "xl/workbook.xml"
    [⟨some "rId1", "worksheets/s1.xml", ""⟩, ⟨some "rId2", "worksheets/s2.xml", ""⟩]
    (by decide) (by decide) ⟨some "rId1", "worksheets/s1.xml", ""⟩ (by decide) (by decide)
    "xl/worksheets/s1.xml" (by decide)

end RagSpec
